import Mathlib

/-!
# LinkedListAlloc: linked-list block allocation (`linkedListAlloc.c`)

A shallow embedding of the block pool, the file directory and the file operations of
`linkedListAlloc.c`, followed by the properties proved about them.

Conventions of the embedding.

* `memory` is the array of 32-bit words, a `List Nat`; its length is the block count
  (`BLOCK_COUNT`, 1000 in `main`).  An access outside the array is undefined behaviour in C and
  is reported as `Outcome.undefined`.
* `files` holds the directory slots `0 .. currentFileCount - 1`, so `currentFileCount` is the
  length of the list; the slots above it are never read by the program.
* A C string is the list of its characters before the terminating NUL.  File names are
  `List Char`; file content is a `List Int` of `char` values as the code reads them (after
  integer promotion), so that a negative `char` is representable.  Plain `char` is signed on
  some platforms and unsigned on others: a content is any list of values from -128 to 255
  (`is_char`), and `content_of` gives the values of given bytes where `char` is signed.  The
  shift of a negative `char` value and its conversion to `u_int32_t` are taken in two's
  complement (`toU32`), as the compilers of these platforms do.
* `error_and_exit` ends the process: `Outcome.exit e s` records the message and the state in
  which the process exits.
* The `while` loops that follow `next` fields take a fuel argument; the callers pass more fuel
  than there are blocks, and running out of it is reported as `Outcome.diverges`.
-/

namespace LinkedListAlloc

/-! ## Constants -/

/-- The constant `POINTER_MASK`; it is also the word of a free block. -/
def POINTER_MASK : Nat := 0xffff0000

/-- The constant `BLOCK_COUNT` of the program. -/
def BLOCK_COUNT : Nat := 1000

/-- The constant `MAX_FILENAME_LENGTH`. -/
def MAX_FILENAME_LENGTH : Nat := 10

/-- The constant `MIN_FILENAME_LENGTH`. -/
def MIN_FILENAME_LENGTH : Nat := 1

/-- The constant `MAX_FILE_COUNT`: the number of slots of the `files` array. -/
def MAX_FILE_COUNT : Nat := 20

/-- The literal `0xffff` that ends every chain walk of the program. -/
def END_OF_CHAIN : Nat := 0xffff

/-! ## State -/

/-- The struct `file_data`: first block index and name of a directory slot. -/
structure file_data where
  filePtr : Nat
  fileName : List Char
deriving DecidableEq, Repr

/-- The global state of the program: the block pool and the directory. -/
structure State where
  memory : List Nat
  files : List file_data
deriving DecidableEq, Repr

/-- The global `currentFileCount`: the number of directory slots in use. -/
def State.currentFileCount (s : State) : Nat := s.files.length

/-- The messages passed to `error_and_exit`. -/
inductive Error where
  | FILE_NOT_FOUND
  | MAX_FILENAME_LENGTH
  | MIN_FILENAME_LENGTH
  | FILE_EXISTS
  | NO_MEM_FOR_FILE
deriving DecidableEq, Repr

/-- The ways a call can end: it returns `val` in state `s`, it calls `error_and_exit`, it
accesses an array out of bounds, or it loops forever. -/
inductive Outcome (α : Type) where
  | ok (val : α) (s : State)
  | exit (e : Error) (s : State)
  | undefined
  | diverges
deriving DecidableEq, Repr

/-- The state of main after its two initialisation loops, for a pool of `n` blocks. -/
def initState (n : Nat) : State := ⟨List.replicate n POINTER_MASK, []⟩

/-! ## Block words -/

/-- Conversion of an `int` to `u_int32_t`. -/
def toU32 (x : Int) : Nat := (x % 4294967296).toNat

/-- The function `set_memory_free`. -/
def set_memory_free (mem : List Nat) (memoryIndex : Nat) : List Nat :=
  mem.set memoryIndex POINTER_MASK

/-- The function `is_memory_free`; an index outside the pool is not free. -/
def is_memory_free (mem : List Nat) (memoryIndex : Nat) : Bool :=
  mem[memoryIndex]? == some POINTER_MASK

/-- The function `get_next_block_index`, on the word of the block. -/
def next_of_word (w : Nat) : Nat := w >>> (2 * 8)

/-- The function `get_next_block_index`. -/
def get_next_block_index (mem : List Nat) (currentBlockIndex : Nat) : Option Nat :=
  (mem[currentBlockIndex]?).map next_of_word

/-- The word stored by `set_next_block_index`: `nextBlockIndex << 16 | (word & ~POINTER_MASK)`,
converted to 32 bits. -/
def set_next_word (w nextBlockIndex : Nat) : Nat :=
  ((nextBlockIndex <<< (2 * 8)) ||| (w &&& 0x0000ffff)) % 4294967296

/-- The function `set_next_block_index`, for a block index inside the pool. -/
def set_next_block_index (mem : List Nat) (currentBlockIndex nextBlockIndex : Nat) : List Nat :=
  mem.set currentBlockIndex (set_next_word (mem.getD currentBlockIndex 0) nextBlockIndex)

/-- The statement `*(memory + blockIndex) |= v`, for a block index inside the pool. -/
def or_word (mem : List Nat) (blockIndex v : Nat) : List Nat :=
  mem.set blockIndex (mem.getD blockIndex 0 ||| v)

/-- The function `find_first_free`: the scan `for (i = 0; i < BLOCK_COUNT; ++i)`. -/
def find_first_free (mem : List Nat) : Option Nat :=
  (List.range mem.length).find? (fun i => is_memory_free mem i)

/-! ## Directory -/

/-- The test `strncmp(a, b, n) == 0` on C strings. -/
def strncmp_eq (a b : List Char) (n : Nat) : Bool := a.take n == b.take n

/-- The function `get_first_block_index_from_filename`; `none` stands for the result `-1`. -/
def get_first_block_index_from_filename (s : State) (filename : List Char) : Option Nat :=
  (s.files.find? (fun f => strncmp_eq f.fileName filename MAX_FILENAME_LENGTH)).map
    (fun f => f.filePtr)

/-- The function `add_new_file`. -/
def add_new_file (s : State) (filename : List Char) : Outcome Unit :=
  if filename.length > MAX_FILENAME_LENGTH then .exit .MAX_FILENAME_LENGTH s
  else if filename.length < MIN_FILENAME_LENGTH then .exit .MIN_FILENAME_LENGTH s
  else if (get_first_block_index_from_filename s filename).isSome then .exit .FILE_EXISTS s
  else
    match find_first_free s.memory with
    | none => .exit .NO_MEM_FOR_FILE s
    | some first_free_index =>
      if s.currentFileCount < MAX_FILE_COUNT then
        .ok () ⟨s.memory.set first_free_index
                  ((s.memory.getD first_free_index 0 + 1) % 4294967296),
                s.files ++ [⟨first_free_index, filename⟩]⟩
      else .undefined

/-! ## Chain walks -/

/-- The ways a loop that follows `next` fields can end: it leaves the loop with `val`, it reads
a block outside the pool, or it runs out of fuel. -/
inductive Walk (α : Type) where
  | done (val : α)
  | undefined
  | diverges
deriving DecidableEq, Repr

/-- The loop of `count_used_blocks_for_file`. -/
def count_loop : Nat → List Nat → Nat → Nat → Walk Nat
  | 0, _, _, _ => .diverges
  | fuel + 1, mem, blockIndex, blockCount =>
    if blockIndex = 0xffff then .done blockCount
    else
      match get_next_block_index mem blockIndex with
      | none => .undefined
      | some next => count_loop fuel mem next (blockCount + 1)

/-- The function `count_used_blocks_for_file`. -/
def count_used_blocks_for_file (s : State) (filename : List Char) : Outcome Nat :=
  match get_first_block_index_from_filename s filename with
  | none => .exit .FILE_NOT_FOUND s
  | some blockIndex =>
    match count_loop (s.memory.length + 1) s.memory blockIndex 0 with
    | .done blockCount => .ok blockCount s
    | .undefined => .undefined
    | .diverges => .diverges

/-- The loop of `print_used_blocks_for_file`: the block indices printed, in order. -/
def print_loop : Nat → List Nat → Nat → List Nat → Walk (List Nat)
  | 0, _, _, _ => .diverges
  | fuel + 1, mem, blockIndex, out =>
    if blockIndex = 0xffff then .done out
    else
      match get_next_block_index mem blockIndex with
      | none => .undefined
      | some next => print_loop fuel mem next (out ++ [blockIndex])

/-- The function `print_used_blocks_for_file`; the value is the sequence of indices printed. -/
def print_used_blocks_for_file (s : State) (filename : List Char) : Outcome (List Nat) :=
  match get_first_block_index_from_filename s filename with
  | none => .exit .FILE_NOT_FOUND s
  | some blockIndex =>
    match print_loop (s.memory.length + 1) s.memory blockIndex [] with
    | .done out => .ok out s
    | .undefined => .undefined
    | .diverges => .diverges

/-! ## Writing content -/

/-- The exit of `set_file_content` when the NUL is the first byte of a block: the block was
cleared, gets the filler `0x1` and the next index `0xffff`. -/
def end_at_first_byte (s : State) (blockIndex : Nat) : State :=
  ⟨set_next_block_index (or_word (s.memory.set blockIndex 0) blockIndex 0x1) blockIndex 0xffff,
    s.files⟩

/-- The exit of `set_file_content` when the NUL is the second byte of a block: the block was
cleared, holds `c0` in its first payload byte and gets the next index `0xffff`. -/
def end_at_second_byte (s : State) (blockIndex : Nat) (c0 : Int) : State :=
  ⟨set_next_block_index
      (or_word (s.memory.set blockIndex 0) blockIndex (toU32 (c0 * 2 ^ ((1 - 0) * 8))))
      blockIndex 0xffff,
    s.files⟩

/-- The `for` loop of `set_file_content`, one block (two characters of `content`) per round;
the end of the list is the NUL of the C string. -/
def set_file_content_loop : List Int → Nat → State → Outcome Unit
  | [], blockIndex, s =>
    if blockIndex < s.memory.length then .ok () (end_at_first_byte s blockIndex)
    else .undefined
  | [c0], blockIndex, s =>
    if blockIndex < s.memory.length then
      if c0 = 0 then .ok () (end_at_first_byte s blockIndex)
      else .ok () (end_at_second_byte s blockIndex c0)
    else .undefined
  | c0 :: c1 :: rest, blockIndex, s =>
    if blockIndex < s.memory.length then
      if c0 = 0 then .ok () (end_at_first_byte s blockIndex)
      else if c1 = 0 then .ok () (end_at_second_byte s blockIndex c0)
      else
        let m :=
          or_word
            (or_word (s.memory.set blockIndex 0) blockIndex (toU32 (c0 * 2 ^ ((1 - 0) * 8))))
            blockIndex (toU32 (c1 * 2 ^ ((1 - 1) * 8)))
        match find_first_free m with
        | none => .exit .NO_MEM_FOR_FILE ⟨m, s.files⟩
        | some newBlockIndex =>
          set_file_content_loop rest newBlockIndex
            ⟨set_next_block_index m blockIndex newBlockIndex, s.files⟩
    else .undefined

/-- The function `set_file_content`. -/
def set_file_content (s : State) (filename : List Char) (content : List Int) : Outcome Unit :=
  match get_first_block_index_from_filename s filename with
  | none => .exit .FILE_NOT_FOUND s
  | some blockIndex => set_file_content_loop content blockIndex s

/-! ## Reading content -/

/-- The condition `blockData & (0xff << ((1 - j) * 8)) == '\0'` of `read_file_content`.  In C
`==` binds tighter than `&`, so the comparison is made first and its result (0 or 1) is masked
with the block word. -/
def terminator_test (blockData j : Nat) : Bool :=
  (blockData &&& (if (0xff <<< ((1 - j) * 8)) = 0 then 1 else 0)) != 0

/-- The byte stored by `read_file_content` for payload position `j`:
`(blockData & (0xff << ((1 - j) * 8))) >> ((1 - j) * 8)`, converted to `char`. -/
def payload_byte (blockData j : Nat) : Nat :=
  ((blockData &&& (0xff <<< ((1 - j) * 8))) >>> ((1 - j) * 8)) % 256

/-- The loop of `read_file_content`; `buf` is the bytes stored so far (`buffPos` is its length)
and the value `none` is the null pointer of `return 0`. -/
def read_loop : Nat → List Nat → Nat → List Nat → Walk (Option (List Nat))
  | 0, _, _, _ => .diverges
  | fuel + 1, mem, blockIndex, buf =>
    if blockIndex = 0xffff then .done (some buf)
    else
      match mem[blockIndex]? with
      | none => .undefined
      | some blockData =>
        if terminator_test blockData 0 then .done none
        else if terminator_test blockData 1 then .done none
        else
          read_loop fuel mem (next_of_word blockData)
            (buf ++ [payload_byte blockData 0, payload_byte blockData 1])

/-- The function `read_file_content`.  The value is the sequence of bytes the function has
stored in the buffer it returns (the buffer has room for one more byte, which is not written),
or `none` for the null pointer. -/
def read_file_content (s : State) (filename : List Char) : Outcome (Option (List Nat)) :=
  match count_used_blocks_for_file s filename with
  | .exit e s1 => .exit e s1
  | .undefined => .undefined
  | .diverges => .diverges
  | .ok _ _ =>
    match get_first_block_index_from_filename s filename with
    | none => .exit .FILE_NOT_FOUND s
    | some blockIndex =>
      match read_loop (s.memory.length + 1) s.memory blockIndex [] with
      | .done r => .ok r s
      | .undefined => .undefined
      | .diverges => .diverges

/-- The C string a `char *` denotes when the bytes `buf` have been stored behind it and the
byte after them is not initialised: the bytes before the first NUL, if there is one. -/
def c_string (buf : List Nat) : Option (List Nat) :=
  if 0 ∈ buf then some (buf.takeWhile (fun b => b != 0)) else none

/-! ## Deleting -/

/-- The second loop of `delete_file`, which frees the blocks of the chain. -/
def delete_loop : Nat → List Nat → Nat → Walk (List Nat)
  | 0, _, _ => .diverges
  | fuel + 1, mem, blockIndex =>
    if blockIndex = 0xffff then .done mem
    else
      match get_next_block_index mem blockIndex with
      | none => .undefined
      | some nextBlockIndex => delete_loop fuel (mem.set blockIndex POINTER_MASK) nextBlockIndex

/-- The first loop of `delete_file`: every slot with the name gets an empty name and the
pointer 0. -/
def clear_entries (files : List file_data) (filename : List Char) : List file_data :=
  files.map (fun f =>
    if strncmp_eq f.fileName filename MAX_FILENAME_LENGTH then ⟨0, []⟩ else f)

/-- The function `delete_file`. -/
def delete_file (s : State) (filename : List Char) : Outcome Unit :=
  match get_first_block_index_from_filename s filename with
  | none => .exit .FILE_NOT_FOUND s
  | some blockIndex =>
    match delete_loop (s.memory.length + 2) s.memory blockIndex with
    | .done mem => .ok () ⟨mem, clear_entries s.files filename⟩
    | .undefined => .undefined
    | .diverges => .diverges

/-! ## Vocabulary of the statements -/

/-- The chain that starts at block `blockIndex` visits exactly the blocks `l`, in this order,
and then meets the next index `0xffff`: every block of `l` is inside the pool and its next field
is the following element of `l`. -/
def isChain (mem : List Nat) : Nat → List Nat → Bool
  | blockIndex, [] => blockIndex == 0xffff
  | blockIndex, x :: xs =>
    blockIndex != 0xffff && x == blockIndex &&
      (match mem[blockIndex]? with
       | some w => isChain mem (next_of_word w) xs
       | none => false)

/-- The payload field (low 16 bits) of block `i`. -/
def payload_of (mem : List Nat) (i : Nat) : Nat := mem.getD i 0 % 65536

/-- A value of type `char`, whether `char` is signed or not. -/
def is_char (c : Int) : Prop := -128 ≤ c ∧ c ≤ 255

instance (c : Int) : Decidable (is_char c) := by
  unfold is_char; infer_instance

/-- The byte that represents the `char` value `c`: the value converted to `unsigned char`. -/
def byte_of (c : Int) : Nat := (c % 256).toNat

/-- The payload field of a block after `set_file_content` has stored the two characters `c0`
and `c1` in it. The promoted `char` values are shifted and joined by `|=` without a cast: a
negative `c1` sets every bit above its own byte, the first payload byte included. -/
def pair_payload (c0 c1 : Int) : Nat :=
  if c1 < 0 then 0xff00 + byte_of c1 else byte_of c0 * 256 + byte_of c1

/-- The payload fields that `set_file_content` leaves for a content and the NUL after it, two
characters per block; a last character alone is followed by the byte 0, and a NUL in the first
byte of a block is followed by the filler 1. -/
def payloads : List Int → List Nat
  | [] => [1]
  | [c0] => [byte_of c0 * 256]
  | c0 :: c1 :: rest => pair_payload c0 c1 :: payloads rest

/-- The `char` values of the bytes `bs` of a string where plain `char` is signed (as it is on
x86): a byte above `0x7f` is the negative value `b - 256`. For bytes up to `0x7f` these are the
values on every platform. -/
def content_of (bs : List Nat) : List Int :=
  bs.map (fun (b : Nat) => if b < 128 then (b : Int) else (b : Int) - 256)

/-- A zero-free content: `char` values, signed or not, none of them the NUL. -/
def zero_free (content : List Int) : Prop := ∀ c ∈ content, is_char c ∧ c ≠ 0

instance (content : List Int) : Decidable (zero_free content) := by
  unfold zero_free; infer_instance

/-- The number of free blocks of the pool. -/
def free_count (mem : List Nat) : Nat := mem.countP (fun w => w == POINTER_MASK)

/-! ## States of the demonstration in `main` and of the four-block scenario -/

/-- The name `"haha.h"` of the first file of `main`. -/
def haha : List Char := "haha.h".toList

/-- The state of `main` after `add_new_file("haha.h")`. -/
def demo_added : State :=
  ⟨0xffff0001 :: List.replicate 999 POINTER_MASK, [⟨0, haha⟩]⟩

/-- The state of `main` after `set_file_content("haha.h", "rdrr")`. -/
def demo_written : State :=
  ⟨0x00017264 :: 0x00027272 :: 0xffff0001 :: List.replicate 997 POINTER_MASK, [⟨0, haha⟩]⟩

/-- A run of `add_new_file` calls, one per name, stopped by the first call that does not
return. -/
def add_files (s : State) : List (List Char) → Outcome Unit
  | [] => .ok () s
  | name :: names =>
    match add_new_file s name with
    | .ok _ s1 => add_files s1 names
    | o => o

/-- Twenty one-letter file names, `"a"` to `"t"`. -/
def twenty_names : List (List Char) := (List.range 20).map (fun i => [Char.ofNat (97 + i)])

/-- The state of the program after the twenty files of `twenty_names` have been added to the
initial pool: the directory is full and 980 blocks are free. -/
def directory_full : State :=
  ⟨List.replicate 20 0xffff0001 ++ List.replicate 980 POINTER_MASK,
    (List.range 20).map (fun i => ⟨i, [Char.ofNat (97 + i)]⟩)⟩

/-- The four-block pool after `add_new_file("a")` and `set_file_content("a", "ABCDEF")`: the
chain of `"a"` is 0, 1, 2, 3 and no block is free. -/
def four_blocks_full : State :=
  ⟨[0x00014142, 0x00024344, 0x00034546, 0xffff0001], [⟨0, ['a']⟩]⟩

/-- The pool of `main` after `add_new_file("a")` and 999 calls of
`set_file_content("a", "AB")`: every call has claimed one more block for the NUL, the chain of
`"a"` is 0, 999 and no block is free. -/
def thousand_blocks_full : State :=
  ⟨(999 * 65536 + 0x4142) :: List.replicate 999 0xffff0001, [⟨0, ['a']⟩]⟩

/-- The four-block pool after `add_new_file("a")`. -/
def four_blocks_added : State :=
  ⟨[0xffff0001, 0xffff0000, 0xffff0000, 0xffff0000], [⟨0, ['a']⟩]⟩

/-- The four-block pool in which `set_file_content("a", "ABCDEFGH")` exits for lack of a fifth
block. -/
def four_blocks_no_space : State :=
  ⟨[0x00014142, 0x00024344, 0x00034546, 0x00004748], [⟨0, ['a']⟩]⟩

/-- The four-block pool in which `set_file_content("a", "ABCDEFG\xe9")` exits for lack of a
fifth block, where plain `char` is signed: the last block holds the word left by the `char`
values 71 and -23. -/
def four_blocks_no_space_high : State :=
  ⟨[0x00014142, 0x00024344, 0x00034546, 0xffffffe9], [⟨0, ['a']⟩]⟩

/-- The four-block pool after `add_new_file("a")` and `set_file_content("a", "A")`. -/
def four_blocks_one_byte : State :=
  ⟨[0xffff4100, 0xffff0000, 0xffff0000, 0xffff0000], [⟨0, ['a']⟩]⟩

/-- The four-block pool after `add_new_file("a")` and `add_new_file("b")`. -/
def four_blocks_two_added : State :=
  ⟨[0xffff0001, 0xffff0001, 0xffff0000, 0xffff0000], [⟨0, ['a']⟩, ⟨1, ['b']⟩]⟩

/-- The four-block pool after `add_new_file("a")`, `add_new_file("b")` and
`set_file_content("a", "ABCD")`: the chain of `"a"` is 0, 2, 3, the chain of `"b"` is 1, and no
block is free. -/
def four_blocks_two_files : State :=
  ⟨[0x00024142, 0xffff0001, 0x00034344, 0xffff0001], [⟨0, ['a']⟩, ⟨1, ['b']⟩]⟩

/-- The four-block pool after `add_new_file("a")` and `set_file_content("a", "a\xe9")`, where
plain `char` is signed: the content is the `char` values 97, -23. -/
def four_blocks_high_pair : State :=
  ⟨[0x0001ffe9, 0xffff0001, 0xffff0000, 0xffff0000], [⟨0, ['a']⟩]⟩

/-- The four-block pool after `add_new_file("a")` and `set_file_content("a", "\xe9a\xfc")`,
where plain `char` is signed: the content is the `char` values -23, 97, -4. -/
def four_blocks_high_bytes : State :=
  ⟨[0x0001e961, 0xfffffc00, 0xffff0000, 0xffff0000], [⟨0, ['a']⟩]⟩

/-- The pool of `main` after `add_new_file("a")` and `k` calls of
`set_file_content("a", "AB")`: block 0 holds `"AB"` and the index of the block claimed last,
and each of the `k` calls has left one block with the word `0xffff0001` behind. -/
def rewritten (k : Nat) : State :=
  ⟨(if k = 0 then 0xffff0001 else k * 65536 + 0x4142) ::
      (List.replicate k 0xffff0001 ++ List.replicate (999 - k) POINTER_MASK),
    [⟨0, ['a']⟩]⟩

/-- A run of `n` calls of `set_file_content("a", "AB")`, stopped by the first call that does
not return. -/
def write_AB_times : Nat → State → Outcome Unit
  | 0, s => .ok () s
  | n + 1, s =>
    match set_file_content s ['a'] (content_of [65, 66]) with
    | .ok _ s1 => write_AB_times n s1
    | o => o

/-! ## Reachable states -/

/-- A file name that `add_new_file` accepts: 1 to 10 characters. -/
def valid_name (name : List Char) : Prop :=
  MIN_FILENAME_LENGTH ≤ name.length ∧ name.length ≤ MAX_FILENAME_LENGTH

instance (name : List Char) : Decidable (valid_name name) := by
  unfold valid_name; infer_instance

/-- The states the program can be in after calls of `add_new_file`, `set_file_content` and
`delete_file` that have returned, with any arguments, from the initial state of a pool of `n`
blocks. (`read_file_content` and the two walks do not change the state.) -/
inductive Reachable (n : Nat) : State → Prop where
  | init : Reachable n (initState n)
  | add (s s' : State) (name : List Char) :
      Reachable n s → add_new_file s name = .ok () s' → Reachable n s'
  | write (s s' : State) (name : List Char) (content : List Int) :
      Reachable n s → set_file_content s name content = .ok () s' → Reachable n s'
  | delete (s s' : State) (name : List Char) :
      Reachable n s → delete_file s name = .ok () s' → Reachable n s'

/-- The states reached when every call is made with a valid name and every content is a
sequence of `char` values. -/
inductive ReachableValid (n : Nat) : State → Prop where
  | init : ReachableValid n (initState n)
  | add (s s' : State) (name : List Char) :
      ReachableValid n s → add_new_file s name = .ok () s' → ReachableValid n s'
  | write (s s' : State) (name : List Char) (content : List Int) :
      ReachableValid n s → valid_name name → (∀ c ∈ content, is_char c) →
      set_file_content s name content = .ok () s' → ReachableValid n s'
  | delete (s s' : State) (name : List Char) :
      ReachableValid n s → valid_name name → delete_file s name = .ok () s' →
      ReachableValid n s'

/-- A run of `k` rounds of `add_new_file("a")` followed by `delete_file("a")`, stopped by the
first call that does not return. -/
def add_delete_times : Nat → State → Outcome Unit
  | 0, s => .ok () s
  | k + 1, s =>
    match add_new_file s ['a'] with
    | .ok _ s1 =>
      match delete_file s1 ['a'] with
      | .ok _ s2 => add_delete_times k s2
      | o => o
    | o => o

/-- The state of the program after twenty rounds of `add_new_file("a")` and
`delete_file("a")`: every block is free, no file is live, and twenty directory slots are in
use. -/
def twenty_deleted : State :=
  ⟨List.replicate 1000 POINTER_MASK, List.replicate 20 ⟨0, []⟩⟩

/-- The state of the program after `add_new_file("a")` and `delete_file("a")`. -/
def one_deleted : State :=
  ⟨List.replicate 1000 POINTER_MASK, [⟨0, []⟩]⟩

/-- The indices of the free blocks of the pool, in increasing order. -/
def free_list (mem : List Nat) : List Nat :=
  (List.range mem.length).filter (fun i => is_memory_free mem i)

/-- Sequencing of two calls: the second runs in the state the first has returned in. -/
def and_then (o : Outcome Unit) (f : State → Outcome Unit) : Outcome Unit :=
  match o with
  | .ok _ s => f s
  | other => other

/-- The bytes of `"mi\nma\nmau"`, the content of the second file of `main`. -/
def muh_content : List Nat := [109, 105, 10, 109, 97, 10, 109, 97, 117]

/-- The bytes of `"veryshort"`, the content of the third file of `main`. -/
def third_content : List Nat := [118, 101, 114, 121, 115, 104, 111, 114, 116]

/-- The 52 bytes of `"Hey there. Do you know RISC V ASM? addi t0, t0, 0x10"`, the content of
the last file of `main`. -/
def long_content : List Nat :=
  [72, 101, 121, 32, 116, 104, 101, 114, 101, 46, 32, 68, 111, 32, 121, 111, 117, 32, 107, 110,
   111, 119, 32, 82, 73, 83, 67, 32, 86, 32, 65, 83, 77, 63, 32, 97, 100, 100, 105, 32, 116, 48,
   44, 32, 116, 48, 44, 32, 48, 120, 49, 48]

/-- The calls of `main` up to `add_new_file("lngfle.asm")`. -/
def main_before_long : Outcome Unit :=
  and_then (and_then (and_then (and_then (and_then (and_then (and_then
    (add_new_file (initState BLOCK_COUNT) haha)
    (fun s => set_file_content s haha (content_of [114, 100, 114, 114])))
    (fun s => add_new_file s "muh.txt".toList))
    (fun s => set_file_content s "muh.txt".toList (content_of muh_content)))
    (fun s => add_new_file s "third.c".toList))
    (fun s => set_file_content s "third.c".toList (content_of third_content)))
    (fun s => delete_file s haha))
    (fun s => add_new_file s "lngfle.asm".toList)

/-- The state of `main` after `add_new_file("lngfle.asm")`: `"haha.h"` is deleted, its blocks
1 and 2 are free, block 0 is the first block of `"lngfle.asm"`, the blocks 3 to 7 hold
`"muh.txt"`, the blocks 8 to 12 hold `"third.c"`, and the blocks from 13 on are free. -/
def demo_before_long : State :=
  ⟨[0xffff0001, 0xffff0000, 0xffff0000, 0x00046d69, 0x00050a6d, 0x0006610a, 0x00076d61,
      0xffff7500, 0x00097665, 0x000a7279, 0x000b7368, 0x000c6f72, 0xffff7400] ++
      List.replicate 987 POINTER_MASK,
    [⟨0, []⟩, ⟨3, "muh.txt".toList⟩, ⟨8, "third.c".toList⟩, ⟨0, "lngfle.asm".toList⟩]⟩

/-- The chain well-formedness invariant. A live file is a valid name that the lookup finds.
The pool has at most `0xffff` blocks; the first block of every live file is inside the pool and
its chain ends with the next index `0xffff`, visits no block twice and contains no free block;
the chains of two live files share no block. -/
def chain_inv (s : State) : Prop :=
  s.memory.length ≤ 0xffff ∧
  (∀ name h, valid_name name → get_first_block_index_from_filename s name = some h →
    h < s.memory.length ∧
    ∃ l, isChain s.memory h l = true ∧ l.Nodup ∧
      ∀ x ∈ l, is_memory_free s.memory x = false) ∧
  (∀ n1 n2 h1 h2 l1 l2, valid_name n1 → valid_name n2 → n1 ≠ n2 →
    get_first_block_index_from_filename s n1 = some h1 →
    get_first_block_index_from_filename s n2 = some h2 →
    isChain s.memory h1 l1 = true → isChain s.memory h2 l2 = true →
    ∀ x ∈ l1, x ∉ l2)

/-- The state in which a call has ended, when it has returned or exited. -/
def state_of (o : Outcome Unit) : State :=
  match o with
  | .ok _ s => s
  | .exit _ s => s
  | _ => initState 0

/-- The state of `main` after `add_new_file("muh.txt")`. -/
def demo_two_added : State := state_of (add_new_file demo_written "muh.txt".toList)

/-- The state of `main` after `set_file_content("muh.txt", "mi\nma\nmau")`: two live files,
`"haha.h"` in the blocks 0 to 2 and `"muh.txt"` in the blocks 3 to 7. -/
def demo_two_written : State :=
  state_of (set_file_content demo_two_added "muh.txt".toList (content_of muh_content))

/-! ## Block words: arithmetic form -/

theorem set_next_word_eq (w n : Nat) (hn : n ≤ 0xffff) :
    set_next_word w n = n * 65536 + w % 65536 := by
  unfold set_next_word
  have h1 : w &&& 0x0000ffff = w % 65536 := Nat.and_pow_two_sub_one_eq_mod w 16
  have h2 : n <<< (2 * 8) = 2 ^ 16 * n := by rw [Nat.shiftLeft_eq]; ring
  have h3 : w % 65536 < 2 ^ 16 := Nat.mod_lt _ (by norm_num)
  rw [h1, h2, ← Nat.mul_add_lt_is_or h3]
  omega

theorem next_of_word_eq (w : Nat) : next_of_word w = w / 65536 := by
  unfold next_of_word
  rw [Nat.shiftRight_eq_div_pow]

theorem terminator_test_false (w j : Nat) : terminator_test w j = false := by
  unfold terminator_test
  have h : (0xff <<< ((1 - j) * 8)) ≠ 0 := by
    rw [Nat.shiftLeft_eq]
    positivity
  simp [h]

theorem and_shift_byte (w : Nat) : (w &&& (0xff <<< 8)) >>> 8 = w / 256 % 256 := by
  have h : w / 256 % 256 = (w >>> 8) &&& (2 ^ 8 - 1) := by
    rw [Nat.and_pow_two_sub_one_eq_mod, Nat.shiftRight_eq_div_pow]
  rw [h]
  apply Nat.eq_of_testBit_eq
  intro i
  rw [Nat.testBit_shiftRight, Nat.testBit_and, Nat.testBit_and, Nat.testBit_shiftRight,
    Nat.testBit_shiftLeft]
  have e : (2 : Nat) ^ 8 - 1 = 0xff := by norm_num
  rw [e]
  simp

theorem payload_byte_zero (w : Nat) : payload_byte w 0 = w / 256 % 256 := by
  unfold payload_byte
  have e : (1 - 0) * 8 = 8 := by norm_num
  rw [e, and_shift_byte]
  exact Nat.mod_mod _ _

theorem payload_byte_one (w : Nat) : payload_byte w 1 = w % 256 := by
  unfold payload_byte
  have e : (1 - 1) * 8 = 0 := by norm_num
  rw [e]
  have h : (0xff : Nat) <<< 0 = 2 ^ 8 - 1 := by norm_num
  rw [h, Nat.and_pow_two_sub_one_eq_mod]
  simp

theorem byte_of_lt (c : Int) : byte_of c < 256 := by
  unfold byte_of
  omega

theorem byte_of_ne_zero (c : Int) (hc : is_char c) (h0 : c ≠ 0) : byte_of c ≠ 0 := by
  unfold byte_of
  unfold is_char at hc
  omega

theorem toU32_char_shift8 (c : Int) (hc : is_char c) :
    toU32 (c * 2 ^ ((1 - 0) * 8)) = (if c < 0 then 0xffff0000 else 0) + byte_of c * 256 := by
  unfold toU32 byte_of
  unfold is_char at hc
  have e : (c * 2 ^ ((1 - 0) * 8)) = c * 256 := by norm_num
  rw [e]
  split <;> omega

theorem toU32_char_shift0 (c : Int) (hc : is_char c) :
    toU32 (c * 2 ^ ((1 - 1) * 8)) = (if c < 0 then 0xffffff00 else 0) + byte_of c := by
  unfold toU32 byte_of
  unfold is_char at hc
  have e : (c * 2 ^ ((1 - 1) * 8)) = c := by norm_num
  rw [e]
  split <;> omega

theorem or_all_ones (a n : Nat) (h : a < 2 ^ n) : a ||| (2 ^ n - 1) = 2 ^ n - 1 := by
  apply Nat.eq_of_testBit_eq
  intro i
  rw [Nat.testBit_or, Nat.testBit_two_pow_sub_one]
  by_cases hi : i < n
  · simp [hi]
  · have : a.testBit i = false := by
      apply Nat.testBit_lt_two_pow
      calc a < 2 ^ n := h
        _ ≤ 2 ^ i := Nat.pow_le_pow_right (by norm_num) (by omega)
    simp [hi, this]

theorem or_shifted (a b y : Nat) (hy : y < 2 ^ 8) :
    (2 ^ 8 * a) ||| (2 ^ 8 * b + y) = 2 ^ 8 * (a ||| b) + y := by
  rw [Nat.mul_add_lt_is_or hy b, Nat.mul_add_lt_is_or hy (a ||| b), ← Nat.or_assoc]
  congr 1
  apply Nat.eq_of_testBit_eq
  intro i
  have h1 : ∀ x, 2 ^ 8 * x = x <<< 8 := fun x => by rw [Nat.shiftLeft_eq]; ring
  rw [h1, h1, h1, Nat.testBit_or, Nat.testBit_shiftLeft, Nat.testBit_shiftLeft,
    Nat.testBit_shiftLeft, Nat.testBit_or]
  cases decide (i ≥ 8) <;> simp

/-- The word that the two `|=` of `set_file_content` leave in a cleared block: the payload
`pair_payload c0 c1`, and in the next field 0 when both characters are non-negative and `0xffff`
(the sign extension) when one of them is negative. -/
theorem pair_word (c0 c1 : Int) (h0 : is_char c0) (h1 : is_char c1) :
    (0 ||| toU32 (c0 * 2 ^ ((1 - 0) * 8))) ||| toU32 (c1 * 2 ^ ((1 - 1) * 8)) =
      (if 0 ≤ c0 ∧ 0 ≤ c1 then 0 else 0xffff) * 65536 + pair_payload c0 c1 := by
  rw [Nat.zero_or, toU32_char_shift8 c0 h0, toU32_char_shift0 c1 h1]
  have hb0 := byte_of_lt c0
  have hb1 := byte_of_lt c1
  unfold pair_payload
  by_cases n1 : c1 < 0
  · have hA : ∃ A, (if c0 < 0 then 0xffff0000 else 0) + byte_of c0 * 256 = 2 ^ 8 * A ∧
        A < 2 ^ 24 := by
      by_cases n0 : c0 < 0
      · exact ⟨0xffff00 + byte_of c0, by rw [if_pos n0]; omega, by omega⟩
      · exact ⟨byte_of c0, by rw [if_neg n0]; omega, by omega⟩
    obtain ⟨A, hA, hlt⟩ := hA
    have hB : (if c1 < 0 then 0xffffff00 else 0) + byte_of c1 =
        2 ^ 8 * (2 ^ 24 - 1) + byte_of c1 := by
      rw [if_pos n1]; norm_num
    rw [hA, hB, or_shifted A _ _ (by omega), or_all_ones A 24 hlt, if_pos n1,
      if_neg (by omega)]
    omega
  · rw [if_neg n1, if_neg n1, Nat.zero_add]
    have hA : ∃ A, (if c0 < 0 then 0xffff0000 else 0) + byte_of c0 * 256 = 2 ^ 8 * A ∧
        A = (if c0 < 0 then 0xffff00 else 0) + byte_of c0 := by
      by_cases n0 : c0 < 0
      · exact ⟨0xffff00 + byte_of c0, by rw [if_pos n0]; omega, by rw [if_pos n0]⟩
      · exact ⟨byte_of c0, by rw [if_neg n0]; omega, by rw [if_neg n0]; omega⟩
    obtain ⟨A, hA, hAv⟩ := hA
    rw [hA, ← Nat.mul_add_lt_is_or (by omega : byte_of c1 < 2 ^ 8) A, hAv]
    by_cases n0 : c0 < 0
    · rw [if_pos n0, if_neg (by omega)]; omega
    · rw [if_neg n0, if_pos (by omega)]; omega

theorem pair_payload_facts (c0 c1 : Int) (h0 : is_char c0) (hn0 : c0 ≠ 0) :
    pair_payload c0 c1 < 65536 ∧ pair_payload c0 c1 ≠ 0 := by
  have hb0 := byte_of_lt c0
  have hb1 := byte_of_lt c1
  have hz := byte_of_ne_zero c0 h0 hn0
  unfold pair_payload
  split <;> constructor <;> omega

/-- The word of a block after the two `|=` and `set_next_block_index`. -/
theorem pair_word_linked (c0 c1 : Int) (h0 : is_char c0) (h1 : is_char c1) (nb : Nat)
    (hnb : nb ≤ 0xffff) :
    set_next_word ((0 ||| toU32 (c0 * 2 ^ ((1 - 0) * 8))) ||| toU32 (c1 * 2 ^ ((1 - 1) * 8)))
      nb = nb * 65536 + pair_payload c0 c1 := by
  rw [set_next_word_eq _ _ hnb, pair_word c0 c1 h0 h1]
  have hb0 := byte_of_lt c0
  have hb1 := byte_of_lt c1
  have : pair_payload c0 c1 < 65536 := by
    unfold pair_payload
    split <;> omega
  omega

/-! ## Memory updates -/

theorem or_word_set (mem : List Nat) (i a v : Nat) (hi : i < mem.length) :
    or_word (mem.set i a) i v = mem.set i (a ||| v) := by
  unfold or_word
  have h : (mem.set i a).getD i 0 = a := by
    simp [List.getD_eq_getElem?_getD, List.getElem?_set, hi]
  rw [h, List.set_set]

theorem set_next_block_index_set (mem : List Nat) (i a n : Nat) (hi : i < mem.length) :
    set_next_block_index (mem.set i a) i n = mem.set i (set_next_word a n) := by
  unfold set_next_block_index
  have h : (mem.set i a).getD i 0 = a := by
    simp [List.getD_eq_getElem?_getD, List.getElem?_set, hi]
  rw [h, List.set_set]

theorem end_at_first_byte_eq (s : State) (i : Nat) (hi : i < s.memory.length) :
    end_at_first_byte s i = ⟨s.memory.set i 0xffff0001, s.files⟩ := by
  unfold end_at_first_byte
  rw [or_word_set _ _ _ _ hi, set_next_block_index_set _ _ _ _ hi,
    set_next_word_eq _ _ (le_refl _)]
  simp

theorem end_at_second_byte_eq (s : State) (i : Nat) (c : Int) (hi : i < s.memory.length)
    (hc : is_char c) :
    end_at_second_byte s i c = ⟨s.memory.set i (0xffff0000 + byte_of c * 256), s.files⟩ := by
  unfold end_at_second_byte
  rw [or_word_set _ _ _ _ hi, set_next_block_index_set _ _ _ _ hi,
    set_next_word_eq _ _ (le_refl _), toU32_char_shift8 c hc, Nat.zero_or]
  have hb := byte_of_lt c
  have : ((if c < 0 then 0xffff0000 else 0) + byte_of c * 256) % 65536 = byte_of c * 256 := by
    split <;> omega
  rw [this]

/-! ## Chains -/

theorem isChain_nil (mem : List Nat) (b : Nat) : isChain mem b [] = true ↔ b = 0xffff := by
  simp [isChain]

theorem isChain_cons (mem : List Nat) (b x : Nat) (xs : List Nat) :
    isChain mem b (x :: xs) = true ↔
      b ≠ 0xffff ∧ x = b ∧ ∃ w, mem[b]? = some w ∧ isChain mem (next_of_word w) xs = true := by
  rw [isChain]
  cases h : mem[b]? <;> simp [and_assoc]

theorem isChain_lt (mem : List Nat) : ∀ (l : List Nat) (b : Nat),
    isChain mem b l = true → ∀ x ∈ l, x < mem.length := by
  intro l
  induction l with
  | nil => intro b _ x hx; simp at hx
  | cons y ys ih =>
    intro b h x hx
    rw [isChain_cons] at h
    obtain ⟨_, rfl, w, hw, hrest⟩ := h
    rcases List.mem_cons.mp hx with rfl | hx
    · by_contra hlt
      rw [List.getElem?_eq_none (by omega)] at hw
      simp at hw
    · exact ih _ hrest x hx

theorem isChain_congr (mem mem2 : List Nat) : ∀ (l : List Nat) (b : Nat),
    (∀ x ∈ l, mem2[x]? = mem[x]?) → isChain mem b l = true → isChain mem2 b l = true := by
  intro l
  induction l with
  | nil => intro b _ h; simpa [isChain] using h
  | cons y ys ih =>
    intro b hsame h
    rw [isChain_cons] at h ⊢
    obtain ⟨h1, rfl, w, hw, hrest⟩ := h
    refine ⟨h1, rfl, w, ?_, ih _ (fun x hx => hsame x (List.mem_cons_of_mem _ hx)) hrest⟩
    rw [hsame y (List.mem_cons_self _ _)]
    exact hw

theorem length_le_of_nodup_lt (l : List Nat) (n : Nat) (hd : l.Nodup) (hlt : ∀ x ∈ l, x < n) :
    l.length ≤ n := by
  have hsub : l ⊆ List.range n := fun x hx => List.mem_range.mpr (hlt x hx)
  have := (List.subperm_of_subset hd hsub).length_le
  simpa using this

theorem count_loop_chain (mem : List Nat) : ∀ (l : List Nat) (fuel b c : Nat),
    isChain mem b l = true → l.length < fuel → count_loop fuel mem b c = .done (c + l.length) := by
  intro l
  induction l with
  | nil =>
    intro fuel b c h hf
    rw [isChain_nil] at h
    obtain ⟨f, rfl⟩ : ∃ f, fuel = f + 1 := ⟨fuel - 1, by simp at hf; omega⟩
    simp [count_loop, h]
  | cons y ys ih =>
    intro fuel b c h hf
    rw [isChain_cons] at h
    obtain ⟨h1, rfl, w, hw, hrest⟩ := h
    obtain ⟨f, rfl⟩ : ∃ f, fuel = f + 1 := ⟨fuel - 1, by simp at hf; omega⟩
    simp only [List.length_cons] at hf
    rw [count_loop, if_neg h1]
    simp only [get_next_block_index, hw, Option.map_some']
    rw [ih f _ _ hrest (by omega)]
    simp only [List.length_cons]
    congr 1
    omega

theorem print_loop_chain (mem : List Nat) : ∀ (l : List Nat) (fuel b : Nat) (out : List Nat),
    isChain mem b l = true → l.length < fuel → print_loop fuel mem b out = .done (out ++ l) := by
  intro l
  induction l with
  | nil =>
    intro fuel b out h hf
    rw [isChain_nil] at h
    obtain ⟨f, rfl⟩ : ∃ f, fuel = f + 1 := ⟨fuel - 1, by simp at hf; omega⟩
    simp [print_loop, h]
  | cons y ys ih =>
    intro fuel b out h hf
    rw [isChain_cons] at h
    obtain ⟨h1, rfl, w, hw, hrest⟩ := h
    obtain ⟨f, rfl⟩ : ∃ f, fuel = f + 1 := ⟨fuel - 1, by simp at hf; omega⟩
    simp only [List.length_cons] at hf
    rw [print_loop, if_neg h1]
    simp only [get_next_block_index, hw, Option.map_some']
    rw [ih f _ _ hrest (by omega)]
    simp

/-- The bytes `read_file_content` stores for the blocks `l`. -/
theorem read_loop_chain (mem : List Nat) : ∀ (l : List Nat) (fuel b : Nat) (buf : List Nat),
    isChain mem b l = true → l.length < fuel →
    read_loop fuel mem b buf =
      .done (some (buf ++ l.flatMap (fun x =>
        [payload_byte (mem.getD x 0) 0, payload_byte (mem.getD x 0) 1]))) := by
  intro l
  induction l with
  | nil =>
    intro fuel b buf h hf
    rw [isChain_nil] at h
    obtain ⟨f, rfl⟩ : ∃ f, fuel = f + 1 := ⟨fuel - 1, by simp at hf; omega⟩
    simp [read_loop, h]
  | cons y ys ih =>
    intro fuel b buf h hf
    rw [isChain_cons] at h
    obtain ⟨h1, rfl, w, hw, hrest⟩ := h
    obtain ⟨f, rfl⟩ : ∃ f, fuel = f + 1 := ⟨fuel - 1, by simp at hf; omega⟩
    simp only [List.length_cons] at hf
    rw [read_loop, if_neg h1]
    simp only [hw, terminator_test_false]
    rw [ih f _ _ hrest (by omega)]
    simp [List.getD_eq_getElem?_getD, hw]

/-! ## The free scan -/

theorem is_memory_free_iff (mem : List Nat) (i : Nat) :
    is_memory_free mem i = true ↔ mem[i]? = some POINTER_MASK := by
  simp [is_memory_free]

theorem is_memory_free_lt (mem : List Nat) (i : Nat) (h : is_memory_free mem i = true) :
    i < mem.length := by
  rw [is_memory_free_iff] at h
  by_contra hlt
  rw [List.getElem?_eq_none (by omega)] at h
  simp at h

theorem find_first_free_some (mem : List Nat) (k : Nat) :
    find_first_free mem = some k ↔
      is_memory_free mem k = true ∧ ∀ j, j < k → is_memory_free mem j = false := by
  unfold find_first_free
  rw [List.find?_range_eq_some]
  constructor
  · rintro ⟨h1, _, h3⟩
    exact ⟨h1, fun j hj => by simpa using h3 j hj⟩
  · rintro ⟨h1, h3⟩
    exact ⟨h1, List.mem_range.mpr (is_memory_free_lt mem k h1), fun j hj => by simpa using h3 j hj⟩

theorem find_first_free_none (mem : List Nat) :
    find_first_free mem = none ↔ ∀ i, is_memory_free mem i = false := by
  unfold find_first_free
  rw [List.find?_range_eq_none]
  constructor
  · intro h i
    by_cases hi : i < mem.length
    · simpa using h i hi
    · cases hf : is_memory_free mem i
      · rfl
      · exact absurd (is_memory_free_lt mem i hf) hi
  · intro h i _
    simp [h i]

theorem is_memory_free_set_ne (mem : List Nat) (i j w : Nat) (h : j ≠ i) :
    is_memory_free (mem.set i w) j = is_memory_free mem j := by
  unfold is_memory_free
  rw [List.getElem?_set_ne (Ne.symm h)]

theorem is_memory_free_set_self (mem : List Nat) (i w : Nat) (hw : w ≠ POINTER_MASK) :
    is_memory_free (mem.set i w) i = false := by
  unfold is_memory_free
  by_cases hi : i < mem.length
  · simp [List.getElem?_set, hi, hw]
  · rw [List.getElem?_eq_none (by simp; omega)]
    simp

/-! ## The write loop -/

theorem payload_of_set_self (mem : List Nat) (i w : Nat) (hi : i < mem.length) :
    payload_of (mem.set i w) i = w % 65536 := by
  simp [payload_of, List.getD_eq_getElem?_getD, List.getElem?_set, hi]

/-- What a successful run of the write loop leaves behind, for a zero-free content: the chain
from the start block, the payload fields along it, where its blocks come from, and the blocks it
has not touched. -/
theorem set_file_content_loop_ok (cs : List Int) : ∀ (b : Nat) (s s' : State),
    zero_free cs → s.memory.length ≤ 0xffff →
    set_file_content_loop cs b s = .ok () s' →
    ∃ t, isChain s'.memory b (b :: t) = true ∧
      (b :: t).map (payload_of s'.memory) = payloads cs ∧
      (∀ x ∈ t, is_memory_free s.memory x = true) ∧ b ∉ t ∧ t.Nodup ∧
      (∀ i, i ∉ b :: t → s'.memory[i]? = s.memory[i]?) ∧
      s'.memory.length = s.memory.length ∧ s'.files = s.files := by
  induction cs using payloads.induct with
  | case1 =>
    intro b s s' _ hlen h
    simp only [set_file_content_loop] at h
    by_cases hb : b < s.memory.length
    · rw [if_pos hb, end_at_first_byte_eq s b hb] at h
      injection h with _ h
      subst h
      refine ⟨[], ?_, ?_, by simp, by simp, by simp, ?_, by simp, rfl⟩
      · rw [isChain_cons]
        refine ⟨by omega, rfl, 0xffff0001, by simp [List.getElem?_set, hb], ?_⟩
        rw [isChain_nil, next_of_word_eq]
      · simp [payloads, payload_of_set_self _ _ _ hb]
      · intro i hi
        simp only [List.mem_singleton] at hi
        exact List.getElem?_set_ne (Ne.symm hi)
    · rw [if_neg hb] at h
      cases h
  | case2 c0 =>
    intro b s s' hz hlen h
    have hc : is_char c0 ∧ c0 ≠ 0 := hz c0 (by simp)
    have hlt := byte_of_lt c0
    simp only [set_file_content_loop] at h
    by_cases hb : b < s.memory.length
    · rw [if_pos hb, if_neg hc.2, end_at_second_byte_eq s b c0 hb hc.1] at h
      injection h with _ h
      subst h
      refine ⟨[], ?_, ?_, by simp, by simp, by simp, ?_, by simp, rfl⟩
      · rw [isChain_cons]
        refine ⟨by omega, rfl, 0xffff0000 + byte_of c0 * 256, by simp [List.getElem?_set, hb], ?_⟩
        rw [isChain_nil, next_of_word_eq]
        omega
      · simp only [List.map_cons, List.map_nil, payloads, payload_of_set_self _ _ _ hb]
        congr 1
        omega
      · intro i hi
        simp only [List.mem_singleton] at hi
        exact List.getElem?_set_ne (Ne.symm hi)
    · rw [if_neg hb] at h
      cases h
  | case3 c0 c1 rest ih =>
    intro b s s' hz hlen h
    have hc0 : is_char c0 ∧ c0 ≠ 0 := hz c0 (by simp)
    have hc1 : is_char c1 ∧ c1 ≠ 0 := hz c1 (by simp)
    have hzr : zero_free rest := fun c hc => hz c (by simp [hc])
    obtain ⟨hP, hP0⟩ := pair_payload_facts c0 c1 hc0.1 hc0.2
    simp only [set_file_content_loop] at h
    by_cases hb : b < s.memory.length
    · rw [if_pos hb, if_neg hc0.2, if_neg hc1.2, or_word_set _ _ _ _ hb,
        or_word_set _ _ _ _ hb] at h
      have hwne : (0 ||| toU32 (c0 * 2 ^ ((1 - 0) * 8))) |||
          toU32 (c1 * 2 ^ ((1 - 1) * 8)) ≠ POINTER_MASK := by
        rw [pair_word c0 c1 hc0.1 hc1.1]
        unfold POINTER_MASK
        split <;> omega
      cases hf : find_first_free (s.memory.set b ((0 ||| toU32 (c0 * 2 ^ ((1 - 0) * 8))) |||
          toU32 (c1 * 2 ^ ((1 - 1) * 8)))) with
      | none => rw [hf] at h; cases h
      | some nb =>
        rw [hf] at h
        simp only at h
        rw [find_first_free_some] at hf
        obtain ⟨hfree, _⟩ := hf
        have hnb_lt : nb < s.memory.length := by
          simpa using is_memory_free_lt _ _ hfree
        have hnb_ne : nb ≠ b := by
          rintro rfl
          rw [is_memory_free_set_self _ _ _ hwne] at hfree
          cases hfree
        rw [is_memory_free_set_ne _ _ _ _ hnb_ne] at hfree
        rw [set_next_block_index_set _ _ _ _ hb,
          pair_word_linked c0 c1 hc0.1 hc1.1 nb (by omega)] at h
        have hw2ne : nb * 65536 + pair_payload c0 c1 ≠ POINTER_MASK := by
          unfold POINTER_MASK; omega
        obtain ⟨t, hch, hpay, htfree, hnbt, hnd, hframe, hl, hfiles⟩ :=
          ih nb ⟨s.memory.set b (nb * 65536 + pair_payload c0 c1), s.files⟩ s' hzr
            (by simpa using hlen) h
        simp only [List.length_set] at hl
        have hbt : b ∉ t := by
          intro hmem
          have := htfree b hmem
          rw [is_memory_free_set_self _ _ _ hw2ne] at this
          cases this
        have hb_s' : s'.memory[b]? = some (nb * 65536 + pair_payload c0 c1) := by
          rw [hframe b (by simp [hbt, Ne.symm hnb_ne])]
          simp [List.getElem?_set, hb]
        refine ⟨nb :: t, ?_, ?_, ?_, ?_, ?_, ?_, hl, hfiles⟩
        · rw [isChain_cons]
          refine ⟨by omega, rfl, _, hb_s', ?_⟩
          rw [next_of_word_eq]
          have : (nb * 65536 + pair_payload c0 c1) / 65536 = nb := by omega
          rw [this]
          exact hch
        · rw [List.map_cons, hpay, payloads]
          congr 1
          simp only [payload_of, List.getD_eq_getElem?_getD, hb_s', Option.getD_some]
          omega
        · intro x hx
          rcases List.mem_cons.mp hx with rfl | hx
          · exact hfree
          · have hxb : x ≠ b := fun e => hbt (e ▸ hx)
            have := htfree x hx
            rwa [is_memory_free_set_ne _ _ _ _ hxb] at this
        · simp [hbt, Ne.symm hnb_ne]
        · exact List.nodup_cons.mpr ⟨hnbt, hnd⟩
        · intro i hi
          simp only [List.mem_cons, not_or] at hi
          rw [hframe i (by simp [hi.2.1, hi.2.2])]
          exact List.getElem?_set_ne (Ne.symm hi.1)
    · rw [if_neg hb] at h
      cases h

/-! ## Reading back -/

theorem payloads_length (cs : List Int) : (payloads cs).length = cs.length / 2 + 1 := by
  induction cs using payloads.induct with
  | case1 => simp [payloads]
  | case2 c0 => simp [payloads]
  | case3 c0 c1 rest ih =>
    simp only [payloads, List.length_cons, ih]
    omega

/-- The bytes of the payload fields of a content without a negative `char`: the bytes of the
content, the NUL, and the filler when the NUL is the first byte of a block. -/
theorem payloads_bytes (cs : List Int) (hz : ∀ c ∈ cs, 0 < c ∧ c ≤ 255) :
    (payloads cs).flatMap (fun p => [p / 256 % 256, p % 256]) =
      cs.map byte_of ++ (if cs.length % 2 = 0 then [0, 1] else [0]) := by
  induction cs using payloads.induct with
  | case1 => simp [payloads]
  | case2 c0 =>
    have hlt := byte_of_lt c0
    simp only [payloads, List.flatMap_cons, List.flatMap_nil, List.append_nil,
      List.length_singleton, List.map_cons, List.map_nil]
    have h1 : byte_of c0 * 256 / 256 % 256 = byte_of c0 := by omega
    have h2 : byte_of c0 * 256 % 256 = 0 := by omega
    rw [h1, h2]
    rfl
  | case3 c0 c1 rest ih =>
    have hc1 : 0 < c1 ∧ c1 ≤ 255 := hz c1 (by simp)
    have hzr : ∀ c ∈ rest, 0 < c ∧ c ≤ 255 := fun c hc => hz c (by simp [hc])
    have hlt0 := byte_of_lt c0
    have hlt1 := byte_of_lt c1
    have hp : pair_payload c0 c1 = byte_of c0 * 256 + byte_of c1 := by
      unfold pair_payload
      rw [if_neg (by omega)]
    simp only [payloads, List.flatMap_cons, ih hzr, List.length_cons, hp, List.map_cons]
    have h1 : (byte_of c0 * 256 + byte_of c1) / 256 % 256 = byte_of c0 := by omega
    have h2 : (byte_of c0 * 256 + byte_of c1) % 256 = byte_of c1 := by omega
    have h3 : (rest.length + 1 + 1) % 2 = rest.length % 2 := by omega
    simp [h1, h2, h3]

theorem flatMap_payload_bytes (mem : List Nat) (l : List Nat) :
    l.flatMap (fun x => [payload_byte (mem.getD x 0) 0, payload_byte (mem.getD x 0) 1]) =
      (l.map (payload_of mem)).flatMap (fun p => [p / 256 % 256, p % 256]) := by
  induction l with
  | nil => simp
  | cons y ys ih =>
    have h0 : payload_byte (mem.getD y 0) 0 = payload_of mem y / 256 % 256 := by
      rw [payload_byte_zero]; unfold payload_of; omega
    have h1 : payload_byte (mem.getD y 0) 1 = payload_of mem y % 256 := by
      rw [payload_byte_one]; unfold payload_of; omega
    rw [List.flatMap_cons, List.map_cons, List.flatMap_cons, ih, h0, h1]

theorem c_string_append_nul (bs tl : List Nat) (hz : ∀ c ∈ bs, c ≠ 0) :
    c_string (bs ++ 0 :: tl) = some bs := by
  unfold c_string
  rw [if_pos (by simp)]
  congr 1
  induction bs with
  | nil => simp [List.takeWhile]
  | cons c cs ih =>
    have hc : c ≠ 0 := hz c (by simp)
    have hne : (c != 0) = true := by simp; omega
    rw [List.cons_append, List.takeWhile_cons, hne]
    simp only [if_true]
    rw [ih (fun c hc => hz c (by simp [hc]))]

theorem lookup_congr (s s' : State) (name : List Char) (h : s'.files = s.files) :
    get_first_block_index_from_filename s' name = get_first_block_index_from_filename s name := by
  unfold get_first_block_index_from_filename
  rw [h]

/-- A successful `set_file_content` of a zero-free content in terms of the chain it leaves. -/
theorem set_file_content_ok (s s' : State) (name : List Char) (cs : List Int)
    (hz : zero_free cs) (hlen : s.memory.length ≤ 0xffff)
    (h : set_file_content s name cs = .ok () s') :
    ∃ b t, get_first_block_index_from_filename s name = some b ∧
      get_first_block_index_from_filename s' name = some b ∧
      isChain s'.memory b (b :: t) = true ∧
      (b :: t).map (payload_of s'.memory) = payloads cs ∧
      (∀ x ∈ t, is_memory_free s.memory x = true) ∧ (b :: t).Nodup ∧
      (∀ i, i ∉ b :: t → s'.memory[i]? = s.memory[i]?) ∧
      s'.memory.length = s.memory.length ∧ s'.files = s.files ∧
      (b :: t).length < s'.memory.length + 1 := by
  unfold set_file_content at h
  cases hl : get_first_block_index_from_filename s name with
  | none => rw [hl] at h; cases h
  | some b =>
    rw [hl] at h
    obtain ⟨t, hch, hpay, hfree, hbt, hnd, hframe, hlen', hfiles⟩ :=
      set_file_content_loop_ok cs b s s' hz hlen h
    have hnd' : (b :: t).Nodup := List.nodup_cons.mpr ⟨hbt, hnd⟩
    refine ⟨b, t, rfl, ?_, hch, hpay, hfree, hnd', hframe, hlen', hfiles, ?_⟩
    · rw [lookup_congr s s' name hfiles, hl]
    · have := length_le_of_nodup_lt _ _ hnd' (isChain_lt _ _ _ hch)
      omega

/-- The buffer `read_file_content` fills after a successful `set_file_content` of a content
without a negative `char` (every zero-free content where `char` is unsigned, the bytes up to
`0x7f` where it is signed): the bytes of the content, then the NUL, then the filler 1 when the
length is even. The C string the buffer holds is the content. -/
theorem read_file_content_after_set (s s' : State) (name : List Char) (cs : List Int)
    (hz : ∀ c ∈ cs, 0 < c ∧ c ≤ 255) (hlen : s.memory.length ≤ 0xffff)
    (h : set_file_content s name cs = .ok () s') :
    read_file_content s' name =
        .ok (some (cs.map byte_of ++ (if cs.length % 2 = 0 then [0, 1] else [0]))) s' ∧
      c_string (cs.map byte_of ++ (if cs.length % 2 = 0 then [0, 1] else [0])) =
        some (cs.map byte_of) := by
  have hzf : zero_free cs := fun c hc => by
    have := hz c hc
    exact ⟨by unfold is_char; omega, by omega⟩
  obtain ⟨b, t, _, hl', hch, hpay, _, _, _, _, _, hfuel⟩ :=
    set_file_content_ok s s' name cs hzf hlen h
  have hnz : ∀ x ∈ cs.map byte_of, x ≠ 0 := by
    intro x hx
    obtain ⟨c, hc, rfl⟩ := List.mem_map.mp hx
    exact byte_of_ne_zero c (hzf c hc).1 (hzf c hc).2
  constructor
  · unfold read_file_content count_used_blocks_for_file
    rw [hl']
    simp only
    rw [count_loop_chain _ _ _ _ _ hch hfuel]
    simp only
    rw [read_loop_chain _ _ _ _ _ hch hfuel, flatMap_payload_bytes, hpay, payloads_bytes cs hz]
    simp
  · split
    · exact c_string_append_nul _ [1] hnz
    · exact c_string_append_nul _ [] hnz

/-! ## C1: what `read_file_content` returns after a write -/

set_option maxRecDepth 100000 in
/-- C1 (the code differs): a zero-free content with a byte above `0x7f` in the second place of a
block is not read back. Where plain `char` is signed, the two bytes `0x61 0xe9` are the `char`
values 97 and -23. In the run of `main` with this content for `"haha.h"`,
`add_new_file("haha.h")` and `set_file_content("haha.h", "a\xe9")` return, and
`read_file_content("haha.h")` returns the buffer `0xff 0xe9 0x00 0x01`: the C string it holds is
`0xff 0xe9`, not the content `0x61 0xe9`. The first byte was overwritten by the sign extension
of the second when the block was filled. -/
theorem read_file_content_differs_after_high_byte :
    content_of [0x61, 0xe9] = [97, -23] ∧ zero_free (content_of [0x61, 0xe9]) ∧
      add_new_file (initState BLOCK_COUNT) haha = .ok () demo_added ∧
      set_file_content demo_added haha (content_of [0x61, 0xe9]) =
        .ok () ⟨0x0001ffe9 :: 0xffff0001 :: List.replicate 998 POINTER_MASK, [⟨0, haha⟩]⟩ ∧
      read_file_content
          ⟨0x0001ffe9 :: 0xffff0001 :: List.replicate 998 POINTER_MASK, [⟨0, haha⟩]⟩ haha =
        .ok (some [0xff, 0xe9, 0x00, 0x01])
          ⟨0x0001ffe9 :: 0xffff0001 :: List.replicate 998 POINTER_MASK, [⟨0, haha⟩]⟩ ∧
      c_string [0xff, 0xe9, 0x00, 0x01] = some [0xff, 0xe9] ∧
      (content_of [0x61, 0xe9]).map byte_of = [0x61, 0xe9] ∧
      c_string [0xff, 0xe9, 0x00, 0x01] ≠ some ((content_of [0x61, 0xe9]).map byte_of) := by
  refine ⟨by decide, by decide, by decide, by decide, by decide, by decide, by decide,
    by decide⟩

/-! ## C2: block count -/

/-- C2: after a successful `set_file_content` of a zero-free content of `L` characters (`char`
values of either signedness, none of them 0; on a fresh file or on one that had content),
`count_used_blocks_for_file` returns `L / 2 + 1`, which is `ceil((L + 1) / 2)`. -/
theorem count_used_blocks_after_set_file_content (s s' : State) (name : List Char)
    (content : List Int) (hz : zero_free content) (hlen : s.memory.length ≤ 0xffff)
    (h : set_file_content s name content = .ok () s') :
    count_used_blocks_for_file s' name = .ok (content.length / 2 + 1) s' ∧
      content.length / 2 + 1 = (content.length + 1 + 1) / 2 := by
  obtain ⟨b, t, _, hl', hch, hpay, _, _, _, _, _, hfuel⟩ :=
    set_file_content_ok s s' name content hz hlen h
  constructor
  · unfold count_used_blocks_for_file
    rw [hl']
    simp only
    rw [count_loop_chain _ _ _ _ _ hch hfuel]
    have : (b :: t).length = content.length / 2 + 1 := by
      rw [← payloads_length content, ← hpay, List.length_map]
    rw [this]
    simp
  · omega

set_option maxRecDepth 100000 in
/-- C2 at the first file of `main`, `"rdrr"` (four bytes, three blocks), and at a content with
bytes above `0x7f`, `"\xe9a\xfc"` (three bytes, two blocks), in the four-block pool. -/
theorem count_used_blocks_after_set_file_content_witness :
    (count_used_blocks_for_file demo_written haha =
        .ok ((content_of [114, 100, 114, 114]).length / 2 + 1) demo_written ∧
      (content_of [114, 100, 114, 114]).length / 2 + 1 =
        ((content_of [114, 100, 114, 114]).length + 1 + 1) / 2) ∧
    (count_used_blocks_for_file four_blocks_high_bytes ['a'] =
        .ok ((content_of [0xe9, 0x61, 0xfc]).length / 2 + 1) four_blocks_high_bytes ∧
      (content_of [0xe9, 0x61, 0xfc]).length / 2 + 1 =
        ((content_of [0xe9, 0x61, 0xfc]).length + 1 + 1) / 2) :=
  ⟨count_used_blocks_after_set_file_content demo_added demo_written haha
      (content_of [114, 100, 114, 114]) (by decide) (by decide) (by decide),
    count_used_blocks_after_set_file_content four_blocks_added four_blocks_high_bytes ['a']
      (content_of [0xe9, 0x61, 0xfc]) (by decide) (by decide) (by decide)⟩

/-! ## C3: `delete_file` -/

theorem delete_loop_chain : ∀ (l : List Nat) (fuel b : Nat) (mem : List Nat),
    isChain mem b l = true → l.Nodup → l.length < fuel →
    ∃ mem', delete_loop fuel mem b = .done mem' ∧ mem'.length = mem.length ∧
      (∀ x ∈ l, mem'[x]? = some POINTER_MASK) ∧ (∀ i, i ∉ l → mem'[i]? = mem[i]?) := by
  intro l
  induction l with
  | nil =>
    intro fuel b mem h _ hf
    rw [isChain_nil] at h
    obtain ⟨f, rfl⟩ : ∃ f, fuel = f + 1 := ⟨fuel - 1, by simp at hf; omega⟩
    exact ⟨mem, by simp [delete_loop, h], rfl, by simp, fun _ _ => rfl⟩
  | cons y ys ih =>
    intro fuel b mem h hnd hf
    have hlt := isChain_lt _ _ _ h y (List.mem_cons_self _ _)
    rw [isChain_cons] at h
    obtain ⟨h1, rfl, w, hw, hrest⟩ := h
    obtain ⟨f, rfl⟩ : ∃ f, fuel = f + 1 := ⟨fuel - 1, by simp at hf; omega⟩
    simp only [List.length_cons] at hf
    obtain ⟨hy, hnd'⟩ := List.nodup_cons.mp hnd
    have hrest' : isChain (mem.set y POINTER_MASK) (next_of_word w) ys = true := by
      apply isChain_congr mem _ ys _ _ hrest
      intro x hx
      have hne : y ≠ x := fun e => hy (by rw [e]; exact hx)
      exact List.getElem?_set_ne hne
    obtain ⟨mem', hd, hlen, hfree, hframe⟩ := ih f _ _ hrest' hnd' (by omega)
    refine ⟨mem', ?_, by simpa using hlen, ?_, ?_⟩
    · rw [delete_loop, if_neg h1]
      simp only [get_next_block_index, hw, Option.map_some']
      exact hd
    · intro x hx
      rcases List.mem_cons.mp hx with rfl | hx
      · rw [hframe x hy]
        simp [List.getElem?_set, hlt]
      · exact hfree x hx
    · intro i hi
      simp only [List.mem_cons, not_or] at hi
      rw [hframe i hi.2]
      exact List.getElem?_set_ne (Ne.symm hi.1)

theorem lookup_clear_entries (files : List file_data) (mem : List Nat) (name : List Char)
    (hname : MIN_FILENAME_LENGTH ≤ name.length) :
    get_first_block_index_from_filename ⟨mem, clear_entries files name⟩ name = none := by
  unfold get_first_block_index_from_filename clear_entries
  simp only [Option.map_eq_none', List.find?_eq_none, List.mem_map]
  rintro f ⟨g, _, rfl⟩
  have hne : strncmp_eq [] name MAX_FILENAME_LENGTH = false := by
    unfold strncmp_eq MAX_FILENAME_LENGTH
    cases name with
    | nil => simp [MIN_FILENAME_LENGTH] at hname
    | cons c cs => simp
  by_cases hg : strncmp_eq g.fileName name MAX_FILENAME_LENGTH = true
  · simp [hg, hne]
  · simp [hg]

/-- C3: for a live file (a name `add_new_file` accepts, found in the directory) whose chain `l`
is well formed (blocks inside the pool, no repeats, ended by the next index `0xffff`),
`delete_file` returns, every block of `l`, the last one included, is then free, and the lookup
of the name finds nothing. -/
theorem delete_file_frees_chain (s : State) (name : List Char) (b : Nat) (l : List Nat)
    (hname : MIN_FILENAME_LENGTH ≤ name.length)
    (hlook : get_first_block_index_from_filename s name = some b)
    (hchain : isChain s.memory b l = true) (hnd : l.Nodup) :
    ∃ s', delete_file s name = .ok () s' ∧
      (∀ x ∈ l, is_memory_free s'.memory x = true) ∧
      get_first_block_index_from_filename s' name = none := by
  have hfuel : l.length < s.memory.length + 2 := by
    have := length_le_of_nodup_lt _ _ hnd (isChain_lt _ _ _ hchain)
    omega
  obtain ⟨mem', hd, _, hfree, _⟩ := delete_loop_chain l _ b s.memory hchain hnd hfuel
  refine ⟨⟨mem', clear_entries s.files name⟩, ?_, ?_, lookup_clear_entries _ _ _ hname⟩
  · unfold delete_file
    rw [hlook]
    simp only
    rw [hd]
  · intro x hx
    rw [is_memory_free_iff]
    exact hfree x hx

set_option maxRecDepth 100000 in
/-- C3 at the first file of `main`: deleting `"haha.h"` after `"rdrr"` was written frees the
blocks 0, 1 and 2. -/
theorem delete_file_frees_chain_witness :
    ∃ s', delete_file demo_written haha = .ok () s' ∧
      (∀ x ∈ [0, 1, 2], is_memory_free s'.memory x = true) ∧
      get_first_block_index_from_filename s' haha = none :=
  delete_file_frees_chain demo_written haha 0 [0, 1, 2] (by decide) (by decide) (by decide)
    (by decide)

/-! ## C4: blocks over the lifetime of a file -/

set_option maxRecDepth 100000 in
/-- C4 (the code differs): create `"a"`, write `"AB"`, write `"A"`, delete `"a"`, in a pool of
four blocks and in the pool of `main`. All four calls return, and block 1, which the first
write claimed and the second write left out of the chain, is not free afterwards. -/
theorem lifetime_scenario_leaves_block_claimed :
    (∃ s1 s2 s3 s4, add_new_file (initState 4) ['a'] = .ok () s1 ∧
      set_file_content s1 ['a'] (content_of [65, 66]) = .ok () s2 ∧
      set_file_content s2 ['a'] (content_of [65]) = .ok () s3 ∧
      delete_file s3 ['a'] = .ok () s4 ∧
      s4.memory = [0xffff0000, 0xffff0001, 0xffff0000, 0xffff0000] ∧
      is_memory_free s4.memory 1 = false) ∧
    (∃ s1 s2 s3 s4, add_new_file (initState BLOCK_COUNT) ['a'] = .ok () s1 ∧
      set_file_content s1 ['a'] (content_of [65, 66]) = .ok () s2 ∧
      set_file_content s2 ['a'] (content_of [65]) = .ok () s3 ∧
      delete_file s3 ['a'] = .ok () s4 ∧
      is_memory_free s4.memory 1 = false) := by
  constructor
  · exact ⟨⟨[0xffff0001, 0xffff0000, 0xffff0000, 0xffff0000], [⟨0, ['a']⟩]⟩,
      ⟨[0x00014142, 0xffff0001, 0xffff0000, 0xffff0000], [⟨0, ['a']⟩]⟩,
      ⟨[0xffff4100, 0xffff0001, 0xffff0000, 0xffff0000], [⟨0, ['a']⟩]⟩,
      ⟨[0xffff0000, 0xffff0001, 0xffff0000, 0xffff0000], [⟨0, []⟩]⟩,
      by decide, by decide, by decide, by decide, rfl, by decide⟩
  · exact ⟨⟨0xffff0001 :: List.replicate 999 POINTER_MASK, [⟨0, ['a']⟩]⟩,
      ⟨0x00014142 :: 0xffff0001 :: List.replicate 998 POINTER_MASK, [⟨0, ['a']⟩]⟩,
      ⟨0xffff4100 :: 0xffff0001 :: List.replicate 998 POINTER_MASK, [⟨0, ['a']⟩]⟩,
      ⟨0xffff0000 :: 0xffff0001 :: List.replicate 998 POINTER_MASK, [⟨0, []⟩]⟩,
      by decide, by decide, by decide, by decide, by decide⟩

/-! ## C5: first fit -/

/-- C5: `find_first_free` returns `k` exactly when `k` is the smallest index of the pool whose
word is the free word `0xffff0000`, and it returns nothing (`-1`) exactly when no block of the
pool holds the free word. The function only reads the pool: its value is an index. -/
theorem find_first_free_first_fit (mem : List Nat) :
    (∀ k, find_first_free mem = some k ↔
      k < mem.length ∧ mem[k]? = some 0xffff0000 ∧ ∀ j, j < k → mem[j]? ≠ some 0xffff0000) ∧
    (find_first_free mem = none ↔ ∀ i, i < mem.length → mem[i]? ≠ some 0xffff0000) := by
  constructor
  · intro k
    rw [find_first_free_some]
    constructor
    · rintro ⟨h1, h2⟩
      refine ⟨is_memory_free_lt _ _ h1, (is_memory_free_iff _ _).mp h1, fun j hj hfree => ?_⟩
      have := h2 j hj
      rw [(is_memory_free_iff mem j).mpr hfree] at this
      cases this
    · rintro ⟨_, h1, h2⟩
      refine ⟨(is_memory_free_iff _ _).mpr h1, fun j hj => ?_⟩
      cases hf : is_memory_free mem j
      · rfl
      · exact absurd ((is_memory_free_iff _ _).mp hf) (h2 j hj)
  · rw [find_first_free_none]
    constructor
    · intro h i _ hfree
      have := h i
      rw [(is_memory_free_iff mem i).mpr hfree] at this
      cases this
    · intro h i
      cases hf : is_memory_free mem i
      · rfl
      · exact absurd ((is_memory_free_iff _ _).mp hf) (h i (is_memory_free_lt _ _ hf))

/-! ## C6, C7: `add_new_file` -/

theorem free_count_set : ∀ (mem : List Nat) (k w : Nat),
    mem[k]? = some POINTER_MASK → w ≠ POINTER_MASK →
    free_count (mem.set k w) + 1 = free_count mem := by
  intro mem
  induction mem with
  | nil => intro k w h _; simp at h
  | cons a as ih =>
    intro k w h hw
    cases k with
    | zero =>
      simp only [List.getElem?_cons_zero, Option.some.injEq] at h
      subst h
      simp [free_count, List.set, List.countP_cons, hw]
    | succ k =>
      simp only [List.getElem?_cons_succ] at h
      have := ih k w h hw
      simp only [free_count, List.set, List.countP_cons] at this ⊢
      omega

theorem strncmp_eq_self (a : List Char) (n : Nat) : strncmp_eq a a n = true := by
  simp [strncmp_eq]

set_option maxRecDepth 100000 in
/-- C6 (the claim as stated fails): the twenty adds of `twenty_names` return and fill the
directory; then `"u"` is a valid name that is not registered and block 20 is free, and
`add_new_file("u")` writes the directory slot 20, outside the array: the call has no defined
result. -/
theorem add_new_file_full_directory :
    add_files (initState BLOCK_COUNT) twenty_names = .ok () directory_full ∧
      MIN_FILENAME_LENGTH ≤ ['u'].length ∧ ['u'].length ≤ MAX_FILENAME_LENGTH ∧
      get_first_block_index_from_filename directory_full ['u'] = none ∧
      find_first_free directory_full.memory = some 20 ∧
      add_new_file directory_full ['u'] = .undefined := by
  refine ⟨by decide, by decide, by decide, by decide, by decide, by decide⟩

/-- C6 (amended): for a valid name (1 to 10 characters) that is not registered, a pool whose
lowest free block is `k`, and a directory with a slot left, `add_new_file` returns; then the
lookup of the name gives `k`, block `k` is not free and is a chain of one block (its next index
is `0xffff`, the count is 1), every other block word is unchanged, and the number of free blocks
has dropped by one. -/
theorem add_new_file_claims_one_block (s : State) (name : List Char) (k : Nat)
    (hmin : MIN_FILENAME_LENGTH ≤ name.length) (hmax : name.length ≤ MAX_FILENAME_LENGTH)
    (hnew : get_first_block_index_from_filename s name = none)
    (hfree : find_first_free s.memory = some k)
    (hdir : s.currentFileCount < MAX_FILE_COUNT)
    (hlen : s.memory.length ≤ 0xffff) :
    ∃ s', add_new_file s name = .ok () s' ∧
      get_first_block_index_from_filename s' name = some k ∧
      is_memory_free s.memory k = true ∧ (∀ j, j < k → is_memory_free s.memory j = false) ∧
      is_memory_free s'.memory k = false ∧
      get_next_block_index s'.memory k = some 0xffff ∧
      count_used_blocks_for_file s' name = .ok 1 s' ∧
      s'.currentFileCount = s.currentFileCount + 1 ∧
      (∀ i, i ≠ k → s'.memory[i]? = s.memory[i]?) ∧
      free_count s'.memory + 1 = free_count s.memory := by
  have hk := (find_first_free_some _ _).mp hfree
  have hkfree := (is_memory_free_iff _ _).mp hk.1
  have hklt := is_memory_free_lt _ _ hk.1
  have hget : s.memory.getD k 0 = POINTER_MASK := by
    simp [List.getD_eq_getElem?_getD, hkfree]
  have hword : (POINTER_MASK + 1) % 4294967296 = 0xffff0001 := by decide
  have hlook : get_first_block_index_from_filename
      ⟨s.memory.set k 0xffff0001, s.files ++ [⟨k, name⟩]⟩ name = some k := by
    unfold get_first_block_index_from_filename at hnew ⊢
    simp only [Option.map_eq_none'] at hnew
    simp [List.find?_append, hnew, List.find?_cons, strncmp_eq_self]
  have hwk : (s.memory.set k 0xffff0001)[k]? = some 0xffff0001 := by
    simp [List.getElem?_set, hklt]
  refine ⟨⟨s.memory.set k 0xffff0001, s.files ++ [⟨k, name⟩]⟩, ?_, hlook, hk.1, hk.2, ?_, ?_,
    ?_, ?_, ?_, ?_⟩
  · unfold add_new_file
    rw [if_neg (by omega), if_neg (by omega), hnew, hfree]
    simp only [Option.isSome_none, Bool.false_eq_true, if_false]
    rw [if_pos hdir, hget, hword]
  · exact is_memory_free_set_self _ _ _ (by decide)
  · simp only [get_next_block_index, hwk, Option.map_some', next_of_word_eq]
  · unfold count_used_blocks_for_file
    rw [hlook]
    simp only
    have hch : isChain (s.memory.set k 0xffff0001) k [k] = true := by
      rw [isChain_cons]
      exact ⟨by omega, rfl, _, hwk, by rw [isChain_nil, next_of_word_eq]⟩
    have hfuel : [k].length < (s.memory.set k 0xffff0001).length + 1 := by
      simp only [List.length_set, List.length_singleton]; omega
    rw [count_loop_chain _ [k] _ k 0 hch hfuel]
    simp
  · simp [State.currentFileCount]
  · intro i hi
    exact List.getElem?_set_ne (Ne.symm hi)
  · exact free_count_set _ _ _ hkfree (by decide)

set_option maxRecDepth 100000 in
/-- C6 (amended) at the first call of `main`: `add_new_file("haha.h")` in the initial pool. -/
theorem add_new_file_claims_one_block_witness :
    ∃ s', add_new_file (initState BLOCK_COUNT) haha = .ok () s' ∧
      get_first_block_index_from_filename s' haha = some 0 ∧
      is_memory_free (initState BLOCK_COUNT).memory 0 = true ∧
      (∀ j, j < 0 → is_memory_free (initState BLOCK_COUNT).memory j = false) ∧
      is_memory_free s'.memory 0 = false ∧
      get_next_block_index s'.memory 0 = some 0xffff ∧
      count_used_blocks_for_file s' haha = .ok 1 s' ∧
      s'.currentFileCount = (initState BLOCK_COUNT).currentFileCount + 1 ∧
      (∀ i, i ≠ 0 → s'.memory[i]? = (initState BLOCK_COUNT).memory[i]?) ∧
      free_count s'.memory + 1 = free_count (initState BLOCK_COUNT).memory :=
  add_new_file_claims_one_block (initState BLOCK_COUNT) haha 0 (by decide) (by decide)
    (by decide) (by decide) (by decide) (by decide)

/-- C7: for a name of 1 to 10 characters that the directory already holds, `add_new_file` ends
with the message `FILE_EXISTS_ERROR` in the state in which it was called: no block word, no
directory slot and no count has changed. -/
theorem add_new_file_duplicate (s : State) (name : List Char)
    (hmin : MIN_FILENAME_LENGTH ≤ name.length) (hmax : name.length ≤ MAX_FILENAME_LENGTH)
    (hreg : (get_first_block_index_from_filename s name).isSome = true) :
    add_new_file s name = .exit .FILE_EXISTS s := by
  unfold add_new_file
  rw [if_neg (by omega), if_neg (by omega), if_pos hreg]

set_option maxRecDepth 100000 in
/-- C7 in `main`: a second `add_new_file("haha.h")` after the file was written. -/
theorem add_new_file_duplicate_witness :
    add_new_file demo_written haha = .exit .FILE_EXISTS demo_written :=
  add_new_file_duplicate demo_written haha (by decide) (by decide) (by decide)

/-! ## C8: the exhausted pool -/

theorem print_loop_done : ∀ (fuel : Nat) (mem : List Nat) (b : Nat) (out r : List Nat),
    print_loop fuel mem b out = .done r →
    ∃ l, r = out ++ l ∧ isChain mem b l = true ∧ l.length < fuel := by
  intro fuel
  induction fuel with
  | zero => intro mem b out r h; simp [print_loop] at h
  | succ f ih =>
    intro mem b out r h
    rw [print_loop] at h
    by_cases hb : b = 0xffff
    · rw [if_pos hb] at h
      injection h with h
      exact ⟨[], by simp [h], by rw [isChain_nil]; exact hb, by simp⟩
    · rw [if_neg hb] at h
      cases hw : mem[b]? with
      | none => simp [get_next_block_index, hw] at h
      | some w =>
        simp only [get_next_block_index, hw, Option.map_some'] at h
        obtain ⟨l, hr, hch, hlen⟩ := ih _ _ _ _ h
        refine ⟨b :: l, by simp [hr], ?_, by simp only [List.length_cons]; omega⟩
        rw [isChain_cons]
        exact ⟨hb, rfl, w, hw, hch⟩

theorem flatMap_bytes_congr (mem mem2 : List Nat) (l : List Nat)
    (hsame : ∀ x ∈ l, mem2[x]? = mem[x]?) :
    l.flatMap (fun x => [payload_byte (mem2.getD x 0) 0, payload_byte (mem2.getD x 0) 1]) =
      l.flatMap (fun x => [payload_byte (mem.getD x 0) 0, payload_byte (mem.getD x 0) 1]) := by
  induction l with
  | nil => rw [List.flatMap_nil, List.flatMap_nil]
  | cons y ys ih =>
    have hy : mem2.getD y 0 = mem.getD y 0 := by
      simp only [List.getD_eq_getElem?_getD, hsame y (List.mem_cons_self _ _)]
    rw [List.flatMap_cons, List.flatMap_cons, hy,
      ih (fun x hx => hsame x (List.mem_cons_of_mem _ hx))]

/-- A file whose blocks a call has left alone has the same block sequence and the same bytes
read back after the call. -/
theorem chain_frame (s s' : State) (other : List Char) (l : List Nat)
    (hfiles : s'.files = s.files) (hlen : s'.memory.length = s.memory.length)
    (hsame : ∀ x ∈ l, s'.memory[x]? = s.memory[x]?)
    (hp : print_used_blocks_for_file s other = .ok l s) :
    print_used_blocks_for_file s' other = .ok l s' ∧
      ∀ r, read_file_content s other = .ok r s → read_file_content s' other = .ok r s' := by
  unfold print_used_blocks_for_file at hp
  cases hl : get_first_block_index_from_filename s other with
  | none => rw [hl] at hp; cases hp
  | some hb =>
    rw [hl] at hp
    simp only at hp
    cases hpl : print_loop (s.memory.length + 1) s.memory hb [] with
    | undefined => rw [hpl] at hp; cases hp
    | diverges => rw [hpl] at hp; cases hp
    | done out =>
      rw [hpl] at hp
      injection hp with hout _
      subst hout
      obtain ⟨l, hr, hch, hfuel⟩ := print_loop_done _ _ _ _ _ hpl
      simp only [List.nil_append] at hr
      subst hr
      have hch' : isChain s'.memory hb out = true := isChain_congr _ _ _ _ hsame hch
      have hl' : get_first_block_index_from_filename s' other = some hb := by
        rw [lookup_congr s s' other hfiles, hl]
      constructor
      · unfold print_used_blocks_for_file
        rw [hl']
        simp only
        rw [hlen, print_loop_chain _ _ _ _ _ hch' hfuel]
        simp
      · intro r hr
        unfold read_file_content count_used_blocks_for_file at hr ⊢
        rw [hl] at hr
        rw [hl']
        simp only at hr ⊢
        rw [count_loop_chain _ _ _ _ _ hch hfuel] at hr
        rw [hlen, count_loop_chain _ _ _ _ _ hch' hfuel]
        simp only at hr ⊢
        rw [read_loop_chain _ _ _ _ _ hch hfuel] at hr
        rw [read_loop_chain _ _ _ _ _ hch' hfuel, flatMap_bytes_congr _ _ _ hsame]
        simp only at hr ⊢
        injection hr with hr _
        rw [hr]

theorem find_first_free_none_of_forall (mem : List Nat) (h : ∀ w ∈ mem, w ≠ POINTER_MASK) :
    find_first_free mem = none := by
  rw [find_first_free_none]
  intro i
  cases hf : is_memory_free mem i
  · rfl
  · rw [is_memory_free_iff] at hf
    exact absurd rfl (h _ (List.getElem?_mem hf))

theorem thousand_blocks_full_none : find_first_free thousand_blocks_full.memory = none := by
  apply find_first_free_none_of_forall
  intro w hw
  simp only [thousand_blocks_full, List.mem_cons, List.mem_replicate] at hw
  rcases hw with rfl | ⟨_, rfl⟩ <;> decide

theorem replicate_append_set (k n x p : Nat) :
    (List.replicate k x ++ List.replicate (n + 1) p).set k x =
      List.replicate (k + 1) x ++ List.replicate n p := by
  induction k with
  | zero => simp [List.replicate_succ]
  | succ k ih =>
    rw [List.replicate_succ, List.cons_append, List.set_cons_succ, ih]
    simp [List.replicate_succ]

theorem rewritten_step (k : Nat) (hk : k < 999) :
    set_file_content (rewritten k) ['a'] (content_of [65, 66]) = .ok () (rewritten (k + 1)) := by
  have hlook : get_first_block_index_from_filename (rewritten k) ['a'] = some 0 := by
    simp [get_first_block_index_from_filename, rewritten, strncmp_eq]
  have hlen : (rewritten k).memory.length = 1000 := by
    simp only [rewritten, List.length_cons, List.length_append, List.length_replicate]
    omega
  have hb : 0 < (rewritten k).memory.length := by omega
  have hset : (rewritten k).memory.set 0 (65 * 256 + 66) =
      16706 :: (List.replicate k 0xffff0001 ++ List.replicate (999 - k) POINTER_MASK) := by
    simp [rewritten]
  have hfind : find_first_free ((rewritten k).memory.set 0 (65 * 256 + 66)) = some (k + 1) := by
    rw [hset, find_first_free_some]
    constructor
    · rw [is_memory_free_iff, List.getElem?_cons_succ,
        List.getElem?_append_right (by simp)]
      simp only [List.length_replicate, Nat.sub_self]
      rw [List.getElem?_replicate]
      simp
      omega
    · intro j hj
      cases j with
      | zero => simp [is_memory_free, POINTER_MASK]
      | succ j =>
        unfold is_memory_free
        rw [List.getElem?_cons_succ, List.getElem?_append_left (by simp; omega),
          List.getElem?_replicate]
        have : j < k := by omega
        simp [this, POINTER_MASK]
  have hcontent : content_of [65, 66] = [65, 66] := by decide
  have hword : (0 ||| toU32 ((65 : Int) * 2 ^ ((1 - 0) * 8))) |||
      toU32 ((66 : Int) * 2 ^ ((1 - 1) * 8)) = 65 * 256 + 66 := by decide
  unfold set_file_content
  rw [hlook, hcontent]
  simp only [set_file_content_loop]
  have hne0 : ¬ ((65 : Int) = 0) := by decide
  have hne1 : ¬ ((66 : Int) = 0) := by decide
  rw [if_pos hb, if_neg hne0, if_neg hne1, or_word_set _ _ _ _ hb, or_word_set _ _ _ _ hb,
    hword, hfind]
  simp only
  rw [set_next_block_index_set _ _ _ _ hb, set_next_word_eq _ _ (by omega)]
  have hin : k + 1 < (State.mk (List.set (rewritten k).memory 0
      ((k + 1) * 65536 + (65 * 256 + 66) % 65536)) (rewritten k).files).memory.length := by
    simp only [List.length_set]
    omega
  rw [if_pos hin, end_at_first_byte_eq _ _ hin]
  have h999 : 999 - k = (998 - k) + 1 := by omega
  simp only [rewritten, List.set_cons_zero, List.set_cons_succ, Nat.add_eq_zero, one_ne_zero,
    and_false, if_false]
  rw [h999, replicate_append_set]
  have h998 : 999 - (k + 1) = 998 - k := by omega
  rw [h998]

theorem write_AB_times_rewritten : ∀ (n k : Nat), k + n ≤ 999 →
    write_AB_times n (rewritten k) = .ok () (rewritten (k + n)) := by
  intro n
  induction n with
  | zero => intro k _; rfl
  | succ n ih =>
    intro k hk
    rw [write_AB_times, rewritten_step k (by omega)]
    simp only
    rw [ih (k + 1) (by omega)]
    congr 2
    omega

theorem thousand_blocks_full_eq : thousand_blocks_full = rewritten 999 := by
  unfold thousand_blocks_full rewritten
  rw [if_neg (by norm_num), Nat.sub_self, List.replicate_zero, List.append_nil]

set_option maxRecDepth 100000 in
/-- The state `thousand_blocks_full` is reached in the program: `add_new_file("a")` in the
initial pool of `main`, then 999 calls of `set_file_content("a", "AB")`, all of which return. -/
theorem thousand_blocks_full_reached :
    add_new_file (initState BLOCK_COUNT) ['a'] = .ok () (rewritten 0) ∧
      write_AB_times 999 (rewritten 0) = .ok () thousand_blocks_full := by
  refine ⟨by decide, ?_⟩
  rw [write_AB_times_rewritten 999 0 (by norm_num), thousand_blocks_full_eq]

/-- In a pool without a free block, a write of two or more characters fills the first block
of the file, finds no block to continue in and exits. -/
theorem set_file_content_in_full_pool (s : State) (name : List Char) (b : Nat) (c0 c1 : Int)
    (rest : List Int) (hfull : find_first_free s.memory = none)
    (hlook : get_first_block_index_from_filename s name = some b) (hb : b < s.memory.length)
    (hc0 : is_char c0 ∧ c0 ≠ 0) (hc1 : is_char c1 ∧ c1 ≠ 0) :
    set_file_content s name (c0 :: c1 :: rest) =
      .exit .NO_MEM_FOR_FILE
        ⟨s.memory.set b
          ((if 0 ≤ c0 ∧ 0 ≤ c1 then 0 else 0xffff) * 65536 + pair_payload c0 c1), s.files⟩ := by
  obtain ⟨hP, hP0⟩ := pair_payload_facts c0 c1 hc0.1 hc0.2
  have hwne : (if 0 ≤ c0 ∧ 0 ≤ c1 then 0 else 0xffff) * 65536 + pair_payload c0 c1 ≠
      POINTER_MASK := by
    unfold POINTER_MASK
    split <;> omega
  have hnone : find_first_free (s.memory.set b
      ((if 0 ≤ c0 ∧ 0 ≤ c1 then 0 else 0xffff) * 65536 + pair_payload c0 c1)) = none := by
    rw [find_first_free_none] at hfull ⊢
    intro i
    by_cases hi : i = b
    · rw [hi]; exact is_memory_free_set_self _ _ _ hwne
    · rw [is_memory_free_set_ne _ _ _ _ hi]; exact hfull i
  unfold set_file_content
  rw [hlook]
  simp only [set_file_content_loop]
  rw [if_pos hb, if_neg hc0.2, if_neg hc1.2, or_word_set _ _ _ _ hb,
    or_word_set _ _ _ _ hb, pair_word c0 c1 hc0.1 hc1.1, hnone]

/-- A write of at most one character needs no new block: it rewrites the first block of the
file and returns, whatever the pool holds. -/
theorem set_file_content_short (s : State) (name : List Char) (b : Nat) (cs : List Int)
    (hlook : get_first_block_index_from_filename s name = some b) (hb : b < s.memory.length)
    (hshort : cs.length ≤ 1) (hz : zero_free cs) :
    ∃ w, set_file_content s name cs = .ok () ⟨s.memory.set b w, s.files⟩ := by
  unfold set_file_content
  rw [hlook]
  match cs, hshort, hz with
  | [], _, _ =>
    refine ⟨0xffff0001, ?_⟩
    simp only [set_file_content_loop]
    rw [if_pos hb, end_at_first_byte_eq s b hb]
  | [c0], _, hz =>
    have hc : is_char c0 ∧ c0 ≠ 0 := hz c0 (by simp)
    refine ⟨0xffff0000 + byte_of c0 * 256, ?_⟩
    simp only [set_file_content_loop]
    rw [if_pos hb, if_neg hc.2, end_at_second_byte_eq s b c0 hb hc.1]
  | _ :: _ :: _, hshort, _ =>
    simp only [List.length_cons] at hshort
    omega

set_option maxRecDepth 100000 in
/-- C8 (the claim as stated fails): with no free block left, a write of one byte needs no new
block and returns. This is so in the four-block pool filled by `add_new_file("a")` and
`set_file_content("a", "ABCDEF")`, and in the pool of `main` filled by `add_new_file("a")` and
999 calls of `set_file_content("a", "AB")`. -/
theorem set_file_content_one_byte_in_full_pool :
    add_new_file (initState 4) ['a'] = .ok () four_blocks_added ∧
    set_file_content four_blocks_added ['a'] (content_of [65, 66, 67, 68, 69, 70]) =
      .ok () four_blocks_full ∧
    find_first_free four_blocks_full.memory = none ∧
    set_file_content four_blocks_full ['a'] (content_of [65]) =
      .ok () ⟨[0xffff4100, 0x00024344, 0x00034546, 0xffff0001], [⟨0, ['a']⟩]⟩ ∧
    add_new_file (initState BLOCK_COUNT) ['a'] = .ok () (rewritten 0) ∧
    write_AB_times 999 (rewritten 0) = .ok () thousand_blocks_full ∧
    find_first_free thousand_blocks_full.memory = none ∧
    set_file_content thousand_blocks_full ['a'] (content_of [65]) =
      .ok () ⟨0xffff4100 :: List.replicate 999 0xffff0001, [⟨0, ['a']⟩]⟩ := by
  refine ⟨by decide, by decide, by decide, by decide, thousand_blocks_full_reached.1,
    thousand_blocks_full_reached.2, thousand_blocks_full_none, by decide⟩

/-- C8 (amended): when no block of the pool is free, `add_new_file` of a valid name that is not
registered ends with `NO_MEM_FOR_FILE_ERROR` in the state in which it was called;
`set_file_content` on a live file with a content of two or more characters (`char` values of
either signedness) ends with `NO_MEM_FOR_FILE_ERROR` after it has written the first block of that
file only; and `set_file_content` with a content of at most one character returns after it has
rewritten that first block only. In each case the directory and every other block word are
unchanged, so every file whose chain does not pass through that block has the same block
sequence and the same bytes read back. -/
theorem exhausted_pool_no_space (s : State) (hfull : find_first_free s.memory = none) :
    (∀ name, valid_name name → get_first_block_index_from_filename s name = none →
      add_new_file s name = .exit .NO_MEM_FOR_FILE s) ∧
    (∀ name b c0 c1 rest, get_first_block_index_from_filename s name = some b →
      b < s.memory.length → is_char c0 → c0 ≠ 0 → is_char c1 → c1 ≠ 0 →
      ∃ s', set_file_content s name (c0 :: c1 :: rest) = .exit .NO_MEM_FOR_FILE s' ∧
        s'.files = s.files ∧ (∀ i, i ≠ b → s'.memory[i]? = s.memory[i]?) ∧
        ∀ other l, print_used_blocks_for_file s other = .ok l s → b ∉ l →
          print_used_blocks_for_file s' other = .ok l s' ∧
          ∀ r, read_file_content s other = .ok r s → read_file_content s' other = .ok r s') ∧
    (∀ name b content, get_first_block_index_from_filename s name = some b →
      b < s.memory.length → content.length ≤ 1 → zero_free content →
      ∃ s', set_file_content s name content = .ok () s' ∧
        s'.files = s.files ∧ (∀ i, i ≠ b → s'.memory[i]? = s.memory[i]?) ∧
        ∀ other l, print_used_blocks_for_file s other = .ok l s → b ∉ l →
          print_used_blocks_for_file s' other = .ok l s' ∧
          ∀ r, read_file_content s other = .ok r s → read_file_content s' other = .ok r s') := by
  have hothers : ∀ (b w : Nat) (other : List Char) (l : List Nat),
      print_used_blocks_for_file s other = .ok l s → b ∉ l →
      print_used_blocks_for_file ⟨s.memory.set b w, s.files⟩ other =
          .ok l ⟨s.memory.set b w, s.files⟩ ∧
        ∀ r, read_file_content s other = .ok r s →
          read_file_content ⟨s.memory.set b w, s.files⟩ other =
            .ok r ⟨s.memory.set b w, s.files⟩ := by
    intro b w other l hp hbl
    apply chain_frame s ⟨s.memory.set b w, s.files⟩ other l rfl (by simp) _ hp
    intro x hx
    have hne : b ≠ x := fun e => hbl (by rw [e]; exact hx)
    exact List.getElem?_set_ne hne
  refine ⟨?_, ?_, ?_⟩
  · intro name hv hnew
    unfold valid_name at hv
    unfold add_new_file
    rw [if_neg (by omega), if_neg (by omega), hnew, hfull]
    simp
  · intro name b c0 c1 rest hlook hb h0 hn0 h1 hn1
    have hrun := set_file_content_in_full_pool s name b c0 c1 rest hfull hlook hb ⟨h0, hn0⟩
      ⟨h1, hn1⟩
    exact ⟨_, hrun, rfl, fun i hi => List.getElem?_set_ne (Ne.symm hi), hothers b _⟩
  · intro name b content hlook hb hshort hz
    obtain ⟨w, hrun⟩ := set_file_content_short s name b content hlook hb hshort hz
    exact ⟨_, hrun, rfl, fun i hi => List.getElem?_set_ne (Ne.symm hi), hothers b w⟩

set_option maxRecDepth 100000 in
/-- C8 (amended) in the four-block pool with two files: `add_new_file("a")`,
`add_new_file("b")` and `set_file_content("a", "ABCD")` return and leave no block free; `"a"`
has the blocks 0 2 3 and `"b"` the block 1. Then `add_new_file("c")` exits,
`set_file_content("a", "\xe9ZX")` exits, `set_file_content("a", "\xe9")` returns, and `"b"` is
walked and read as before in both states. -/
theorem exhausted_pool_no_space_witness :
    add_new_file (initState 4) ['a'] = .ok () four_blocks_added ∧
    add_new_file four_blocks_added ['b'] = .ok () four_blocks_two_added ∧
    set_file_content four_blocks_two_added ['a'] (content_of [65, 66, 67, 68]) =
      .ok () four_blocks_two_files ∧
    find_first_free four_blocks_two_files.memory = none ∧
    print_used_blocks_for_file four_blocks_two_files ['a'] = .ok [0, 2, 3] four_blocks_two_files ∧
    print_used_blocks_for_file four_blocks_two_files ['b'] = .ok [1] four_blocks_two_files ∧
    read_file_content four_blocks_two_files ['b'] = .ok (some [0, 1]) four_blocks_two_files ∧
    add_new_file four_blocks_two_files ['c'] = .exit .NO_MEM_FOR_FILE four_blocks_two_files ∧
    (∃ s', set_file_content four_blocks_two_files ['a'] [-23, 90, 88] =
        .exit .NO_MEM_FOR_FILE s' ∧
      s'.files = four_blocks_two_files.files ∧
      (∀ i, i ≠ 0 → s'.memory[i]? = four_blocks_two_files.memory[i]?) ∧
      print_used_blocks_for_file s' ['b'] = .ok [1] s' ∧
      read_file_content s' ['b'] = .ok (some [0, 1]) s') ∧
    (∃ s', set_file_content four_blocks_two_files ['a'] [-23] = .ok () s' ∧
      s'.files = four_blocks_two_files.files ∧
      (∀ i, i ≠ 0 → s'.memory[i]? = four_blocks_two_files.memory[i]?) ∧
      print_used_blocks_for_file s' ['b'] = .ok [1] s' ∧
      read_file_content s' ['b'] = .ok (some [0, 1]) s') := by
  have h := exhausted_pool_no_space four_blocks_two_files (by decide)
  refine ⟨by decide, by decide, by decide, by decide, by decide, by decide, by decide,
    h.1 ['c'] (by decide) (by decide), ?_, ?_⟩
  · obtain ⟨s', h1, h2, h3, h4⟩ := h.2.1 ['a'] 0 (-23) 90 [88] (by decide) (by decide)
      (by decide) (by decide) (by decide) (by decide)
    have h5 := h4 ['b'] [1] (by decide) (by decide)
    exact ⟨s', h1, h2, h3, h5.1, h5.2 _ (by decide)⟩
  · obtain ⟨s', h1, h2, h3, h4⟩ := h.2.2 ['a'] 0 [-23] (by decide) (by decide) (by decide)
      (by decide)
    have h5 := h4 ['b'] [1] (by decide) (by decide)
    exact ⟨s', h1, h2, h3, h5.1, h5.2 _ (by decide)⟩

/-! ## C9: the state in which a write runs out of blocks -/

/-- What the write loop leaves behind when it exits for lack of a free block: the blocks it has
filled are linked in the order of writing, and the next field of the last of them is what the
two `|=` have left there. -/
theorem set_file_content_loop_exit (cs : List Int) : ∀ (b : Nat) (s s' : State) (e : Error),
    zero_free cs → s.memory.length ≤ 0xffff →
    set_file_content_loop cs b s = .exit e s' →
    e = .NO_MEM_FOR_FILE ∧ find_first_free s'.memory = none ∧ s'.files = s.files ∧
    ∃ t last c0 c1, List.Chain (fun x y => get_next_block_index s'.memory x = some y) b t ∧
      (b :: t).getLast? = some last ∧
      cs[2 * t.length]? = some c0 ∧ cs[2 * t.length + 1]? = some c1 ∧
      get_next_block_index s'.memory last = some (if 0 ≤ c0 ∧ 0 ≤ c1 then 0 else 0xffff) ∧
      (b :: t).map (payload_of s'.memory) = (payloads cs).take (t.length + 1) ∧
      (∀ x ∈ t, is_memory_free s.memory x = true) ∧ b ∉ t ∧
      (∀ i, i ∉ b :: t → s'.memory[i]? = s.memory[i]?) := by
  induction cs using payloads.induct with
  | case1 =>
    intro b s s' e _ _ h
    simp only [set_file_content_loop] at h
    split at h <;> cases h
  | case2 c0 =>
    intro b s s' e _ _ h
    simp only [set_file_content_loop] at h
    split at h
    · split at h <;> cases h
    · cases h
  | case3 c0 c1 rest ih =>
    intro b s s' e hz hlen h
    have hc0 : is_char c0 ∧ c0 ≠ 0 := hz c0 (by simp)
    have hc1 : is_char c1 ∧ c1 ≠ 0 := hz c1 (by simp)
    have hzr : zero_free rest := fun c hc => hz c (by simp [hc])
    obtain ⟨hP, hP0⟩ := pair_payload_facts c0 c1 hc0.1 hc0.2
    simp only [set_file_content_loop] at h
    by_cases hb : b < s.memory.length
    · rw [if_pos hb, if_neg hc0.2, if_neg hc1.2, or_word_set _ _ _ _ hb,
        or_word_set _ _ _ _ hb] at h
      have hwne : (0 ||| toU32 (c0 * 2 ^ ((1 - 0) * 8))) |||
          toU32 (c1 * 2 ^ ((1 - 1) * 8)) ≠ POINTER_MASK := by
        rw [pair_word c0 c1 hc0.1 hc1.1]
        unfold POINTER_MASK
        split <;> omega
      cases hf : find_first_free (s.memory.set b ((0 ||| toU32 (c0 * 2 ^ ((1 - 0) * 8))) |||
          toU32 (c1 * 2 ^ ((1 - 1) * 8)))) with
      | none =>
        rw [hf] at h
        injection h with he hs
        subst hs
        rw [pair_word c0 c1 hc0.1 hc1.1] at hf ⊢
        have hbw : (s.memory.set b ((if 0 ≤ c0 ∧ 0 ≤ c1 then 0 else 0xffff) * 65536 +
            pair_payload c0 c1))[b]? =
            some ((if 0 ≤ c0 ∧ 0 ≤ c1 then 0 else 0xffff) * 65536 + pair_payload c0 c1) := by
          simp [List.getElem?_set, hb]
        refine ⟨he.symm, hf, rfl, [], b, c0, c1, List.Chain.nil, rfl, by simp, by simp, ?_, ?_,
          by simp, by simp, ?_⟩
        · simp only [get_next_block_index, hbw, Option.map_some', next_of_word_eq]
          congr 1
          split <;> omega
        · simp only [List.map_cons, List.map_nil, payloads, List.length_nil, Nat.zero_add,
            List.take_succ_cons, List.take_zero, payload_of_set_self _ _ _ hb]
          congr 1
          split <;> omega
        · intro i hi
          simp only [List.mem_singleton] at hi
          exact List.getElem?_set_ne (Ne.symm hi)
      | some nb =>
        rw [hf] at h
        simp only at h
        rw [find_first_free_some] at hf
        obtain ⟨hfree, _⟩ := hf
        have hnb_lt : nb < s.memory.length := by
          simpa using is_memory_free_lt _ _ hfree
        have hnb_ne : nb ≠ b := by
          rintro rfl
          rw [is_memory_free_set_self _ _ _ hwne] at hfree
          cases hfree
        rw [is_memory_free_set_ne _ _ _ _ hnb_ne] at hfree
        rw [set_next_block_index_set _ _ _ _ hb,
          pair_word_linked c0 c1 hc0.1 hc1.1 nb (by omega)] at h
        have hw2ne : nb * 65536 + pair_payload c0 c1 ≠ POINTER_MASK := by
          unfold POINTER_MASK; omega
        obtain ⟨he, hnone, hfiles, t, last, d0, d1, hch, hlast, hd0, hd1, hnext, hpay, htfree,
            hnbt, hframe⟩ :=
          ih nb ⟨s.memory.set b (nb * 65536 + pair_payload c0 c1), s.files⟩ s' e hzr
            (by simpa using hlen) h
        have hbt : b ∉ t := by
          intro hmem
          have := htfree b hmem
          rw [is_memory_free_set_self _ _ _ hw2ne] at this
          cases this
        have hb_s' : s'.memory[b]? = some (nb * 65536 + pair_payload c0 c1) := by
          rw [hframe b (by simp [hbt, Ne.symm hnb_ne])]
          simp [List.getElem?_set, hb]
        refine ⟨he, hnone, hfiles, nb :: t, last, d0, d1, List.Chain.cons ?_ hch, ?_, ?_, ?_,
          hnext, ?_, ?_, ?_, ?_⟩
        · simp only [get_next_block_index, hb_s', Option.map_some', next_of_word_eq]
          congr 1
          omega
        · rw [List.getLast?_cons_cons]
          exact hlast
        · have e : 2 * (nb :: t).length = (2 * t.length + 1) + 1 := by
            simp only [List.length_cons]; omega
          rw [e, List.getElem?_cons_succ, List.getElem?_cons_succ]
          exact hd0
        · have e : 2 * (nb :: t).length + 1 = (2 * t.length + 1 + 1) + 1 := by
            simp only [List.length_cons]; omega
          rw [e, List.getElem?_cons_succ, List.getElem?_cons_succ]
          exact hd1
        · rw [List.map_cons, hpay, payloads, List.length_cons, List.take_succ_cons]
          congr 1
          simp only [payload_of, List.getD_eq_getElem?_getD, hb_s', Option.getD_some]
          omega
        · intro x hx
          rcases List.mem_cons.mp hx with rfl | hx
          · exact hfree
          · have hxb : x ≠ b := fun e => hbt (by rw [← e]; exact hx)
            have := htfree x hx
            rwa [is_memory_free_set_ne _ _ _ _ hxb] at this
        · simp [hbt, Ne.symm hnb_ne]
        · intro i hi
          simp only [List.mem_cons, not_or] at hi
          rw [hframe i (by simp [hi.2.1, hi.2.2])]
          exact List.getElem?_set_ne (Ne.symm hi.1)
    · rw [if_neg hb] at h
      cases h

set_option maxRecDepth 100000 in
/-- C9 (the claim as stated fails): in a pool of four blocks, `add_new_file("a")` returns and
`set_file_content("a", "ABCDEFGH")` exits with `NO_MEM_FOR_FILE_ERROR` after it has written
four blocks. The last written block, 3, then has the next index 0, not `0xffff`, and the walk
from the first block of `"a"` never meets `0xffff`. In the filled pool of `main`,
`set_file_content("a", "ABCD")` exits in the same way and leaves block 0 with the next index
0. -/
theorem set_file_content_no_space_next_is_zero :
    add_new_file (initState 4) ['a'] = .ok () four_blocks_added ∧
      set_file_content four_blocks_added ['a'] (content_of [65, 66, 67, 68, 69, 70, 71, 72]) =
        .exit .NO_MEM_FOR_FILE four_blocks_no_space ∧
      get_next_block_index four_blocks_no_space.memory 3 = some 0 ∧
      get_next_block_index four_blocks_no_space.memory 3 ≠ some END_OF_CHAIN ∧
      count_used_blocks_for_file four_blocks_no_space ['a'] = .diverges ∧
      set_file_content thousand_blocks_full ['a'] (content_of [65, 66, 67, 68]) =
        .exit .NO_MEM_FOR_FILE ⟨0x00004142 :: List.replicate 999 0xffff0001, [⟨0, ['a']⟩]⟩ ∧
      get_next_block_index (0x00004142 :: List.replicate 999 0xffff0001) 0 = some 0 := by
  refine ⟨by decide, by decide, by decide, by decide, by decide, ?_, by decide⟩
  have hcontent : content_of [65, 66, 67, 68] = [65, 66, 67, 68] := by decide
  have hword : (if (0 : Int) ≤ 65 ∧ (0 : Int) ≤ 66 then 0 else 0xffff) * 65536 +
      pair_payload 65 66 = 0x00004142 := by decide
  rw [hcontent, set_file_content_in_full_pool thousand_blocks_full ['a'] 0 65 66 [67, 68]
    thousand_blocks_full_none (by decide) (by decide) (by decide) (by decide), hword]
  rfl

/-- C9 (amended): when `set_file_content` of a zero-free content exits with
`NO_MEM_FOR_FILE_ERROR`, the blocks it has written (the first block `b` of the file, then `t`)
stay claimed, hold the payloads of the characters written so far and are linked in the order of
writing. The call does not set the next field of the last written block: it holds what the two
`|=` of the characters `c0`, `c1` of that block have left there, 0 when both are non-negative
`char` values and `0xffff`, their sign extension, when one of them is negative. -/
theorem set_file_content_no_space_state (s s' : State) (name : List Char) (content : List Int)
    (hz : zero_free content) (hlen : s.memory.length ≤ 0xffff)
    (h : set_file_content s name content = .exit .NO_MEM_FOR_FILE s') :
    ∃ b t last c0 c1, get_first_block_index_from_filename s' name = some b ∧
      List.Chain (fun x y => get_next_block_index s'.memory x = some y) b t ∧
      (b :: t).getLast? = some last ∧
      content[2 * t.length]? = some c0 ∧ content[2 * t.length + 1]? = some c1 ∧
      get_next_block_index s'.memory last =
        some (if 0 ≤ c0 ∧ 0 ≤ c1 then 0 else END_OF_CHAIN) ∧
      (∀ x ∈ b :: t, is_memory_free s'.memory x = false) ∧
      (b :: t).map (payload_of s'.memory) = (payloads content).take (t.length + 1) := by
  unfold set_file_content at h
  cases hl : get_first_block_index_from_filename s name with
  | none => rw [hl] at h; cases h
  | some b =>
    rw [hl] at h
    obtain ⟨_, hnone, hfiles, t, last, c0, c1, hch, hlast, h0, h1, hnext, hpay, _, _, _⟩ :=
      set_file_content_loop_exit content b s s' _ hz hlen h
    refine ⟨b, t, last, c0, c1, ?_, hch, hlast, h0, h1, hnext, ?_, hpay⟩
    · rw [lookup_congr s s' name hfiles, hl]
    · intro x _
      exact (find_first_free_none _).mp hnone x

/-- C9 (amended) in the four-block pool, at `"ABCDEFGH"`, where block 3 is left with the next
index 0, and at `"ABCDEFG\xe9"` (the last `char` is -23 where `char` is signed), where block 3
is left with the word `0xffffffe9` and the next index `0xffff`. -/
theorem set_file_content_no_space_state_witness :
    (∃ b t last c0 c1, get_first_block_index_from_filename four_blocks_no_space ['a'] = some b ∧
      List.Chain (fun x y => get_next_block_index four_blocks_no_space.memory x = some y) b t ∧
      (b :: t).getLast? = some last ∧
      (content_of [65, 66, 67, 68, 69, 70, 71, 72])[2 * t.length]? = some c0 ∧
      (content_of [65, 66, 67, 68, 69, 70, 71, 72])[2 * t.length + 1]? = some c1 ∧
      get_next_block_index four_blocks_no_space.memory last =
        some (if 0 ≤ c0 ∧ 0 ≤ c1 then 0 else END_OF_CHAIN) ∧
      (∀ x ∈ b :: t, is_memory_free four_blocks_no_space.memory x = false) ∧
      (b :: t).map (payload_of four_blocks_no_space.memory) =
        (payloads (content_of [65, 66, 67, 68, 69, 70, 71, 72])).take (t.length + 1)) ∧
    (∃ b t last c0 c1,
      get_first_block_index_from_filename four_blocks_no_space_high ['a'] = some b ∧
      List.Chain (fun x y => get_next_block_index four_blocks_no_space_high.memory x = some y)
        b t ∧
      (b :: t).getLast? = some last ∧
      (content_of [65, 66, 67, 68, 69, 70, 71, 0xe9])[2 * t.length]? = some c0 ∧
      (content_of [65, 66, 67, 68, 69, 70, 71, 0xe9])[2 * t.length + 1]? = some c1 ∧
      get_next_block_index four_blocks_no_space_high.memory last =
        some (if 0 ≤ c0 ∧ 0 ≤ c1 then 0 else END_OF_CHAIN) ∧
      (∀ x ∈ b :: t, is_memory_free four_blocks_no_space_high.memory x = false) ∧
      (b :: t).map (payload_of four_blocks_no_space_high.memory) =
        (payloads (content_of [65, 66, 67, 68, 69, 70, 71, 0xe9])).take (t.length + 1)) :=
  ⟨set_file_content_no_space_state four_blocks_added four_blocks_no_space ['a']
      (content_of [65, 66, 67, 68, 69, 70, 71, 72]) (by decide) (by decide) (by decide),
    set_file_content_no_space_state four_blocks_added four_blocks_no_space_high ['a']
      (content_of [65, 66, 67, 68, 69, 70, 71, 0xe9]) (by decide) (by decide) (by decide)⟩

/-! ## C10: the last block of a content of odd length -/

theorem payloads_ne_nil (cs : List Int) : payloads cs ≠ [] := by
  intro h
  have := payloads_length cs
  rw [h] at this
  simp at this

theorem payloads_getLast_odd (cs : List Int) (hodd : cs.length % 2 = 1) :
    ∃ c, cs.getLast? = some c ∧ (payloads cs).getLast? = some (byte_of c * 256) := by
  induction cs using payloads.induct with
  | case1 => simp at hodd
  | case2 c0 => exact ⟨c0, rfl, rfl⟩
  | case3 c0 c1 rest ih =>
    have hr : rest.length % 2 = 1 := by
      simp only [List.length_cons] at hodd
      omega
    obtain ⟨c, hc, hp⟩ := ih hr
    refine ⟨c, ?_, ?_⟩
    · cases rest with
      | nil => simp at hr
      | cons r rs =>
        rw [List.getLast?_cons_cons, List.getLast?_cons_cons]
        exact hc
    · rw [payloads]
      cases hq : payloads rest with
      | nil => exact absurd hq (payloads_ne_nil rest)
      | cons q qs =>
        rw [List.getLast?_cons_cons, ← hq]
        exact hp

theorem isChain_getLast (mem : List Nat) : ∀ (l : List Nat) (b last : Nat),
    isChain mem b l = true → l.getLast? = some last →
    ∃ w, mem[last]? = some w ∧ next_of_word w = 0xffff := by
  intro l
  induction l with
  | nil => intro b last _ h; simp at h
  | cons y ys ih =>
    intro b last h hlast
    rw [isChain_cons] at h
    obtain ⟨_, rfl, w, hw, hrest⟩ := h
    cases ys with
    | nil =>
      simp only [List.getLast?_singleton, Option.some.injEq] at hlast
      subst hlast
      rw [isChain_nil] at hrest
      exact ⟨w, hw, hrest⟩
    | cons z zs =>
      rw [List.getLast?_cons_cons] at hlast
      exact ih _ _ hrest hlast

set_option maxRecDepth 100000 in
/-- C10 (the claim as stated fails): in the pool of `main`, after `add_new_file("a")` and
`set_file_content("a", "A")`, the only block of the chain holds the word `0xffff4100`: payload
byte 0 is `'A'` and payload byte 1 is 0, the NUL itself, not a filler different from it. -/
theorem odd_content_second_byte_is_nul :
    ∃ s1 s2, add_new_file (initState BLOCK_COUNT) ['a'] = .ok () s1 ∧
      set_file_content s1 ['a'] (content_of [65]) = .ok () s2 ∧
      print_used_blocks_for_file s2 ['a'] = .ok [0] s2 ∧
      s2.memory[0]? = some 0xffff4100 ∧
      payload_byte 0xffff4100 0 = 65 ∧ payload_byte 0xffff4100 1 = 0 := by
  exact ⟨⟨0xffff0001 :: List.replicate 999 POINTER_MASK, [⟨0, ['a']⟩]⟩,
    ⟨0xffff4100 :: List.replicate 999 POINTER_MASK, [⟨0, ['a']⟩]⟩,
    by decide, by decide, by decide, by decide, by decide, by decide⟩

/-- C10 (amended): after a successful `set_file_content` of a zero-free content of odd length
(`char` values of either signedness), the last block of the chain of the file holds the word
`0xffff0000 + c * 256` for the byte `c` of the last character of the content: payload byte 0 is
`c`, payload byte 1 is 0 (the NUL, no filler is written), the next index is `0xffff`, and the
block is not free. -/
theorem odd_content_last_block (s s' : State) (name : List Char) (content : List Int)
    (hz : zero_free content) (hlen : s.memory.length ≤ 0xffff) (hodd : content.length % 2 = 1)
    (h : set_file_content s name content = .ok () s') :
    ∃ l last c w, print_used_blocks_for_file s' name = .ok l s' ∧
      l.getLast? = some last ∧ content.getLast? = some c ∧
      s'.memory[last]? = some w ∧ w = 0xffff0000 + byte_of c * 256 ∧
      payload_byte w 0 = byte_of c ∧ payload_byte w 1 = 0 ∧ next_of_word w = 0xffff ∧
      is_memory_free s'.memory last = false := by
  obtain ⟨b, t, _, hl', hch, hpay, _, _, _, _, _, hfuel⟩ :=
    set_file_content_ok s s' name content hz hlen h
  obtain ⟨c, hc, hpc⟩ := payloads_getLast_odd content hodd
  have hcz : is_char c ∧ c ≠ 0 := hz c (List.mem_of_getLast?_eq_some hc)
  have hlt := byte_of_lt c
  have hne := byte_of_ne_zero c hcz.1 hcz.2
  obtain ⟨last, hlast⟩ : ∃ last, (b :: t).getLast? = some last :=
    ⟨(b :: t).getLast (by simp), List.getLast?_eq_getLast _ _⟩
  obtain ⟨w, hw, hnext⟩ := isChain_getLast _ _ _ _ hch hlast
  have hpl : payload_of s'.memory last = byte_of c * 256 := by
    have := congrArg List.getLast? hpay
    rw [List.getLast?_map, hlast, hpc] at this
    simpa using this
  have hwv : w = 0xffff0000 + byte_of c * 256 := by
    simp only [payload_of, List.getD_eq_getElem?_getD, hw, Option.getD_some] at hpl
    rw [next_of_word_eq] at hnext
    omega
  refine ⟨b :: t, last, c, w, ?_, hlast, hc, hw, hwv, ?_, ?_, hnext, ?_⟩
  · unfold print_used_blocks_for_file
    rw [hl']
    simp only
    rw [print_loop_chain _ _ _ _ _ hch hfuel]
    simp
  · rw [payload_byte_zero, hwv]; omega
  · rw [payload_byte_one, hwv]; omega
  · unfold is_memory_free
    rw [hw, hwv]
    simp only [beq_eq_false_iff_ne, ne_eq, Option.some.injEq]
    unfold POINTER_MASK
    omega

/-- C10 (amended) in the four-block pool, at `set_file_content("a", "A")` and at
`set_file_content("a", "\xe9a\xfc")`, whose last `char` is -4 where `char` is signed: the last
block holds `0xfffffc00`. -/
theorem odd_content_last_block_witness :
    (∃ l last c w, print_used_blocks_for_file four_blocks_one_byte ['a'] =
        .ok l four_blocks_one_byte ∧
      l.getLast? = some last ∧ (content_of [65]).getLast? = some c ∧
      four_blocks_one_byte.memory[last]? = some w ∧ w = 0xffff0000 + byte_of c * 256 ∧
      payload_byte w 0 = byte_of c ∧ payload_byte w 1 = 0 ∧ next_of_word w = 0xffff ∧
      is_memory_free four_blocks_one_byte.memory last = false) ∧
    (∃ l last c w, print_used_blocks_for_file four_blocks_high_bytes ['a'] =
        .ok l four_blocks_high_bytes ∧
      l.getLast? = some last ∧ (content_of [0xe9, 0x61, 0xfc]).getLast? = some c ∧
      four_blocks_high_bytes.memory[last]? = some w ∧ w = 0xffff0000 + byte_of c * 256 ∧
      payload_byte w 0 = byte_of c ∧ payload_byte w 1 = 0 ∧ next_of_word w = 0xffff ∧
      is_memory_free four_blocks_high_bytes.memory last = false) :=
  ⟨odd_content_last_block four_blocks_added four_blocks_one_byte ['a'] (content_of [65])
      (by decide) (by decide) (by decide) (by decide),
    odd_content_last_block four_blocks_added four_blocks_high_bytes ['a']
      (content_of [0xe9, 0x61, 0xfc]) (by decide) (by decide) (by decide) (by decide)⟩

/-! ## The lifetime of a file that is written once -/

/-- What a call of `add_new_file` that returns has done. -/
theorem add_new_file_ok (s s' : State) (name : List Char)
    (h : add_new_file s name = .ok () s') :
    ∃ k, find_first_free s.memory = some k ∧
      s' = ⟨s.memory.set k 0xffff0001, s.files ++ [⟨k, name⟩]⟩ ∧
      get_first_block_index_from_filename s name = none ∧
      get_first_block_index_from_filename s' name = some k ∧
      MIN_FILENAME_LENGTH ≤ name.length := by
  unfold add_new_file at h
  split at h
  · cases h
  · split at h
    · cases h
    · split at h
      · cases h
      · rename_i hmax hmin hreg
        cases hf : find_first_free s.memory with
        | none => rw [hf] at h; cases h
        | some k =>
          rw [hf] at h
          simp only at h
          split at h
          · injection h with _ hs
            have hk := (find_first_free_some _ _).mp hf
            have hget : s.memory.getD k 0 = POINTER_MASK := by
              simp [List.getD_eq_getElem?_getD, (is_memory_free_iff _ _).mp hk.1]
            have hword : (POINTER_MASK + 1) % 4294967296 = 0xffff0001 := by decide
            rw [hget, hword] at hs
            have hnone : get_first_block_index_from_filename s name = none := by
              cases hq : get_first_block_index_from_filename s name with
              | none => rfl
              | some q => rw [hq] at hreg; simp at hreg
            refine ⟨k, rfl, hs.symm, hnone, ?_, by omega⟩
            rw [← hs]
            unfold get_first_block_index_from_filename at hnone ⊢
            simp only [Option.map_eq_none'] at hnone
            simp [List.find?_append, hnone, List.find?_cons, strncmp_eq_self]
          · cases h

/-- From a pool in which every block is free, `add_new_file`, one successful
`set_file_content` and `delete_file` leave every block of the pool free again. -/
theorem single_write_lifetime_frees_pool (s s1 s2 : State) (name : List Char)
    (content : List Int)
    (hfree : ∀ i, i < s.memory.length → is_memory_free s.memory i = true)
    (hlen : s.memory.length ≤ 0xffff) (hz : zero_free content)
    (hadd : add_new_file s name = .ok () s1)
    (hset : set_file_content s1 name content = .ok () s2) :
    ∃ s3, delete_file s2 name = .ok () s3 ∧ s3.memory.length = s.memory.length ∧
      ∀ i, i < s3.memory.length → is_memory_free s3.memory i = true := by
  obtain ⟨k, _, hs1, _, hlook1, _⟩ := add_new_file_ok s s1 name hadd
  have hlen1 : s1.memory.length = s.memory.length := by rw [hs1]; simp
  obtain ⟨b, t, hlb, hlook2, hch, _, _, hnd, hframe, hlen2, _, _⟩ :=
    set_file_content_ok s1 s2 name content hz (by omega) hset
  have hbk : b = k := by
    rw [hlook1] at hlb
    injection hlb with hlb
    exact hlb.symm
  have hfuel : (b :: t).length < s2.memory.length + 2 := by
    have := length_le_of_nodup_lt _ _ hnd (isChain_lt _ _ _ hch)
    omega
  obtain ⟨mem', hd, hlen3, hfr, hfr'⟩ := delete_loop_chain _ _ b s2.memory hch hnd hfuel
  refine ⟨⟨mem', clear_entries s2.files name⟩, ?_, by simp only; omega, ?_⟩
  · unfold delete_file
    rw [hlook2]
    simp only
    rw [hd]
  · intro i hi
    simp only [hlen3, hlen2, hlen1] at hi
    rw [is_memory_free_iff]
    by_cases hmem : i ∈ b :: t
    · exact hfr i hmem
    · rw [hfr' i hmem, hframe i hmem]
      have hik : i ≠ k := by
        intro e
        apply hmem
        rw [e, ← hbk]
        exact List.mem_cons_self _ _
      rw [hs1]
      simp only
      rw [List.getElem?_set_ne (Ne.symm hik)]
      exact (is_memory_free_iff _ _).mp (hfree i hi)

/-! ## C16: the next index of a block -/

/-- C16: for a block `i` of the pool, whatever word it holds, and an index `idx` of at most
`0xffff`: after `set_next_block_index(i, idx)`, `get_next_block_index(i)` returns `idx`, the
low 16 bits of block `i` are the ones it had, and no other block has changed. -/
theorem next_index_round_trip (mem : List Nat) (i idx : Nat) (hi : i < mem.length)
    (hidx : idx ≤ 0xffff) :
    get_next_block_index (set_next_block_index mem i idx) i = some idx ∧
      payload_of (set_next_block_index mem i idx) i = payload_of mem i ∧
      (∀ j, j ≠ i → (set_next_block_index mem i idx)[j]? = mem[j]?) ∧
      (set_next_block_index mem i idx).length = mem.length := by
  unfold set_next_block_index
  rw [set_next_word_eq _ _ hidx]
  refine ⟨?_, ?_, ?_, by simp⟩
  · simp only [get_next_block_index, List.getElem?_set, hi, if_true, Option.map_some',
      next_of_word_eq]
    congr 1
    omega
  · rw [payload_of_set_self _ _ _ hi]
    unfold payload_of
    omega
  · intro j hj
    exact List.getElem?_set_ne (Ne.symm hj)

/-- C16 at block 1 of the four-block pool, with the next index 3. -/
theorem next_index_round_trip_witness :
    get_next_block_index (set_next_block_index four_blocks_full.memory 1 3) 1 = some 3 ∧
      payload_of (set_next_block_index four_blocks_full.memory 1 3) 1 =
        payload_of four_blocks_full.memory 1 ∧
      (∀ j, j ≠ 1 →
        (set_next_block_index four_blocks_full.memory 1 3)[j]? = four_blocks_full.memory[j]?) ∧
      (set_next_block_index four_blocks_full.memory 1 3).length =
        four_blocks_full.memory.length :=
  next_index_round_trip four_blocks_full.memory 1 3 (by decide) (by decide)

/-! ## C17: the two sentinels -/

/-- C17 (the claim as stated fails): block 0 of the four-block pool, once set free by
`set_memory_free`, has the next index `0xffff`, the value that ends a chain walk. -/
theorem free_block_next_is_end_of_chain :
    get_next_block_index (set_memory_free four_blocks_full.memory 0) 0 = some END_OF_CHAIN ∧
      is_memory_free (set_memory_free four_blocks_full.memory 0) 0 = true := by
  refine ⟨by decide, by decide⟩

/-- C17 (amended): the next field of a block set free by `set_memory_free` is `0xffff`, the
same value as the end of a chain. What tells a free block from the last block of a chain is the
payload: among the 32-bit words with the next field `0xffff`, the free word is the one whose
payload is 0. -/
theorem free_next_equals_end_of_chain (mem : List Nat) (i : Nat) (hi : i < mem.length) :
    get_next_block_index (set_memory_free mem i) i = some END_OF_CHAIN ∧
      is_memory_free (set_memory_free mem i) i = true ∧
      ∀ w, next_of_word w = END_OF_CHAIN → (w = POINTER_MASK ↔ w % 65536 = 0) := by
  refine ⟨?_, ?_, ?_⟩
  · simp only [get_next_block_index, set_memory_free, List.getElem?_set, hi, if_true,
      Option.map_some', next_of_word_eq]
    rfl
  · rw [is_memory_free_iff]
    simp [set_memory_free, List.getElem?_set, hi]
  · intro w hw
    rw [next_of_word_eq] at hw
    unfold END_OF_CHAIN at hw
    unfold POINTER_MASK
    omega

/-- C17 (amended) at block 0 of the four-block pool. -/
theorem free_next_equals_end_of_chain_witness :
    get_next_block_index (set_memory_free four_blocks_full.memory 0) 0 = some END_OF_CHAIN ∧
      is_memory_free (set_memory_free four_blocks_full.memory 0) 0 = true ∧
      ∀ w, next_of_word w = END_OF_CHAIN → (w = POINTER_MASK ↔ w % 65536 = 0) :=
  free_next_equals_end_of_chain four_blocks_full.memory 0 (by decide)

/-! ## C19: the terminator test of `read_file_content` -/

theorem read_loop_not_null : ∀ (fuel : Nat) (mem : List Nat) (b : Nat) (buf : List Nat)
    (r : Option (List Nat)), read_loop fuel mem b buf = .done r → r ≠ none := by
  intro fuel
  induction fuel with
  | zero => intro mem b buf r h; simp [read_loop] at h
  | succ f ih =>
    intro mem b buf r h
    rw [read_loop] at h
    by_cases hb : b = 0xffff
    · rw [if_pos hb] at h
      injection h with h
      rw [← h]
      simp
    · rw [if_neg hb] at h
      cases hw : mem[b]? with
      | none => rw [hw] at h; cases h
      | some w =>
        rw [hw] at h
        simp only [terminator_test_false] at h
        exact ih _ _ _ _ h

theorem read_file_content_not_null (s s' : State) (name : List Char) (r : Option (List Nat))
    (h : read_file_content s name = .ok r s') : r ≠ none := by
  unfold read_file_content at h
  split at h
  · cases h
  · cases h
  · cases h
  · split at h
    · cases h
    · split at h
      · rename_i hr
        injection h with h _
        rw [← h]
        exact read_loop_not_null _ _ _ _ _ hr
      · cases h
      · cases h

theorem flatMap_pair_length (l : List Nat) (f g : Nat → Nat) :
    (l.flatMap (fun x => [f x, g x])).length = 2 * l.length := by
  induction l with
  | nil => simp
  | cons y ys ih =>
    rw [List.flatMap_cons, List.length_append, ih]
    simp only [List.length_cons, List.length_nil]
    omega

/-- C19: the terminator test of `read_file_content` is false for every block word and every
byte position, so the function never returns the null pointer; and for a file whose chain `l`
is well formed (inside the pool, no repeats, ended by `0xffff`) it returns after storing two
bytes per block, in the order of the chain: bits 15..8 of the payload, then bits 7..0. -/
theorem decoder_never_stops_early :
    (∀ w j, terminator_test w j = false) ∧
    (∀ s s' name r, read_file_content s name = .ok r s' → r ≠ none) ∧
    (∀ s name h l, get_first_block_index_from_filename s name = some h →
      isChain s.memory h l = true → l.Nodup →
      read_file_content s name =
          .ok (some (l.flatMap (fun x =>
            [payload_of s.memory x / 256, payload_of s.memory x % 256]))) s ∧
        (l.flatMap (fun x =>
            [payload_of s.memory x / 256, payload_of s.memory x % 256])).length =
          2 * l.length) := by
  refine ⟨terminator_test_false, read_file_content_not_null, ?_⟩
  intro s name h l hlook hch hnd
  have hfuel : l.length < s.memory.length + 1 := by
    have := length_le_of_nodup_lt _ _ hnd (isChain_lt _ _ _ hch)
    omega
  refine ⟨?_, flatMap_pair_length _ _ _⟩
  unfold read_file_content count_used_blocks_for_file
  rw [hlook]
  simp only
  rw [count_loop_chain _ _ _ _ _ hch hfuel]
  simp only
  rw [read_loop_chain _ _ _ _ _ hch hfuel, flatMap_payload_bytes]
  simp only [List.nil_append]
  have hfun : (fun a => [payload_of s.memory a / 256 % 256, payload_of s.memory a % 256]) =
      fun x => [payload_of s.memory x / 256, payload_of s.memory x % 256] := by
    funext x
    have : payload_of s.memory x < 65536 := Nat.mod_lt _ (by norm_num)
    congr 1
    omega
  rw [List.flatMap_map, hfun]

set_option maxRecDepth 100000 in
/-- C19 at `"haha.h"` in `main`, after `"rdrr"` was written: the chain 0, 1, 2 gives six
bytes. -/
theorem decoder_never_stops_early_witness :
    (read_file_content demo_written haha =
        .ok (some ([0, 1, 2].flatMap (fun x =>
          [payload_of demo_written.memory x / 256, payload_of demo_written.memory x % 256])))
          demo_written ∧
      ([0, 1, 2].flatMap (fun x =>
          [payload_of demo_written.memory x / 256,
            payload_of demo_written.memory x % 256])).length = 2 * [0, 1, 2].length) ∧
      some [114, 100, 114, 114, 0, 1] ≠ none :=
  ⟨decoder_never_stops_early.2.2 demo_written haha 0 [0, 1, 2] (by decide) (by decide)
    (by decide),
   decoder_never_stops_early.2.1 demo_written demo_written haha
    (some [114, 100, 114, 114, 0, 1]) (by decide)⟩

/-! ## C11: the last block of a content of even length -/

theorem payloads_getLast_even (cs : List Int) (heven : cs.length % 2 = 0) :
    (payloads cs).getLast? = some 1 := by
  induction cs using payloads.induct with
  | case1 => rfl
  | case2 c0 => simp at heven
  | case3 c0 c1 rest ih =>
    have hr : rest.length % 2 = 0 := by
      simp only [List.length_cons] at heven
      omega
    rw [payloads]
    cases hq : payloads rest with
    | nil => exact absurd hq (payloads_ne_nil rest)
    | cons q qs =>
      rw [List.getLast?_cons_cons, ← hq]
      exact ih hr

/-- C11: after a successful `set_file_content` of a zero-free content of even length (`char`
values of either signedness; the empty content included), the last block of the chain of the
file holds the word `0xffff0001`: payload byte 0 is the NUL, payload byte 1 is the filler 1, the
next index is `0xffff`; the word is not the free word and `is_memory_free` is false for the
block. -/
theorem even_content_last_block (s s' : State) (name : List Char) (content : List Int)
    (hz : zero_free content) (hlen : s.memory.length ≤ 0xffff) (heven : content.length % 2 = 0)
    (h : set_file_content s name content = .ok () s') :
    ∃ l last, print_used_blocks_for_file s' name = .ok l s' ∧
      l.getLast? = some last ∧ s'.memory[last]? = some 0xffff0001 ∧
      payload_byte 0xffff0001 0 = 0 ∧ payload_byte 0xffff0001 1 = 1 ∧
      get_next_block_index s'.memory last = some END_OF_CHAIN ∧
      0xffff0001 ≠ POINTER_MASK ∧ is_memory_free s'.memory last = false := by
  obtain ⟨b, t, _, hl', hch, hpay, _, _, _, _, _, hfuel⟩ :=
    set_file_content_ok s s' name content hz hlen h
  obtain ⟨last, hlast⟩ : ∃ last, (b :: t).getLast? = some last :=
    ⟨(b :: t).getLast (by simp), List.getLast?_eq_getLast _ _⟩
  obtain ⟨w, hw, hnext⟩ := isChain_getLast _ _ _ _ hch hlast
  have hpl : payload_of s'.memory last = 1 := by
    have := congrArg List.getLast? hpay
    rw [List.getLast?_map, hlast, payloads_getLast_even content heven] at this
    simpa using this
  have hwv : w = 0xffff0001 := by
    simp only [payload_of, List.getD_eq_getElem?_getD, hw, Option.getD_some] at hpl
    rw [next_of_word_eq] at hnext
    omega
  rw [hwv] at hw
  refine ⟨b :: t, last, ?_, hlast, hw, by decide, by decide, ?_, by decide, ?_⟩
  · unfold print_used_blocks_for_file
    rw [hl']
    simp only
    rw [print_loop_chain _ _ _ _ _ hch hfuel]
    simp
  · simp only [get_next_block_index, hw, Option.map_some', next_of_word_eq]
    rfl
  · unfold is_memory_free
    rw [hw]
    decide

set_option maxRecDepth 100000 in
/-- C11 at `set_file_content("haha.h", "rdrr")` in `main`, and at
`set_file_content("a", "a\xe9")` in the four-block pool, where the second `char` is -23. -/
theorem even_content_last_block_witness :
    (∃ l last, print_used_blocks_for_file demo_written haha = .ok l demo_written ∧
      l.getLast? = some last ∧ demo_written.memory[last]? = some 0xffff0001 ∧
      payload_byte 0xffff0001 0 = 0 ∧ payload_byte 0xffff0001 1 = 1 ∧
      get_next_block_index demo_written.memory last = some END_OF_CHAIN ∧
      0xffff0001 ≠ POINTER_MASK ∧ is_memory_free demo_written.memory last = false) ∧
    (∃ l last, print_used_blocks_for_file four_blocks_high_pair ['a'] =
        .ok l four_blocks_high_pair ∧
      l.getLast? = some last ∧ four_blocks_high_pair.memory[last]? = some 0xffff0001 ∧
      payload_byte 0xffff0001 0 = 0 ∧ payload_byte 0xffff0001 1 = 1 ∧
      get_next_block_index four_blocks_high_pair.memory last = some END_OF_CHAIN ∧
      0xffff0001 ≠ POINTER_MASK ∧ is_memory_free four_blocks_high_pair.memory last = false) :=
  ⟨even_content_last_block demo_added demo_written haha (content_of [114, 100, 114, 114])
      (by decide) (by decide) (by decide) (by decide),
    even_content_last_block four_blocks_added four_blocks_high_pair ['a']
      (content_of [0x61, 0xe9]) (by decide) (by decide) (by decide) (by decide)⟩

/-! ## C15: the payload of the blocks that hold two characters -/

theorem payloads_getElem (cs : List Int) : ∀ k, 2 * k + 1 < cs.length →
    ∃ c0 c1, cs[2 * k]? = some c0 ∧ cs[2 * k + 1]? = some c1 ∧
      (payloads cs)[k]? = some (pair_payload c0 c1) := by
  induction cs using payloads.induct with
  | case1 => intro k hk; simp at hk
  | case2 c0 => intro k hk; simp at hk
  | case3 c0 c1 rest ih =>
    intro k hk
    cases k with
    | zero => exact ⟨c0, c1, by simp, by simp, by simp [payloads]⟩
    | succ k =>
      simp only [List.length_cons] at hk
      obtain ⟨d0, d1, h0, h1, hp⟩ := ih k (by omega)
      refine ⟨d0, d1, ?_, ?_, ?_⟩
      · have e : 2 * (k + 1) = (2 * k + 1) + 1 := by omega
        rw [e, List.getElem?_cons_succ, List.getElem?_cons_succ]
        exact h0
      · have e : 2 * (k + 1) + 1 = (2 * k + 1 + 1) + 1 := by omega
        rw [e, List.getElem?_cons_succ, List.getElem?_cons_succ]
        exact h1
      · rw [payloads, List.getElem?_cons_succ]
        exact hp

theorem getElem?_some_of_lt (l : List Nat) (k : Nat) (hk : k < l.length) :
    ∃ x, l[k]? = some x := by
  cases hx : l[k]? with
  | none =>
    rw [List.getElem?_eq_none_iff] at hx
    omega
  | some x => exact ⟨x, rfl⟩

theorem isChain_getElem (mem : List Nat) : ∀ (l : List Nat) (b k x y : Nat),
    isChain mem b l = true → l[k]? = some x → l[k + 1]? = some y →
    ∃ w, mem[x]? = some w ∧ next_of_word w = y := by
  intro l
  induction l with
  | nil => intro b k x y _ h; simp at h
  | cons z zs ih =>
    intro b k x y h hx hy
    rw [isChain_cons] at h
    obtain ⟨_, rfl, w, hw, hrest⟩ := h
    rw [List.getElem?_cons_succ] at hy
    cases k with
    | zero =>
      simp only [List.getElem?_cons_zero, Option.some.injEq] at hx
      subst hx
      refine ⟨w, hw, ?_⟩
      cases zs with
      | nil => simp at hy
      | cons u us =>
        rw [isChain_cons] at hrest
        simp only [List.getElem?_cons_zero, Option.some.injEq] at hy
        rw [← hy]
        exact hrest.2.1.symm
    | succ k =>
      rw [List.getElem?_cons_succ] at hx
      exact ih _ k x y hrest hx hy

/-- The payload of a block that holds two characters, for a zero-free content of `char` values
of either signedness: after a successful `set_file_content`, for every `k` with `2k + 1 < L` the
`k`-th block `x` of the chain holds the word `nx * 65536 + pair_payload c0 c1` for the
characters `c0`, `c1` at the places `2k`, `2k + 1`, where `nx` is the following block of the
chain. The next field holds no bit of the content. The payload is byte 0 in bits 15..8 and byte
1 in bits 7..0 exactly when `c1` is not negative; with a negative `c1` payload byte 0 is
`0xff`. -/
theorem payload_of_two_characters (s s' : State) (name : List Char) (content : List Int)
    (k : Nat) (hz : zero_free content) (hlen : s.memory.length ≤ 0xffff)
    (hk : 2 * k + 1 < content.length)
    (h : set_file_content s name content = .ok () s') :
    ∃ l x nx c0 c1 w, print_used_blocks_for_file s' name = .ok l s' ∧
      l[k]? = some x ∧ l[k + 1]? = some nx ∧
      content[2 * k]? = some c0 ∧ content[2 * k + 1]? = some c1 ∧
      s'.memory[x]? = some w ∧ w = nx * 65536 + pair_payload c0 c1 ∧
      get_next_block_index s'.memory x = some nx ∧ payload_byte w 1 = byte_of c1 ∧
      (0 ≤ c1 → payload_of s'.memory x = byte_of c0 * 256 + byte_of c1 ∧
        payload_byte w 0 = byte_of c0) ∧
      (c1 < 0 → payload_of s'.memory x = 0xff00 + byte_of c1 ∧ payload_byte w 0 = 0xff) := by
  obtain ⟨b, t, _, hl', hch, hpay, _, _, _, _, _, hfuel⟩ :=
    set_file_content_ok s s' name content hz hlen h
  obtain ⟨c0, c1, h0, h1, hp⟩ := payloads_getElem content k hk
  have hc0 : is_char c0 ∧ c0 ≠ 0 := hz c0 (List.getElem?_mem h0)
  have hlt0 := byte_of_lt c0
  have hlt1 := byte_of_lt c1
  obtain ⟨hP, _⟩ := pair_payload_facts c0 c1 hc0.1 hc0.2
  have hll : (b :: t).length = content.length / 2 + 1 := by
    rw [← payloads_length content, ← hpay, List.length_map]
  obtain ⟨x, hx⟩ := getElem?_some_of_lt (b :: t) k (by omega)
  obtain ⟨nx, hnx⟩ := getElem?_some_of_lt (b :: t) (k + 1) (by omega)
  obtain ⟨w, hw, hnext⟩ := isChain_getElem _ _ _ _ _ _ hch hx hnx
  have hpx : payload_of s'.memory x = pair_payload c0 c1 := by
    have := congrArg (fun q => q[k]?) hpay
    simp only [List.getElem?_map, hx, hp, Option.map_some', Option.some.injEq] at this
    exact this
  have hwv : w = nx * 65536 + pair_payload c0 c1 := by
    simp only [payload_of, List.getD_eq_getElem?_getD, hw, Option.getD_some] at hpx
    rw [next_of_word_eq] at hnext
    omega
  refine ⟨b :: t, x, nx, c0, c1, w, ?_, hx, hnx, h0, h1, hw, hwv, ?_, ?_, ?_, ?_⟩
  · unfold print_used_blocks_for_file
    rw [hl']
    simp only
    rw [print_loop_chain _ _ _ _ _ hch hfuel]
    simp
  · simp only [get_next_block_index, hw, Option.map_some', hnext]
  · rw [payload_byte_one, hwv]
    unfold pair_payload
    split <;> omega
  · intro hpos
    have hpp : pair_payload c0 c1 = byte_of c0 * 256 + byte_of c1 := by
      unfold pair_payload
      rw [if_neg (by omega)]
    rw [hpp] at hwv hpx
    refine ⟨hpx, ?_⟩
    rw [payload_byte_zero, hwv]; omega
  · intro hneg
    have hpp : pair_payload c0 c1 = 0xff00 + byte_of c1 := by
      unfold pair_payload
      rw [if_pos hneg]
    rw [hpp] at hwv hpx
    refine ⟨hpx, ?_⟩
    rw [payload_byte_zero, hwv]; omega

set_option maxRecDepth 100000 in
/-- C15 (the code differs): a byte above `0x7f` in the second place of a block overwrites the
first payload byte. Where plain `char` is signed, the two bytes `0x61 0xe9` are the `char`
values 97 and -23. In the pool of `main`, `add_new_file("a")` and
`set_file_content("a", "a\xe9")` return, the chain of `"a"` is 0, 1, and block 0 (`k = 0`) holds
the word `0x0001ffe9`: its payload field is `0xffe9`, not `0x61 * 256 + 0xe9 = 0x61e9`, and its
payload byte 0 is `0xff`, not `0x61`. `set_file_content` joins the promoted `char` values with
`|=` without a cast, so the sign extension of -23 sets the bits 31..8 of the word;
`set_next_block_index` then replaces the next field only. -/
theorem payload_byte_lost_to_sign_extension :
    content_of [0x61, 0xe9] = [97, -23] ∧ zero_free (content_of [0x61, 0xe9]) ∧
      add_new_file (initState BLOCK_COUNT) ['a'] =
        .ok () ⟨0xffff0001 :: List.replicate 999 POINTER_MASK, [⟨0, ['a']⟩]⟩ ∧
      set_file_content ⟨0xffff0001 :: List.replicate 999 POINTER_MASK, [⟨0, ['a']⟩]⟩ ['a']
          (content_of [0x61, 0xe9]) =
        .ok () ⟨0x0001ffe9 :: 0xffff0001 :: List.replicate 998 POINTER_MASK, [⟨0, ['a']⟩]⟩ ∧
      print_used_blocks_for_file
          ⟨0x0001ffe9 :: 0xffff0001 :: List.replicate 998 POINTER_MASK, [⟨0, ['a']⟩]⟩ ['a'] =
        .ok [0, 1]
          ⟨0x0001ffe9 :: 0xffff0001 :: List.replicate 998 POINTER_MASK, [⟨0, ['a']⟩]⟩ ∧
      payload_of (0x0001ffe9 :: 0xffff0001 :: List.replicate 998 POINTER_MASK) 0 = 0xffe9 ∧
      payload_of (0x0001ffe9 :: 0xffff0001 :: List.replicate 998 POINTER_MASK) 0 ≠
        0x61 * 256 + 0xe9 ∧
      payload_byte 0x0001ffe9 0 = 0xff ∧ payload_byte 0x0001ffe9 0 ≠ 0x61 ∧
      payload_byte 0x0001ffe9 1 = 0xe9 := by
  refine ⟨by decide, by decide, by decide, by decide, by decide, by decide, by decide,
    by decide, by decide, by decide⟩

/-! ## C18: the directory slots -/

set_option maxRecDepth 100000 in
/-- C18 (the code differs): twenty rounds of `add_new_file("a")` and `delete_file("a")` in the
pool of `main` all return, with one live file at most at any time. `delete_file` does not give
the directory slot back, so `currentFileCount` is then 20 with no live file, and the next
`add_new_file("a")` writes the directory slot 20, outside the array of `MAX_FILE_COUNT`
slots. -/
theorem add_new_file_after_twenty_deletes :
    add_delete_times 20 (initState BLOCK_COUNT) = .ok () twenty_deleted ∧
      twenty_deleted.currentFileCount = MAX_FILE_COUNT ∧
      get_first_block_index_from_filename twenty_deleted ['a'] = none ∧
      find_first_free twenty_deleted.memory = some 0 ∧
      add_new_file twenty_deleted ['a'] = .undefined := by
  refine ⟨by decide, by decide, by decide, by decide, by decide⟩

/-! ## C12: names that the directory does not hold -/

/-- Induction on a list two elements at a time, the way `set_file_content` reads a content. -/
theorem pairs_induction {α : Type} {P : List α → Prop} (h0 : P []) (h1 : ∀ a, P [a])
    (h2 : ∀ a b l, P l → P (a :: b :: l)) : ∀ l, P l
  | [] => h0
  | [a] => h1 a
  | a :: b :: l => h2 a b l (pairs_induction h0 h1 h2 l)

theorem set_file_content_loop_files (cs : List Int) : ∀ (b : Nat) (s s' : State),
    set_file_content_loop cs b s = .ok () s' → s'.files = s.files := by
  induction cs using pairs_induction with
  | h0 =>
    intro b s s' h
    rw [set_file_content_loop] at h
    split at h
    · injection h with _ h; rw [← h]; rfl
    · cases h
  | h1 c0 =>
    intro b s s' h
    rw [set_file_content_loop] at h
    split at h
    · split at h <;> (injection h with _ h; rw [← h]; rfl)
    · cases h
  | h2 c0 c1 rest ih =>
    intro b s s' h
    rw [set_file_content_loop] at h
    split at h
    · split at h
      · injection h with _ h; rw [← h]; rfl
      · split at h
        · injection h with _ h; rw [← h]; rfl
        · simp only at h
          split at h
          · cases h
          · have := ih _ _ _ h
            exact this
    · cases h

theorem set_file_content_files (s s' : State) (name : List Char) (content : List Int)
    (h : set_file_content s name content = .ok () s') : s'.files = s.files := by
  unfold set_file_content at h
  split at h
  · cases h
  · exact set_file_content_loop_files _ _ _ _ h

theorem delete_file_files (s s' : State) (name : List Char)
    (h : delete_file s name = .ok () s') : s'.files = clear_entries s.files name := by
  unfold delete_file at h
  split at h
  · cases h
  · split at h
    · injection h with _ h; rw [← h]
    · cases h
    · cases h

theorem add_new_file_files (s s' : State) (name : List Char)
    (h : add_new_file s name = .ok () s') :
    ∃ k, s'.files = s.files ++ [⟨k, name⟩] ∧ name.length ≤ MAX_FILENAME_LENGTH := by
  obtain ⟨k, _, hs, _, _, _⟩ := add_new_file_ok s s' name h
  refine ⟨k, by rw [hs], ?_⟩
  unfold add_new_file at h
  split at h
  · cases h
  · omega

/-- In a reachable state no directory slot holds a name of more than 10 characters. -/
theorem reachable_names_short (n : Nat) (s : State) (hr : Reachable n s) :
    ∀ f ∈ s.files, f.fileName.length ≤ MAX_FILENAME_LENGTH := by
  induction hr with
  | init => intro f hf; simp [initState] at hf
  | add s s' name _ hadd ih =>
    obtain ⟨k, hfiles, hmax⟩ := add_new_file_files s s' name hadd
    intro f hf
    rw [hfiles, List.mem_append, List.mem_singleton] at hf
    rcases hf with hf | rfl
    · exact ih f hf
    · exact hmax
  | write s s' name content _ hset ih =>
    rw [set_file_content_files s s' name content hset]
    exact ih
  | delete s s' name _ hdel ih =>
    rw [delete_file_files s s' name hdel]
    intro f hf
    simp only [clear_entries, List.mem_map] at hf
    obtain ⟨g, hg, rfl⟩ := hf
    split
    · simp
    · exact ih g hg

theorem lookup_none_of_absent (s : State) (name : List Char)
    (hshort : ∀ f ∈ s.files, f.fileName.length ≤ MAX_FILENAME_LENGTH)
    (hmax : name.length ≤ MAX_FILENAME_LENGTH)
    (habs : ∀ f ∈ s.files, f.fileName ≠ name) :
    get_first_block_index_from_filename s name = none := by
  unfold get_first_block_index_from_filename
  simp only [Option.map_eq_none', List.find?_eq_none]
  intro f hf hm
  apply habs f hf
  unfold strncmp_eq at hm
  rw [List.take_of_length_le (hshort f hf), List.take_of_length_le hmax] at hm
  simpa using hm

theorem not_found_of_lookup_none (s : State) (name : List Char)
    (h : get_first_block_index_from_filename s name = none) :
    (∀ content, set_file_content s name content = .exit .FILE_NOT_FOUND s) ∧
      read_file_content s name = .exit .FILE_NOT_FOUND s ∧
      count_used_blocks_for_file s name = .exit .FILE_NOT_FOUND s ∧
      delete_file s name = .exit .FILE_NOT_FOUND s := by
  refine ⟨fun content => ?_, ?_, ?_, ?_⟩
  · unfold set_file_content; rw [h]
  · unfold read_file_content count_used_blocks_for_file; rw [h]
  · unfold count_used_blocks_for_file; rw [h]
  · unfold delete_file; rw [h]

set_option maxRecDepth 100000 in
/-- C12 (the claim as stated fails): after `add_new_file("a")` and `delete_file("a")` in the
pool of `main`, the empty name is not the name of a live file, and the lookup of the empty name
finds the cleared slot with the block index 0: `count_used_blocks_for_file("")` returns 1,
`read_file_content("")` returns a buffer, `delete_file("")` returns, and
`set_file_content("", "A")` returns after writing block 0. -/
theorem empty_name_found_after_delete :
    Reachable BLOCK_COUNT one_deleted ∧
      get_first_block_index_from_filename one_deleted [] = some 0 ∧
      count_used_blocks_for_file one_deleted [] = .ok 1 one_deleted ∧
      read_file_content one_deleted [] = .ok (some [0, 0]) one_deleted ∧
      delete_file one_deleted [] = .ok () one_deleted ∧
      set_file_content one_deleted [] (content_of [65]) =
        .ok () ⟨0xffff4100 :: List.replicate 999 POINTER_MASK, [⟨0, []⟩]⟩ := by
  refine ⟨?_, by decide, by decide, by decide, by decide, by decide⟩
  exact .delete ⟨0xffff0001 :: List.replicate 999 POINTER_MASK, [⟨0, ['a']⟩]⟩ _ ['a']
    (.add _ _ ['a'] .init (by decide)) (by decide)

/-- C12 (amended): in every reachable state, for every valid name (1 to 10 characters) that no
directory slot holds (it was never added, or the file was deleted),
`set_file_content`, `read_file_content`, `count_used_blocks_for_file` and `delete_file` all end
with `FILE_NOT_FOUND_ERROR` in the state in which they were called. -/
theorem absent_name_not_found (n : Nat) (s : State) (name : List Char)
    (hr : Reachable n s) (hv : valid_name name)
    (habs : (∀ f ∈ s.files, f.fileName ≠ name) ∨ ∃ s0, delete_file s0 name = .ok () s) :
    (∀ content, set_file_content s name content = .exit .FILE_NOT_FOUND s) ∧
      read_file_content s name = .exit .FILE_NOT_FOUND s ∧
      count_used_blocks_for_file s name = .exit .FILE_NOT_FOUND s ∧
      delete_file s name = .exit .FILE_NOT_FOUND s := by
  apply not_found_of_lookup_none
  rcases habs with habs | ⟨s0, hdel⟩
  · exact lookup_none_of_absent s name (reachable_names_short n s hr) hv.2 habs
  · have hfiles := delete_file_files s0 s name hdel
    have := lookup_clear_entries s0.files s.memory name hv.1
    rw [← this]
    exact lookup_congr _ _ _ (by rw [hfiles])

set_option maxRecDepth 100000 in
/-- C12 (amended) in `main`, after `"rdrr"` was written to `"haha.h"`: the name `"muh.txt"` has
not been added yet. -/
theorem absent_name_not_found_witness :
    (∀ content, set_file_content demo_written "muh.txt".toList content =
        .exit .FILE_NOT_FOUND demo_written) ∧
      read_file_content demo_written "muh.txt".toList = .exit .FILE_NOT_FOUND demo_written ∧
      count_used_blocks_for_file demo_written "muh.txt".toList =
        .exit .FILE_NOT_FOUND demo_written ∧
      delete_file demo_written "muh.txt".toList = .exit .FILE_NOT_FOUND demo_written :=
  absent_name_not_found BLOCK_COUNT demo_written "muh.txt".toList
    (.write demo_added _ haha (content_of [114, 100, 114, 114])
      (.add _ _ haha .init (by decide)) (by decide))
    (by decide) (Or.inl (by decide))

/-! ## C14: the blocks a write takes -/

theorem mem_free_list (mem : List Nat) (i : Nat) :
    i ∈ free_list mem ↔ is_memory_free mem i = true := by
  unfold free_list
  rw [List.mem_filter, List.mem_range]
  constructor
  · exact fun h => h.2
  · exact fun h => ⟨is_memory_free_lt mem i h, h⟩

theorem free_list_sorted (mem : List Nat) : List.Pairwise (· < ·) (free_list mem) :=
  List.Pairwise.filter _ (List.pairwise_lt_range _)

theorem free_list_length (mem : List Nat) : (free_list mem).length = free_count mem := by
  induction mem with
  | nil => rfl
  | cons a as ih =>
    unfold free_list free_count at ih ⊢
    rw [List.length_cons, List.range_succ_eq_map, List.filter_cons, List.filter_map,
      List.countP_cons]
    have hfun : ((fun i => is_memory_free (a :: as) i) ∘ Nat.succ) =
        fun i => is_memory_free as i := by
      funext i
      simp [is_memory_free]
    rw [hfun]
    have h0 : is_memory_free (a :: as) 0 = (a == POINTER_MASK) := by
      simp [is_memory_free]
    rw [h0]
    by_cases ha : a = POINTER_MASK
    · simp [ha, ih]
    · simp [ha, ih]

theorem free_list_set (mem : List Nat) (b w : Nat) (hw : w ≠ POINTER_MASK) :
    free_list (mem.set b w) = (free_list mem).filter (fun i => i != b) := by
  unfold free_list
  rw [List.filter_filter, List.length_set]
  apply List.filter_congr
  intro i _
  by_cases hi : i = b
  · subst hi
    rw [is_memory_free_set_self _ _ _ hw]
    simp
  · rw [is_memory_free_set_ne _ _ _ _ hi]
    simp [hi]

theorem filter_ne_of_not_mem (l : List Nat) (b : Nat) (h : b ∉ l) :
    l.filter (fun i => i != b) = l := by
  rw [List.filter_eq_self]
  intro a ha
  simp only [bne_iff_ne, ne_eq]
  intro e
  exact h (e ▸ ha)

theorem filter_ne_head (a : Nat) (l : List Nat) (h : List.Pairwise (· < ·) (a :: l)) :
    (a :: l).filter (fun i => i != a) = l := by
  rw [List.filter_cons]
  simp only [bne_self_eq_false, Bool.false_eq_true, if_false]
  apply filter_ne_of_not_mem
  intro ha
  have := (List.pairwise_cons.mp h).1 a ha
  omega

theorem isChain_unique (mem : List Nat) : ∀ (l1 l2 : List Nat) (b : Nat),
    isChain mem b l1 = true → isChain mem b l2 = true → l1 = l2 := by
  intro l1
  induction l1 with
  | nil =>
    intro l2 b h1 h2
    rw [isChain_nil] at h1
    cases l2 with
    | nil => rfl
    | cons y ys =>
      rw [isChain_cons] at h2
      exact absurd h1 h2.1
  | cons x xs ih =>
    intro l2 b h1 h2
    rw [isChain_cons] at h1
    obtain ⟨hb, rfl, w, hw, hrest⟩ := h1
    cases l2 with
    | nil =>
      rw [isChain_nil] at h2
      exact absurd h2 hb
    | cons y ys =>
      rw [isChain_cons] at h2
      obtain ⟨_, rfl, w2, hw2, hrest2⟩ := h2
      rw [hw] at hw2
      injection hw2 with hw2
      subst hw2
      rw [ih ys _ hrest hrest2]

/-- With enough free blocks the write loop returns, and the blocks it links behind the start
block are the lowest free blocks of the pool, in increasing order. -/
theorem set_file_content_loop_first_fit (cs : List Int) : ∀ (b : Nat) (s : State),
    zero_free cs → s.memory.length ≤ 0xffff → b < s.memory.length →
    cs.length / 2 ≤ ((free_list s.memory).filter (fun i => i != b)).length →
    ∃ s', set_file_content_loop cs b s = .ok () s' ∧
      isChain s'.memory b
        (b :: ((free_list s.memory).filter (fun i => i != b)).take (cs.length / 2)) = true := by
  induction cs using payloads.induct with
  | case1 =>
    intro b s _ hlen hb _
    refine ⟨end_at_first_byte s b, ?_, ?_⟩
    · simp only [set_file_content_loop, if_pos hb]
    · rw [end_at_first_byte_eq s b hb, isChain_cons]
      refine ⟨by omega, rfl, 0xffff0001, by simp [List.getElem?_set, hb], ?_⟩
      simp only [List.length_nil, Nat.zero_div, List.take_zero]
      rw [isChain_nil, next_of_word_eq]
  | case2 c0 =>
    intro b s hz hlen hb _
    have hc : is_char c0 ∧ c0 ≠ 0 := hz c0 (by simp)
    have hlt := byte_of_lt c0
    refine ⟨end_at_second_byte s b c0, ?_, ?_⟩
    · simp only [set_file_content_loop, if_pos hb, if_neg hc.2]
    · rw [end_at_second_byte_eq s b c0 hb hc.1, isChain_cons]
      refine ⟨by omega, rfl, 0xffff0000 + byte_of c0 * 256, by simp [List.getElem?_set, hb],
        ?_⟩
      have h12 : [c0].length / 2 = 0 := by simp
      rw [h12, List.take_zero, isChain_nil, next_of_word_eq]
      omega
  | case3 c0 c1 rest ih =>
    intro b s hz hlen hb henough
    have hc0 : is_char c0 ∧ c0 ≠ 0 := hz c0 (by simp)
    have hc1 : is_char c1 ∧ c1 ≠ 0 := hz c1 (by simp)
    have hzr : zero_free rest := fun c hc => hz c (by simp [hc])
    obtain ⟨hP, hP0⟩ := pair_payload_facts c0 c1 hc0.1 hc0.2
    have hwne : (0 ||| toU32 (c0 * 2 ^ ((1 - 0) * 8))) |||
        toU32 (c1 * 2 ^ ((1 - 1) * 8)) ≠ POINTER_MASK := by
      rw [pair_word c0 c1 hc0.1 hc1.1]
      unfold POINTER_MASK
      split <;> omega
    have hL : (c0 :: c1 :: rest).length / 2 = rest.length / 2 + 1 := by
      simp only [List.length_cons]; omega
    rw [hL] at henough ⊢
    have hG := free_list_set s.memory b _ hwne
    have hGs : List.Pairwise (· < ·) ((free_list s.memory).filter (fun i => i != b)) :=
      List.Pairwise.filter _ (free_list_sorted _)
    cases hF : (free_list s.memory).filter (fun i => i != b) with
    | nil => rw [hF] at henough; simp at henough
    | cons nb G =>
      rw [hF] at henough hGs hG
      have hnbmem : nb ∈ free_list (s.memory.set b ((0 ||| toU32 (c0 * 2 ^ ((1 - 0) * 8))) |||
          toU32 (c1 * 2 ^ ((1 - 1) * 8)))) := by
        rw [hG]; exact List.mem_cons_self _ _
      have hfind : find_first_free (s.memory.set b ((0 ||| toU32 (c0 * 2 ^ ((1 - 0) * 8))) |||
          toU32 (c1 * 2 ^ ((1 - 1) * 8)))) = some nb := by
        rw [find_first_free_some]
        refine ⟨(mem_free_list _ _).mp hnbmem, fun j hj => ?_⟩
        cases hfj : is_memory_free (s.memory.set b ((0 ||| toU32 (c0 * 2 ^ ((1 - 0) * 8))) |||
            toU32 (c1 * 2 ^ ((1 - 1) * 8)))) j
        · rfl
        · have hjm := (mem_free_list _ _).mpr hfj
          rw [hG] at hjm
          rcases List.mem_cons.mp hjm with e | hjG
          · omega
          · have := (List.pairwise_cons.mp hGs).1 j hjG
            omega
      have hnb_lt : nb < s.memory.length := by
        simpa using is_memory_free_lt _ _ ((mem_free_list _ _).mp hnbmem)
      have hw2ne : nb * 65536 + pair_payload c0 c1 ≠ POINTER_MASK := by
        unfold POINTER_MASK; omega
      have hG2 : free_list (s.memory.set b (nb * 65536 + pair_payload c0 c1)) = nb :: G := by
        rw [free_list_set _ _ _ hw2ne, hF]
      have hrec : (free_list (s.memory.set b (nb * 65536 + pair_payload c0 c1))).filter
          (fun i => i != nb) = G := by
        rw [hG2]; exact filter_ne_head nb G hGs
      have hnb_ne : nb ≠ b := by
        intro e
        have : nb ∈ (free_list s.memory).filter (fun i => i != b) := by
          rw [hF]; exact List.mem_cons_self _ _
        rw [List.mem_filter] at this
        simp [e] at this
      obtain ⟨s', hrun, hch⟩ := ih nb ⟨s.memory.set b (nb * 65536 + pair_payload c0 c1), s.files⟩
        hzr (by simpa using hlen) (by simpa using hnb_lt)
        (by rw [hrec]; simp only [List.length_cons] at henough; omega)
      rw [hrec] at hch
      obtain ⟨t, hch', _, htfree, _, _, hframe, _, _⟩ :=
        set_file_content_loop_ok rest nb _ s' hzr (by simpa using hlen) hrun
      have htG : nb :: t = nb :: G.take (rest.length / 2) := isChain_unique _ _ _ _ hch' hch
      have hbt : b ∉ t := by
        intro hmem
        have := htfree b hmem
        rw [is_memory_free_set_self _ _ _ hw2ne] at this
        cases this
      have hb_s' : s'.memory[b]? = some (nb * 65536 + pair_payload c0 c1) := by
        rw [hframe b (by simp [hbt, Ne.symm hnb_ne])]
        simp [List.getElem?_set, hb]
      refine ⟨s', ?_, ?_⟩
      · simp only [set_file_content_loop]
        rw [if_pos hb, if_neg hc0.2, if_neg hc1.2, or_word_set _ _ _ _ hb,
          or_word_set _ _ _ _ hb, hfind]
        simp only
        rw [set_next_block_index_set _ _ _ _ hb,
          pair_word_linked c0 c1 hc0.1 hc1.1 nb (by omega)]
        exact hrun
      · rw [List.take_succ_cons, isChain_cons]
        refine ⟨by omega, rfl, _, hb_s', ?_⟩
        rw [next_of_word_eq]
        have : (nb * 65536 + pair_payload c0 c1) / 65536 = nb := by omega
        rw [this]
        exact hch

set_option maxRecDepth 100000 in
/-- The calls of `main` up to `add_new_file("lngfle.asm")` return and lead to the state
`demo_before_long`. -/
theorem main_before_long_eq : main_before_long = .ok () demo_before_long := by
  decide

/-- C14: for a file whose first block `h` is a claimed block of the pool, and a zero-free
content of `L` characters (`char` values of either signedness) such that the pool has at least
`L / 2` free blocks, `set_file_content` returns and the block sequence of the file, as
`print_used_blocks_for_file` walks it, is `h` followed by the first `L / 2` elements of the list
of the free indices of the pool in increasing order. -/
theorem block_sequence_first_fit (s : State) (name : List Char) (h : Nat) (content : List Int)
    (hlook : get_first_block_index_from_filename s name = some h)
    (hh : h < s.memory.length) (hclaimed : is_memory_free s.memory h = false)
    (hz : zero_free content) (hlen : s.memory.length ≤ 0xffff)
    (henough : content.length / 2 ≤ free_count s.memory) :
    ∃ s', set_file_content s name content = .ok () s' ∧
      print_used_blocks_for_file s' name =
        .ok (h :: (free_list s.memory).take (content.length / 2)) s' ∧
      List.Pairwise (· < ·) (free_list s.memory) ∧
      (∀ i, i ∈ free_list s.memory ↔ is_memory_free s.memory i = true) := by
  have hnot : h ∉ free_list s.memory := by
    rw [mem_free_list, hclaimed]
    simp
  have hF : (free_list s.memory).filter (fun i => i != h) = free_list s.memory :=
    filter_ne_of_not_mem _ _ hnot
  obtain ⟨s', hrun, hch⟩ := set_file_content_loop_first_fit content h s hz hlen hh
    (by rw [hF, free_list_length]; exact henough)
  rw [hF] at hch
  have hset : set_file_content s name content = .ok () s' := by
    unfold set_file_content
    rw [hlook]
    exact hrun
  obtain ⟨b, t, hlb, hl', hch', _, _, _, _, _, _, hfuel⟩ :=
    set_file_content_ok s s' name content hz hlen hset
  rw [hlook] at hlb
  injection hlb with hlb
  subst hlb
  have heq := isChain_unique _ _ _ _ hch' hch
  rw [heq] at hfuel
  refine ⟨s', hset, ?_, free_list_sorted _, mem_free_list _⟩
  unfold print_used_blocks_for_file
  rw [hl']
  simp only
  rw [print_loop_chain _ _ _ _ _ hch hfuel]
  simp

set_option maxRecDepth 100000 in
/-- C14 at the last file of `main`: after `"haha.h"` was deleted, `"lngfle.asm"` with its 52
bytes gets the blocks 0 1 2 13 14 ... 36. And in the same state for a content with bytes above
`0x7f`, `"\xe9\xfc\xe9\xfc\xe9"` (the `char` values -23 and -4 where `char` is signed): the
blocks are 0 1 2. -/
theorem block_sequence_first_fit_witness :
    ((∃ s', set_file_content demo_before_long "lngfle.asm".toList (content_of long_content) =
        .ok () s' ∧
      print_used_blocks_for_file s' "lngfle.asm".toList =
        .ok (0 :: (free_list demo_before_long.memory).take
          ((content_of long_content).length / 2)) s' ∧
      List.Pairwise (· < ·) (free_list demo_before_long.memory) ∧
      (∀ i, i ∈ free_list demo_before_long.memory ↔
        is_memory_free demo_before_long.memory i = true)) ∧
    0 :: (free_list demo_before_long.memory).take ((content_of long_content).length / 2) =
      [0, 1, 2, 13, 14, 15, 16, 17, 18, 19, 20, 21, 22, 23, 24, 25, 26, 27, 28, 29, 30, 31, 32,
        33, 34, 35, 36]) ∧
    ((∃ s', set_file_content demo_before_long "lngfle.asm".toList
          (content_of [0xe9, 0xfc, 0xe9, 0xfc, 0xe9]) = .ok () s' ∧
      print_used_blocks_for_file s' "lngfle.asm".toList =
        .ok (0 :: (free_list demo_before_long.memory).take
          ((content_of [0xe9, 0xfc, 0xe9, 0xfc, 0xe9]).length / 2)) s' ∧
      List.Pairwise (· < ·) (free_list demo_before_long.memory) ∧
      (∀ i, i ∈ free_list demo_before_long.memory ↔
        is_memory_free demo_before_long.memory i = true)) ∧
    0 :: (free_list demo_before_long.memory).take
        ((content_of [0xe9, 0xfc, 0xe9, 0xfc, 0xe9]).length / 2) = [0, 1, 2]) :=
  ⟨⟨block_sequence_first_fit demo_before_long "lngfle.asm".toList 0 (content_of long_content)
      (by decide) (by decide) (by decide) (by decide) (by decide) (by decide), by decide⟩,
    ⟨block_sequence_first_fit demo_before_long "lngfle.asm".toList 0
      (content_of [0xe9, 0xfc, 0xe9, 0xfc, 0xe9])
      (by decide) (by decide) (by decide) (by decide) (by decide) (by decide), by decide⟩⟩

/-! ## The write loop for an arbitrary content -/

theorem or_low_ne_pointer_mask (a b : Nat) (h : a % 65536 ≠ 0) : a ||| b ≠ POINTER_MASK := by
  intro e
  obtain ⟨i, hi⟩ := Nat.ne_zero_implies_bit_true h
  have h16 : (65536 : Nat) = 2 ^ 16 := by norm_num
  rw [h16, Nat.testBit_mod_two_pow] at hi
  simp only [Bool.and_eq_true, decide_eq_true_eq] at hi
  have h1 : (a ||| b).testBit i = true := by
    rw [Nat.testBit_or, hi.2]
    rfl
  have h2 : (POINTER_MASK % 2 ^ 16).testBit i = false := by
    have : POINTER_MASK % 2 ^ 16 = 0 := by decide
    rw [this]
    exact Nat.zero_testBit i
  rw [Nat.testBit_mod_two_pow] at h2
  rw [e] at h1
  simp [hi.1, h1] at h2

theorem toU32_shift8_low (c : Int) (hc : is_char c) (h0 : c ≠ 0) :
    toU32 (c * 2 ^ ((1 - 0) * 8)) % 65536 ≠ 0 := by
  unfold toU32
  unfold is_char at hc
  have e : (c * 2 ^ ((1 - 0) * 8)) = c * 256 := by norm_num
  rw [e]
  omega

theorem last_block_facts (s : State) (b w : Nat) (hb : b < s.memory.length)
    (hlen : s.memory.length ≤ 0xffff) (hw : w % 65536 ≠ 0) :
    ∃ t, isChain (s.memory.set b (set_next_word w 0xffff)) b (b :: t) = true ∧
      (∀ x ∈ b :: t, is_memory_free (s.memory.set b (set_next_word w 0xffff)) x = false) ∧
      (∀ x ∈ t, is_memory_free s.memory x = true) ∧ b ∉ t ∧ t.Nodup ∧
      (∀ i, i ∉ b :: t → (s.memory.set b (set_next_word w 0xffff))[i]? = s.memory[i]?) ∧
      (s.memory.set b (set_next_word w 0xffff)).length = s.memory.length := by
  rw [set_next_word_eq _ _ (le_refl _)]
  obtain ⟨W, hW⟩ : ∃ W, W = 0xffff * 65536 + w % 65536 := ⟨_, rfl⟩
  rw [← hW]
  have hne : W ≠ POINTER_MASK := by
    unfold POINTER_MASK; omega
  have hget : (s.memory.set b W)[b]? = some W := by simp [List.getElem?_set, hb]
  refine ⟨[], ?_, ?_, by simp, by simp, by simp, ?_, by simp⟩
  · rw [isChain_cons]
    refine ⟨by omega, rfl, W, hget, ?_⟩
    rw [isChain_nil, next_of_word_eq]
    omega
  · intro x hx
    simp only [List.mem_singleton] at hx
    subst hx
    exact is_memory_free_set_self _ _ _ hne
  · intro i hi
    simp only [List.mem_singleton] at hi
    exact List.getElem?_set_ne (Ne.symm hi)

/-- What a successful run of the write loop leaves behind, for any content of `char` values:
a chain from the start block through blocks that were free, none of them free afterwards, and
every other block as it was. -/
theorem set_file_content_loop_chain (cs : List Int) : ∀ (b : Nat) (s s' : State),
    (∀ c ∈ cs, is_char c) → s.memory.length ≤ 0xffff →
    set_file_content_loop cs b s = .ok () s' →
    ∃ t, isChain s'.memory b (b :: t) = true ∧
      (∀ x ∈ b :: t, is_memory_free s'.memory x = false) ∧
      (∀ x ∈ t, is_memory_free s.memory x = true) ∧ b ∉ t ∧ t.Nodup ∧
      (∀ i, i ∉ b :: t → s'.memory[i]? = s.memory[i]?) ∧
      s'.memory.length = s.memory.length ∧ s'.files = s.files := by
  have hfirst : ∀ (b : Nat) (s : State), b < s.memory.length → s.memory.length ≤ 0xffff →
      ∃ t, isChain (end_at_first_byte s b).memory b (b :: t) = true ∧
        (∀ x ∈ b :: t, is_memory_free (end_at_first_byte s b).memory x = false) ∧
        (∀ x ∈ t, is_memory_free s.memory x = true) ∧ b ∉ t ∧ t.Nodup ∧
        (∀ i, i ∉ b :: t → (end_at_first_byte s b).memory[i]? = s.memory[i]?) ∧
        (end_at_first_byte s b).memory.length = s.memory.length ∧
        (end_at_first_byte s b).files = s.files := by
    intro b s hb hlen
    obtain ⟨t, h⟩ := last_block_facts s b (0 ||| 0x1) hb hlen (by decide)
    refine ⟨t, ?_⟩
    unfold end_at_first_byte
    simp only
    rw [or_word_set _ _ _ _ hb, set_next_block_index_set _ _ _ _ hb]
    exact ⟨h.1, h.2.1, h.2.2.1, h.2.2.2.1, h.2.2.2.2.1, h.2.2.2.2.2.1, h.2.2.2.2.2.2, trivial⟩
  have hsecond : ∀ (b : Nat) (s : State) (c0 : Int), b < s.memory.length →
      s.memory.length ≤ 0xffff → is_char c0 → c0 ≠ 0 →
      ∃ t, isChain (end_at_second_byte s b c0).memory b (b :: t) = true ∧
        (∀ x ∈ b :: t, is_memory_free (end_at_second_byte s b c0).memory x = false) ∧
        (∀ x ∈ t, is_memory_free s.memory x = true) ∧ b ∉ t ∧ t.Nodup ∧
        (∀ i, i ∉ b :: t → (end_at_second_byte s b c0).memory[i]? = s.memory[i]?) ∧
        (end_at_second_byte s b c0).memory.length = s.memory.length ∧
        (end_at_second_byte s b c0).files = s.files := by
    intro b s c0 hb hlen hc h0
    obtain ⟨t, h⟩ := last_block_facts s b (0 ||| toU32 (c0 * 2 ^ ((1 - 0) * 8))) hb hlen
      (by rw [Nat.zero_or]; exact toU32_shift8_low c0 hc h0)
    refine ⟨t, ?_⟩
    unfold end_at_second_byte
    simp only
    rw [or_word_set _ _ _ _ hb, set_next_block_index_set _ _ _ _ hb]
    exact ⟨h.1, h.2.1, h.2.2.1, h.2.2.2.1, h.2.2.2.2.1, h.2.2.2.2.2.1, h.2.2.2.2.2.2, trivial⟩
  induction cs using pairs_induction with
  | h0 =>
    intro b s s' _ hlen h
    rw [set_file_content_loop] at h
    split at h
    · rename_i hb
      injection h with _ h
      rw [← h]
      exact hfirst b s hb hlen
    · cases h
  | h1 c0 =>
    intro b s s' hc hlen h
    rw [set_file_content_loop] at h
    split at h
    · rename_i hb
      split at h
      · injection h with _ h
        rw [← h]
        exact hfirst b s hb hlen
      · rename_i h0
        injection h with _ h
        rw [← h]
        exact hsecond b s c0 hb hlen (hc c0 (by simp)) h0
    · cases h
  | h2 c0 c1 rest ih =>
    intro b s s' hc hlen h
    rw [set_file_content_loop] at h
    split at h
    · rename_i hb
      split at h
      · injection h with _ h
        rw [← h]
        exact hfirst b s hb hlen
      · rename_i h0
        split at h
        · injection h with _ h
          rw [← h]
          exact hsecond b s c0 hb hlen (hc c0 (by simp)) h0
        · rename_i h1
          simp only at h
          rw [or_word_set _ _ _ _ hb, or_word_set _ _ _ _ hb] at h
          have hwne : (0 ||| toU32 (c0 * 2 ^ ((1 - 0) * 8))) |||
              toU32 (c1 * 2 ^ ((1 - 1) * 8)) ≠ POINTER_MASK := by
            apply or_low_ne_pointer_mask
            rw [Nat.zero_or]
            exact toU32_shift8_low c0 (hc c0 (by simp)) h0
          generalize (0 ||| toU32 (c0 * 2 ^ ((1 - 0) * 8))) |||
              toU32 (c1 * 2 ^ ((1 - 1) * 8)) = w at h hwne
          cases hf : find_first_free (s.memory.set b w) with
          | none => rw [hf] at h; cases h
          | some nb =>
            rw [hf] at h
            simp only at h
            rw [find_first_free_some] at hf
            obtain ⟨hfree, _⟩ := hf
            have hnb_lt : nb < s.memory.length := by
              simpa using is_memory_free_lt _ _ hfree
            have hnb_ne : nb ≠ b := by
              rintro rfl
              rw [is_memory_free_set_self _ _ _ hwne] at hfree
              cases hfree
            rw [is_memory_free_set_ne _ _ _ _ hnb_ne] at hfree
            rw [set_next_block_index_set _ _ _ _ hb, set_next_word_eq _ _ (by omega)] at h
            have hw2ne : nb * 65536 + w % 65536 ≠ POINTER_MASK := by
              unfold POINTER_MASK; omega
            obtain ⟨t, hch, hnf, htfree, hnbt, hnd, hframe, hl, hfiles⟩ :=
              ih nb ⟨s.memory.set b (nb * 65536 + w % 65536), s.files⟩ s'
                (fun c hcm => hc c (by simp [hcm])) (by simpa using hlen) h
            simp only [List.length_set] at hl
            have hbt : b ∉ t := by
              intro hmem
              have := htfree b hmem
              rw [is_memory_free_set_self _ _ _ hw2ne] at this
              cases this
            have hb_s' : s'.memory[b]? = some (nb * 65536 + w % 65536) := by
              rw [hframe b (by simp [hbt, Ne.symm hnb_ne])]
              simp [List.getElem?_set, hb]
            refine ⟨nb :: t, ?_, ?_, ?_, ?_, ?_, ?_, hl, hfiles⟩
            · rw [isChain_cons]
              refine ⟨by omega, rfl, _, hb_s', ?_⟩
              rw [next_of_word_eq]
              have : (nb * 65536 + w % 65536) / 65536 = nb := by omega
              rw [this]
              exact hch
            · intro x hx
              rcases List.mem_cons.mp hx with rfl | hx
              · unfold is_memory_free
                rw [hb_s']
                simpa using hw2ne
              · exact hnf x hx
            · intro x hx
              rcases List.mem_cons.mp hx with rfl | hx
              · exact hfree
              · have hxb : x ≠ b := fun e => hbt (by rw [← e]; exact hx)
                have := htfree x hx
                rwa [is_memory_free_set_ne _ _ _ _ hxb] at this
            · simp [hbt, Ne.symm hnb_ne]
            · exact List.nodup_cons.mpr ⟨hnbt, hnd⟩
            · intro i hi
              simp only [List.mem_cons, not_or] at hi
              rw [hframe i (by simp [hi.2.1, hi.2.2])]
              exact List.getElem?_set_ne (Ne.symm hi.1)
    · cases h

/-! ## The lookup of other names, and the frame of a call -/

theorem strncmp_eq_valid (a c : List Char) (ha : a.length ≤ MAX_FILENAME_LENGTH)
    (hc : c.length ≤ MAX_FILENAME_LENGTH) :
    strncmp_eq a c MAX_FILENAME_LENGTH = true ↔ a = c := by
  unfold strncmp_eq
  rw [List.take_of_length_le ha, List.take_of_length_le hc]
  simp

theorem lookup_add_other (mem mem2 : List Nat) (files : List file_data) (k : Nat)
    (a c : List Char) (ha : a.length ≤ MAX_FILENAME_LENGTH) (hc : valid_name c) (hne : c ≠ a) :
    get_first_block_index_from_filename ⟨mem2, files ++ [⟨k, a⟩]⟩ c =
      get_first_block_index_from_filename ⟨mem, files⟩ c := by
  unfold get_first_block_index_from_filename
  simp only
  rw [List.find?_append]
  have hno : ([⟨k, a⟩] : List file_data).find?
      (fun f => strncmp_eq f.fileName c MAX_FILENAME_LENGTH) = none := by
    rw [List.find?_cons]
    have : strncmp_eq a c MAX_FILENAME_LENGTH = false := by
      cases hs : strncmp_eq a c MAX_FILENAME_LENGTH
      · rfl
      · exact absurd ((strncmp_eq_valid a c ha hc.2).mp hs).symm hne
    simp [this]
  rw [hno]
  simp

theorem lookup_clear_other (mem mem2 : List Nat) (files : List file_data)
    (a c : List Char) (ha : a.length ≤ MAX_FILENAME_LENGTH) (hc : valid_name c) (hne : c ≠ a) :
    get_first_block_index_from_filename ⟨mem2, clear_entries files a⟩ c =
      get_first_block_index_from_filename ⟨mem, files⟩ c := by
  unfold get_first_block_index_from_filename clear_entries
  simp only
  induction files with
  | nil => rfl
  | cons f fs ih =>
    have hcne : strncmp_eq [] c MAX_FILENAME_LENGTH = false := by
      unfold strncmp_eq MAX_FILENAME_LENGTH
      cases c with
      | nil => simp [valid_name, MIN_FILENAME_LENGTH] at hc
      | cons x xs => simp
    rw [List.map_cons, List.find?_cons, List.find?_cons]
    by_cases hfa : strncmp_eq f.fileName a MAX_FILENAME_LENGTH = true
    · have hfc : strncmp_eq f.fileName c MAX_FILENAME_LENGTH = false := by
        cases hs : strncmp_eq f.fileName c MAX_FILENAME_LENGTH
        · rfl
        · exfalso
          apply hne
          unfold strncmp_eq at hfa hs
          rw [List.take_of_length_le ha] at hfa
          rw [List.take_of_length_le hc.2] at hs
          have h1 : List.take MAX_FILENAME_LENGTH f.fileName = a := by simpa using hfa
          have h2 : List.take MAX_FILENAME_LENGTH f.fileName = c := by simpa using hs
          rw [← h2, h1]
      rw [if_pos hfa]
      simp only [hcne, hfc]
      exact ih
    · rw [if_neg hfa]
      cases hs : strncmp_eq f.fileName c MAX_FILENAME_LENGTH
      · simp only
        exact ih
      · rfl

/-- A file that the lookup still finds at the same block, and whose blocks a call has left
alone, has the same block sequence and the same bytes read back after the call. -/
theorem chain_frame_lookup (s s' : State) (other : List Char) (l : List Nat)
    (hlook : get_first_block_index_from_filename s' other =
      get_first_block_index_from_filename s other)
    (hlen : s'.memory.length = s.memory.length)
    (hsame : ∀ x ∈ l, s'.memory[x]? = s.memory[x]?)
    (hp : print_used_blocks_for_file s other = .ok l s) :
    print_used_blocks_for_file s' other = .ok l s' ∧
      ∀ r, read_file_content s other = .ok r s → read_file_content s' other = .ok r s' := by
  unfold print_used_blocks_for_file at hp
  cases hl : get_first_block_index_from_filename s other with
  | none => rw [hl] at hp; cases hp
  | some hb =>
    rw [hl] at hp hlook
    simp only at hp
    cases hpl : print_loop (s.memory.length + 1) s.memory hb [] with
    | undefined => rw [hpl] at hp; cases hp
    | diverges => rw [hpl] at hp; cases hp
    | done out =>
      rw [hpl] at hp
      injection hp with hout _
      subst hout
      obtain ⟨l, hr, hch, hfuel⟩ := print_loop_done _ _ _ _ _ hpl
      simp only [List.nil_append] at hr
      subst hr
      have hch' : isChain s'.memory hb out = true := isChain_congr _ _ _ _ hsame hch
      constructor
      · unfold print_used_blocks_for_file
        rw [hlook]
        simp only
        rw [hlen, print_loop_chain _ _ _ _ _ hch' hfuel]
        simp
      · intro r hr
        unfold read_file_content count_used_blocks_for_file at hr ⊢
        rw [hl] at hr
        rw [hlook]
        simp only at hr ⊢
        rw [count_loop_chain _ _ _ _ _ hch hfuel] at hr
        rw [hlen, count_loop_chain _ _ _ _ _ hch' hfuel]
        simp only at hr ⊢
        rw [read_loop_chain _ _ _ _ _ hch hfuel] at hr
        rw [read_loop_chain _ _ _ _ _ hch' hfuel, flatMap_bytes_congr _ _ _ hsame]
        simp only at hr ⊢
        injection hr with hr _
        rw [hr]

/-- The block sequence printed for a file is its chain. -/
theorem print_ok_chain (s : State) (name : List Char) (l : List Nat)
    (hp : print_used_blocks_for_file s name = .ok l s) :
    ∃ h, get_first_block_index_from_filename s name = some h ∧
      isChain s.memory h l = true := by
  unfold print_used_blocks_for_file at hp
  cases hl : get_first_block_index_from_filename s name with
  | none => rw [hl] at hp; cases hp
  | some hb =>
    rw [hl] at hp
    simp only at hp
    cases hpl : print_loop (s.memory.length + 1) s.memory hb [] with
    | undefined => rw [hpl] at hp; cases hp
    | diverges => rw [hpl] at hp; cases hp
    | done out =>
      rw [hpl] at hp
      injection hp with hout _
      subst hout
      obtain ⟨l, hr, hch, _⟩ := print_loop_done _ _ _ _ _ hpl
      simp only [List.nil_append] at hr
      subst hr
      exact ⟨hb, rfl, hch⟩

/-- A chain without repeats is printed in full. -/
theorem print_of_chain (s : State) (name : List Char) (h : Nat) (l : List Nat)
    (hlook : get_first_block_index_from_filename s name = some h)
    (hch : isChain s.memory h l = true) (hnd : l.Nodup) :
    print_used_blocks_for_file s name = .ok l s := by
  have hfuel : l.length < s.memory.length + 1 := by
    have := length_le_of_nodup_lt _ _ hnd (isChain_lt _ _ _ hch)
    omega
  unfold print_used_blocks_for_file
  rw [hlook]
  simp only
  rw [print_loop_chain _ _ _ _ _ hch hfuel]
  simp

/-! ## What each call does in a state with well-formed chains -/

theorem chain_of_live (s : State) (hinv : chain_inv s) (c : List Char) (h : Nat)
    (l : List Nat) (hc : valid_name c)
    (hlook : get_first_block_index_from_filename s c = some h)
    (hch : isChain s.memory h l = true) :
    h < s.memory.length ∧ l.Nodup ∧ (∀ x ∈ l, is_memory_free s.memory x = false) ∧ h ∈ l := by
  obtain ⟨hlt, l0, hch0, hnd0, hnf0⟩ := hinv.2.1 c h hc hlook
  have e := isChain_unique _ _ _ _ hch hch0
  subst e
  refine ⟨hlt, hnd0, hnf0, ?_⟩
  cases l with
  | nil =>
    rw [isChain_nil] at hch
    have := hinv.1
    omega
  | cons y ys =>
    rw [isChain_cons] at hch
    rw [hch.2.1]
    exact List.mem_cons_self _ _

theorem add_new_file_facts (s s' : State) (a : List Char)
    (hadd : add_new_file s a = .ok () s') :
    ∃ k, is_memory_free s.memory k = true ∧ s'.memory = s.memory.set k 0xffff0001 ∧
      get_first_block_index_from_filename s' a = some k ∧ valid_name a ∧
      (∀ c, valid_name c → c ≠ a →
        get_first_block_index_from_filename s' c =
          get_first_block_index_from_filename s c) := by
  obtain ⟨k, hfind, hs, _, hlook, hmin⟩ := add_new_file_ok s s' a hadd
  obtain ⟨_, _, hmax⟩ := add_new_file_files s s' a hadd
  refine ⟨k, ((find_first_free_some _ _).mp hfind).1, by rw [hs], hlook, ⟨hmin, hmax⟩, ?_⟩
  intro c hc hne
  rw [hs]
  exact lookup_add_other s.memory _ s.files k a c hmax hc hne

theorem set_file_content_facts (s s' : State) (a : List Char) (content : List Int)
    (hlen : s.memory.length ≤ 0xffff) (hchars : ∀ c ∈ content, is_char c)
    (hset : set_file_content s a content = .ok () s') :
    ∃ b t, get_first_block_index_from_filename s a = some b ∧
      isChain s'.memory b (b :: t) = true ∧
      (∀ x ∈ b :: t, is_memory_free s'.memory x = false) ∧
      (∀ x ∈ t, is_memory_free s.memory x = true) ∧ (b :: t).Nodup ∧
      (∀ i, i ∉ b :: t → s'.memory[i]? = s.memory[i]?) ∧
      s'.memory.length = s.memory.length ∧ s'.files = s.files := by
  unfold set_file_content at hset
  cases hl : get_first_block_index_from_filename s a with
  | none => rw [hl] at hset; cases hset
  | some b =>
    rw [hl] at hset
    obtain ⟨t, hch, hnf, hfree, hbt, hnd, hframe, hlen', hfiles⟩ :=
      set_file_content_loop_chain content b s s' hchars hlen hset
    exact ⟨b, t, rfl, hch, hnf, hfree, List.nodup_cons.mpr ⟨hbt, hnd⟩, hframe, hlen', hfiles⟩

theorem delete_file_facts (s s' : State) (a : List Char) (hinv : chain_inv s)
    (ha : valid_name a) (hdel : delete_file s a = .ok () s') :
    ∃ b l, get_first_block_index_from_filename s a = some b ∧
      isChain s.memory b l = true ∧ l.Nodup ∧
      s'.memory.length = s.memory.length ∧
      (∀ x ∈ l, s'.memory[x]? = some POINTER_MASK) ∧
      (∀ i, i ∉ l → s'.memory[i]? = s.memory[i]?) ∧
      get_first_block_index_from_filename s' a = none ∧
      (∀ c, valid_name c → c ≠ a →
        get_first_block_index_from_filename s' c =
          get_first_block_index_from_filename s c) := by
  have hfiles := delete_file_files s s' a hdel
  unfold delete_file at hdel
  cases hl : get_first_block_index_from_filename s a with
  | none => rw [hl] at hdel; cases hdel
  | some b =>
    rw [hl] at hdel
    simp only at hdel
    obtain ⟨_, l, hch, hnd, _⟩ := hinv.2.1 a b ha hl
    have hfuel : l.length < s.memory.length + 2 := by
      have := length_le_of_nodup_lt _ _ hnd (isChain_lt _ _ _ hch)
      omega
    obtain ⟨mem', hd, hlen, hfr, hfr'⟩ := delete_loop_chain l _ b s.memory hch hnd hfuel
    rw [hd] at hdel
    simp only at hdel
    injection hdel with _ hs
    have hmem : s'.memory = mem' := by rw [← hs]
    refine ⟨b, l, rfl, hch, hnd, by rw [hmem]; exact hlen, by rw [hmem]; exact hfr,
      by rw [hmem]; exact hfr', ?_, ?_⟩
    · rw [← hs]
      exact lookup_clear_entries _ _ _ ha.1
    · intro c hc hne
      rw [← hs]
      exact lookup_clear_other s.memory _ s.files a c ha.2 hc hne

theorem is_memory_free_congr (mem mem2 : List Nat) (x : Nat) (h : mem2[x]? = mem[x]?) :
    is_memory_free mem2 x = is_memory_free mem x := by
  unfold is_memory_free
  rw [h]

/-- The invariant is kept by a call on the file `a` that leaves the chains of the other live
files alone and leaves `a` either without a directory slot or with a well-formed chain of its
own. -/
theorem chain_inv_step (s s' : State) (a : List Char) (hinv : chain_inv s)
    (hlen : s'.memory.length = s.memory.length)
    (hlook : ∀ c, valid_name c → c ≠ a →
      get_first_block_index_from_filename s' c = get_first_block_index_from_filename s c)
    (hsame : ∀ c h l, valid_name c → c ≠ a →
      get_first_block_index_from_filename s c = some h → isChain s.memory h l = true →
      ∀ x ∈ l, s'.memory[x]? = s.memory[x]?)
    (hnew : ∀ h, get_first_block_index_from_filename s' a = some h →
      h < s'.memory.length ∧
      ∃ l, isChain s'.memory h l = true ∧ l.Nodup ∧
        (∀ x ∈ l, is_memory_free s'.memory x = false) ∧
        ∀ c hc lc, valid_name c → c ≠ a →
          get_first_block_index_from_filename s c = some hc →
          isChain s.memory hc lc = true → ∀ x ∈ l, x ∉ lc) :
    chain_inv s' := by
  have hold : ∀ c h l, valid_name c → c ≠ a →
      get_first_block_index_from_filename s' c = some h → isChain s'.memory h l = true →
      get_first_block_index_from_filename s c = some h ∧ isChain s.memory h l = true := by
    intro c h l hc hne hl hch
    rw [hlook c hc hne] at hl
    obtain ⟨_, l0, hch0, _, _⟩ := hinv.2.1 c h hc hl
    have hch0' := isChain_congr _ _ _ _ (hsame c h l0 hc hne hl hch0) hch0
    have e := isChain_unique _ _ _ _ hch hch0'
    rw [e]
    exact ⟨hl, hch0⟩
  refine ⟨by rw [hlen]; exact hinv.1, ?_, ?_⟩
  · intro name h hv hl
    by_cases hna : name = a
    · subst hna
      obtain ⟨hlt, l, hch, hnd, hnf, _⟩ := hnew h hl
      exact ⟨hlt, l, hch, hnd, hnf⟩
    · have hl0 := hl
      rw [hlook name hv hna] at hl0
      obtain ⟨hlt, l0, hch0, hnd0, hnf0⟩ := hinv.2.1 name h hv hl0
      have hs := hsame name h l0 hv hna hl0 hch0
      refine ⟨by rw [hlen]; exact hlt, l0, isChain_congr _ _ _ _ hs hch0, hnd0, ?_⟩
      intro x hx
      rw [is_memory_free_congr _ _ _ (hs x hx)]
      exact hnf0 x hx
  · intro n1 n2 h1 h2 l1 l2 hv1 hv2 hne hl1 hl2 hc1 hc2 x hx1 hx2
    by_cases h1a : n1 = a
    · subst h1a
      obtain ⟨_, l, hch, _, _, hdis⟩ := hnew h1 hl1
      have e := isChain_unique _ _ _ _ hc1 hch
      subst e
      obtain ⟨hl2', hc2'⟩ := hold n2 h2 l2 hv2 (Ne.symm hne) hl2 hc2
      exact hdis n2 h2 l2 hv2 (Ne.symm hne) hl2' hc2' x hx1 hx2
    · obtain ⟨hl1', hc1'⟩ := hold n1 h1 l1 hv1 h1a hl1 hc1
      by_cases h2a : n2 = a
      · subst h2a
        obtain ⟨_, l, hch, _, _, hdis⟩ := hnew h2 hl2
        have e := isChain_unique _ _ _ _ hc2 hch
        subst e
        exact hdis n1 h1 l1 hv1 h1a hl1' hc1' x hx2 hx1
      · obtain ⟨hl2', hc2'⟩ := hold n2 h2 l2 hv2 h2a hl2 hc2
        exact hinv.2.2 n1 n2 h1 h2 l1 l2 hv1 hv2 hne hl1' hl2' hc1' hc2' x hx1 hx2

/-- The files other than `a` keep their block sequence and the bytes read back over a call that
leaves their first block and their blocks alone. -/
theorem others_frame (s s' : State) (a : List Char)
    (hlen : s'.memory.length = s.memory.length)
    (hlook : ∀ c, valid_name c → c ≠ a →
      get_first_block_index_from_filename s' c = get_first_block_index_from_filename s c)
    (hsame : ∀ c h l, valid_name c → c ≠ a →
      get_first_block_index_from_filename s c = some h → isChain s.memory h l = true →
      ∀ x ∈ l, s'.memory[x]? = s.memory[x]?) :
    ∀ c, valid_name c → c ≠ a → ∀ l, print_used_blocks_for_file s c = .ok l s →
      print_used_blocks_for_file s' c = .ok l s' ∧
      ∀ r, read_file_content s c = .ok r s → read_file_content s' c = .ok r s' := by
  intro c hc hne l hp
  obtain ⟨h, hl, hch⟩ := print_ok_chain s c l hp
  exact chain_frame_lookup s s' c l (hlook c hc hne) hlen (hsame c h l hc hne hl hch) hp

theorem add_new_file_same (s s' : State) (a : List Char) (hinv : chain_inv s)
    (hadd : add_new_file s a = .ok () s') :
    ∀ c h l, valid_name c → c ≠ a →
      get_first_block_index_from_filename s c = some h → isChain s.memory h l = true →
      ∀ x ∈ l, s'.memory[x]? = s.memory[x]? := by
  obtain ⟨k, hkfree, hmem, _, _, _⟩ := add_new_file_facts s s' a hadd
  intro c h l hc _ hl hch x hx
  obtain ⟨_, _, hnf, _⟩ := chain_of_live s hinv c h l hc hl hch
  have hxk : k ≠ x := by
    intro e
    have := hnf x hx
    rw [← e, hkfree] at this
    cases this
  rw [hmem]
  exact List.getElem?_set_ne hxk

theorem set_file_content_same (s s' : State) (a : List Char) (hinv : chain_inv s)
    (ha : valid_name a) (b : Nat) (t : List Nat)
    (hla : get_first_block_index_from_filename s a = some b)
    (hfree : ∀ x ∈ t, is_memory_free s.memory x = true)
    (hframe : ∀ i, i ∉ b :: t → s'.memory[i]? = s.memory[i]?) :
    ∀ c h l, valid_name c → c ≠ a →
      get_first_block_index_from_filename s c = some h → isChain s.memory h l = true →
      ∀ x ∈ l, x ∉ b :: t ∧ s'.memory[x]? = s.memory[x]? := by
  intro c h l hc hne hl hch x hx
  obtain ⟨_, _, hnf, _⟩ := chain_of_live s hinv c h l hc hl hch
  obtain ⟨_, la, hcha, _, _⟩ := hinv.2.1 a b ha hla
  obtain ⟨_, _, _, hbla⟩ := chain_of_live s hinv a b la ha hla hcha
  have hdis := hinv.2.2 a c b h la l ha hc (Ne.symm hne) hla hl hcha hch
  have hnot : x ∉ b :: t := by
    intro hmem
    rcases List.mem_cons.mp hmem with e | hxt
    · rw [e] at hx
      exact hdis b hbla hx
    · have := hnf x hx
      rw [hfree x hxt] at this
      cases this
  exact ⟨hnot, hframe x hnot⟩

theorem delete_file_same (s s' : State) (a : List Char) (hinv : chain_inv s)
    (ha : valid_name a) (b : Nat) (la : List Nat)
    (hla : get_first_block_index_from_filename s a = some b)
    (hcha : isChain s.memory b la = true)
    (hframe : ∀ i, i ∉ la → s'.memory[i]? = s.memory[i]?) :
    ∀ c h l, valid_name c → c ≠ a →
      get_first_block_index_from_filename s c = some h → isChain s.memory h l = true →
      ∀ x ∈ l, s'.memory[x]? = s.memory[x]? := by
  intro c h l hc hne hl hch x hx
  have hdis := hinv.2.2 c a h b l la hc ha hne hl hla hch hcha
  exact hframe x (hdis x hx)

/-! ## The invariant is kept by the three calls -/

theorem chain_inv_init (n : Nat) (hn : n ≤ 0xffff) : chain_inv (initState n) := by
  refine ⟨by simpa [initState] using hn, ?_, ?_⟩
  · intro name h _ hl
    simp [get_first_block_index_from_filename, initState] at hl
  · intro n1 n2 h1 h2 l1 l2 _ _ _ hl
    simp [get_first_block_index_from_filename, initState] at hl

theorem chain_inv_add (s s' : State) (a : List Char) (hinv : chain_inv s)
    (hadd : add_new_file s a = .ok () s') : chain_inv s' := by
  obtain ⟨k, hkfree, hmem, hlooka, _, hlook⟩ := add_new_file_facts s s' a hadd
  have hklt := is_memory_free_lt _ _ hkfree
  have hlen : s'.memory.length = s.memory.length := by rw [hmem]; simp
  have hwk : s'.memory[k]? = some 0xffff0001 := by
    rw [hmem]; simp [List.getElem?_set, hklt]
  apply chain_inv_step s s' a hinv hlen hlook (add_new_file_same s s' a hinv hadd)
  intro h hl
  rw [hlooka] at hl
  injection hl with hl
  subst hl
  refine ⟨by omega, [k], ?_, by simp, ?_, ?_⟩
  · rw [isChain_cons]
    exact ⟨by have := hinv.1; omega, rfl, _, hwk, by rw [isChain_nil, next_of_word_eq]⟩
  · intro x hx
    simp only [List.mem_singleton] at hx
    subst hx
    unfold is_memory_free
    rw [hwk]
    decide
  · intro c hc lc hvc _ hlc hchc x hx hxl
    simp only [List.mem_singleton] at hx
    subst hx
    obtain ⟨_, _, hnf, _⟩ := chain_of_live s hinv c hc lc hvc hlc hchc
    have := hnf x hxl
    rw [hkfree] at this
    cases this

theorem chain_inv_write (s s' : State) (a : List Char) (content : List Int)
    (hinv : chain_inv s) (ha : valid_name a) (hchars : ∀ c ∈ content, is_char c)
    (hset : set_file_content s a content = .ok () s') : chain_inv s' := by
  obtain ⟨b, t, hla, hch, hnf, hfree, hnd, hframe, hlen, hfiles⟩ :=
    set_file_content_facts s s' a content hinv.1 hchars hset
  have hsame := set_file_content_same s s' a hinv ha b t hla hfree hframe
  apply chain_inv_step s s' a hinv hlen (fun c _ _ => lookup_congr s s' c hfiles)
    (fun c h l hc hne hl hchl x hx => (hsame c h l hc hne hl hchl x hx).2)
  intro h hl
  rw [lookup_congr s s' a hfiles, hla] at hl
  injection hl with hl
  subst hl
  refine ⟨isChain_lt _ _ _ hch b (List.mem_cons_self _ _), b :: t, hch, hnd, hnf, ?_⟩
  intro c hc lc hvc hne hlc hchc x hx hxl
  exact (hsame c hc lc hvc hne hlc hchc x hxl).1 hx

theorem chain_inv_delete (s s' : State) (a : List Char) (hinv : chain_inv s)
    (ha : valid_name a) (hdel : delete_file s a = .ok () s') : chain_inv s' := by
  obtain ⟨b, la, hla, hcha, _, hlen, _, hframe, hnone, hlook⟩ :=
    delete_file_facts s s' a hinv ha hdel
  apply chain_inv_step s s' a hinv hlen hlook
    (delete_file_same s s' a hinv ha b la hla hcha hframe)
  intro h hl
  rw [hnone] at hl
  cases hl

theorem reachable_valid_inv (n : Nat) (s : State) (hn : n ≤ 0xffff)
    (hr : ReachableValid n s) : chain_inv s ∧ s.memory.length = n := by
  induction hr with
  | init => exact ⟨chain_inv_init n hn, by simp [initState]⟩
  | add s s' name _ hadd ih =>
    refine ⟨chain_inv_add s s' name ih.1 hadd, ?_⟩
    obtain ⟨k, _, hmem, _⟩ := add_new_file_facts s s' name hadd
    rw [hmem, List.length_set]
    exact ih.2
  | write s s' name content _ hv hc hset ih =>
    refine ⟨chain_inv_write s s' name content ih.1 hv hc hset, ?_⟩
    obtain ⟨_, _, _, _, _, _, _, _, hlen, _⟩ :=
      set_file_content_facts s s' name content ih.1.1 hc hset
    rw [hlen]
    exact ih.2
  | delete s s' name _ hv hdel ih =>
    refine ⟨chain_inv_delete s s' name ih.1 hv hdel, ?_⟩
    obtain ⟨_, _, _, _, _, hlen, _⟩ := delete_file_facts s s' name ih.1 hv hdel
    rw [hlen]
    exact ih.2

/-! ## C13: well-formed chains in every reachable state -/

/-- C13: in every state reached from the initial state of a pool of `n` blocks (`n` at most
`0xffff`; 1000 in `main`) by calls of `add_new_file`, `set_file_content` and `delete_file` that
return, made with valid names, the pool still has `n` blocks and, for every live file (a valid
name that the lookup finds), the walk of its chain ends: the block sequence `l` is not empty,
visits only indices below `n`, has no repeats, has at most `n` blocks, contains no free block,
and shares no block with the block sequence of another live file. -/
theorem reachable_chains_well_formed (n : Nat) (s : State) (hn : n ≤ 0xffff)
    (hr : ReachableValid n s) :
    s.memory.length = n ∧
    ∀ name h, valid_name name → get_first_block_index_from_filename s name = some h →
      ∃ l, print_used_blocks_for_file s name = .ok l s ∧ l ≠ [] ∧
        (∀ x ∈ l, x < n) ∧ l.Nodup ∧ l.length ≤ n ∧
        (∀ x ∈ l, is_memory_free s.memory x = false) ∧
        ∀ other l2, valid_name other → other ≠ name →
          print_used_blocks_for_file s other = .ok l2 s → ∀ x ∈ l, x ∉ l2 := by
  obtain ⟨hinv, hlen⟩ := reachable_valid_inv n s hn hr
  refine ⟨hlen, ?_⟩
  intro name h hv hl
  obtain ⟨_, l, hch, hnd, hnf⟩ := hinv.2.1 name h hv hl
  obtain ⟨_, _, _, hmem⟩ := chain_of_live s hinv name h l hv hl hch
  have hlt : ∀ x ∈ l, x < n := by
    intro x hx
    rw [← hlen]
    exact isChain_lt _ _ _ hch x hx
  refine ⟨l, print_of_chain s name h l hl hch hnd, List.ne_nil_of_mem hmem, hlt, hnd,
    length_le_of_nodup_lt _ _ hnd hlt, hnf, ?_⟩
  intro other l2 hvo hne hp x hx
  obtain ⟨h2, hl2, hch2⟩ := print_ok_chain s other l2 hp
  exact hinv.2.2 name other h h2 l l2 hv hvo (Ne.symm hne) hl hl2 hch hch2 x hx

set_option maxRecDepth 100000 in
/-- The first four calls of `main` are made with valid names and contents of `char` values, and
they return. -/
theorem demo_two_written_reachable : ReachableValid BLOCK_COUNT demo_two_written :=
  .write demo_two_added _ "muh.txt".toList (content_of muh_content)
    (.add demo_written _ "muh.txt".toList
      (.write demo_added _ haha (content_of [114, 100, 114, 114])
        (.add _ _ haha .init (by decide)) (by decide) (by decide) (by decide))
      (by decide))
    (by decide) (by decide) (by decide)

set_option maxRecDepth 100000 in
/-- C13 in `main` after the first two files were written: `"haha.h"` has the blocks 0 to 2 and
`"muh.txt"` the blocks 3 to 7. -/
theorem reachable_chains_well_formed_witness :
    (demo_two_written.memory.length = BLOCK_COUNT ∧
    ∀ name h, valid_name name →
      get_first_block_index_from_filename demo_two_written name = some h →
      ∃ l, print_used_blocks_for_file demo_two_written name = .ok l demo_two_written ∧
        l ≠ [] ∧ (∀ x ∈ l, x < BLOCK_COUNT) ∧ l.Nodup ∧ l.length ≤ BLOCK_COUNT ∧
        (∀ x ∈ l, is_memory_free demo_two_written.memory x = false) ∧
        ∀ other l2, valid_name other → other ≠ name →
          print_used_blocks_for_file demo_two_written other = .ok l2 demo_two_written →
          ∀ x ∈ l, x ∉ l2) ∧
    print_used_blocks_for_file demo_two_written haha = .ok [0, 1, 2] demo_two_written ∧
    print_used_blocks_for_file demo_two_written "muh.txt".toList =
      .ok [3, 4, 5, 6, 7] demo_two_written :=
  ⟨reachable_chains_well_formed BLOCK_COUNT demo_two_written (by decide)
    demo_two_written_reachable, by decide, by decide⟩

/-! ## C20: the frame of the three calls -/

/-- C20: in a state that satisfies the chain well-formedness invariant, a call of
`add_new_file(a)` that returns changes one block only, which was free; a call of
`set_file_content(a, content)` that returns (valid name, content of `char` values) changes only
the first block of `a` and blocks that were free; a call of `delete_file(a)` that returns
(valid name) changes only blocks of the chain of `a`. After each of them every other live file
has the block sequence it had and `read_file_content` returns for it the bytes it returned
before. -/
theorem mutating_calls_frame (s : State) (hinv : chain_inv s) :
    (∀ a s', add_new_file s a = .ok () s' →
      (∃ k, is_memory_free s.memory k = true ∧
        ∀ i, i ≠ k → s'.memory[i]? = s.memory[i]?) ∧
      ∀ c, valid_name c → c ≠ a → ∀ l, print_used_blocks_for_file s c = .ok l s →
        print_used_blocks_for_file s' c = .ok l s' ∧
        ∀ r, read_file_content s c = .ok r s → read_file_content s' c = .ok r s') ∧
    (∀ a content s', valid_name a → (∀ c ∈ content, is_char c) →
      set_file_content s a content = .ok () s' →
      (∃ b, get_first_block_index_from_filename s a = some b ∧
        ∀ i, i ≠ b → is_memory_free s.memory i = false → s'.memory[i]? = s.memory[i]?) ∧
      ∀ c, valid_name c → c ≠ a → ∀ l, print_used_blocks_for_file s c = .ok l s →
        print_used_blocks_for_file s' c = .ok l s' ∧
        ∀ r, read_file_content s c = .ok r s → read_file_content s' c = .ok r s') ∧
    (∀ a s', valid_name a → delete_file s a = .ok () s' →
      (∃ l, print_used_blocks_for_file s a = .ok l s ∧
        ∀ i, i ∉ l → s'.memory[i]? = s.memory[i]?) ∧
      ∀ c, valid_name c → c ≠ a → ∀ l, print_used_blocks_for_file s c = .ok l s →
        print_used_blocks_for_file s' c = .ok l s' ∧
        ∀ r, read_file_content s c = .ok r s → read_file_content s' c = .ok r s') := by
  refine ⟨?_, ?_, ?_⟩
  · intro a s' hadd
    obtain ⟨k, hkfree, hmem, _, _, hlook⟩ := add_new_file_facts s s' a hadd
    have hlen : s'.memory.length = s.memory.length := by rw [hmem]; simp
    refine ⟨⟨k, hkfree, fun i hi => ?_⟩,
      others_frame s s' a hlen hlook (add_new_file_same s s' a hinv hadd)⟩
    rw [hmem]
    exact List.getElem?_set_ne (Ne.symm hi)
  · intro a content s' ha hchars hset
    obtain ⟨b, t, hla, _, _, hfree, _, hframe, hlen, hfiles⟩ :=
      set_file_content_facts s s' a content hinv.1 hchars hset
    have hsame := set_file_content_same s s' a hinv ha b t hla hfree hframe
    refine ⟨⟨b, hla, fun i hib hnf => ?_⟩,
      others_frame s s' a hlen (fun c _ _ => lookup_congr s s' c hfiles)
        (fun c h l hc hne hl hchl x hx => (hsame c h l hc hne hl hchl x hx).2)⟩
    apply hframe
    intro hmem
    rcases List.mem_cons.mp hmem with e | hit
    · exact hib e
    · rw [hfree i hit] at hnf
      cases hnf
  · intro a s' ha hdel
    obtain ⟨b, la, hla, hcha, hnd, hlen, _, hframe, _, hlook⟩ :=
      delete_file_facts s s' a hinv ha hdel
    exact ⟨⟨la, print_of_chain s a b la hla hcha hnd, hframe⟩,
      others_frame s s' a hlen hlook (delete_file_same s s' a hinv ha b la hla hcha hframe)⟩

/-- C20 in `main` after the first two files were written. -/
theorem mutating_calls_frame_witness :
    (∀ a s', add_new_file demo_two_written a = .ok () s' →
      (∃ k, is_memory_free demo_two_written.memory k = true ∧
        ∀ i, i ≠ k → s'.memory[i]? = demo_two_written.memory[i]?) ∧
      ∀ c, valid_name c → c ≠ a → ∀ l,
        print_used_blocks_for_file demo_two_written c = .ok l demo_two_written →
        print_used_blocks_for_file s' c = .ok l s' ∧
        ∀ r, read_file_content demo_two_written c = .ok r demo_two_written →
          read_file_content s' c = .ok r s') ∧
    (∀ a content s', valid_name a → (∀ c ∈ content, is_char c) →
      set_file_content demo_two_written a content = .ok () s' →
      (∃ b, get_first_block_index_from_filename demo_two_written a = some b ∧
        ∀ i, i ≠ b → is_memory_free demo_two_written.memory i = false →
          s'.memory[i]? = demo_two_written.memory[i]?) ∧
      ∀ c, valid_name c → c ≠ a → ∀ l,
        print_used_blocks_for_file demo_two_written c = .ok l demo_two_written →
        print_used_blocks_for_file s' c = .ok l s' ∧
        ∀ r, read_file_content demo_two_written c = .ok r demo_two_written →
          read_file_content s' c = .ok r s') ∧
    (∀ a s', valid_name a → delete_file demo_two_written a = .ok () s' →
      (∃ l, print_used_blocks_for_file demo_two_written a = .ok l demo_two_written ∧
        ∀ i, i ∉ l → s'.memory[i]? = demo_two_written.memory[i]?) ∧
      ∀ c, valid_name c → c ≠ a → ∀ l,
        print_used_blocks_for_file demo_two_written c = .ok l demo_two_written →
        print_used_blocks_for_file s' c = .ok l s' ∧
        ∀ r, read_file_content demo_two_written c = .ok r demo_two_written →
          read_file_content s' c = .ok r s') :=
  mutating_calls_frame demo_two_written
    (reachable_valid_inv BLOCK_COUNT demo_two_written (by decide)
      demo_two_written_reachable).1

end LinkedListAlloc
